import Mathlib

/-! Shallow embedding of `em::IndexMap` from `include/em/index_map.h`.

The container keeps two vectors: `indices` (one `IndexEntry` per issued key, in key order) and
`value_storage` (the live values, in dense order).  Vectors are lists, `std::size_t` and `KeyType`
values are natural numbers, and the two places where the source narrows or wraps an integer
(`KeyType(...)` casts and `value_storage.size() - 1`) are written with an explicit modulus.

Every mutating member function is a function from the map to a pair: what the call returned
(or the exception it threw) and the map the call left behind.  The second component is returned
on failure too, because a C++ exception does not undo what was done before the `throw`.

Parameters of the class template:
* `α`  the value type `T`,
* `π`  the `PersistentData` type (value-initialised, hence `Inhabited`),
* `w`  the number of bits of `KeyType`; `std::size_t` has 64 bits.
-/

namespace em

/-! ## Failures -/

/-- Exceptions of the container: each `std::out_of_range` message of the header is a constructor;
`assert_failed` stands for a failed `DETAIL_EM_INDEXMAP_ASSERT` (or the out-of-bounds vector access
that the assertion guards), after which the program does not continue. -/
inductive Error where
  | invalid_key
  | invalid_index
  | key_in_use
  | too_large
  | would_be_too_large
  | assert_failed
  deriving DecidableEq

/-- The `what()` text of the exception. -/
def Error.what : Error → String
  | .invalid_key => "Invalid index map key."
  | .invalid_index => "Invalid index map index."
  | .key_in_use => "This index map key is already in use."
  | .too_large => "Index map is too large."
  | .would_be_too_large => "Index map would be too large."
  | .assert_failed => "Assertion failed."

/-! ## Data model -/

/-- Mirror of `IndexMap::IndexEntry`. -/
structure IndexEntry (π : Type) where
  sparse_to_dense : Nat
  dense_to_sparse : Nat
  sparse_data : π
  deriving DecidableEq

/-- Mirror of `IndexMap`: the two member vectors. -/
structure IndexMap (α π : Type) where
  indices : List (IndexEntry π)
  value_storage : List α
  deriving DecidableEq

/-- Mirror of `IndexMap::insert_result`.  The two references are recorded by what they refer to:
`value` is the dense index of the referenced element of `value_storage`, `persistent_data` is the
position in `indices` of the entry whose `sparse_data` is referenced. -/
structure insert_result where
  key : Nat
  value : Nat
  persistent_data : Nat
  deriving DecidableEq

/-- Mirror of `IndexMap::KeyAndIndex`. -/
structure KeyAndIndex where
  k : Nat
  i : Nat
  deriving DecidableEq

/-- What move-assignment of `T` leaves behind, which C++ leaves to the value type:
`moved_from x` is the state of the source object after `y = std::move(x)`, and `self_move x` the
state of `x` after `x = std::move(x)`.  For a trivially copyable `T` both are the identity. -/
structure MoveOps (α : Type) where
  moved_from : α → α
  self_move : α → α

/-- Move semantics of a trivially copyable value type, such as `struct A {int x;}` of the tests. -/
def MoveOps.trivial (α : Type) : MoveOps α := ⟨id, id⟩

/-- What a call leaves: the returned value or the thrown exception, and the map afterwards. -/
abbrev Outcome (ρ α π : Type) := Except Error ρ × IndexMap α π

/-! ## Integer conversions -/

/-- The cast `KeyType(n)` for a `w`-bit unsigned key type. -/
def to_key (w n : Nat) : Nat := n % 2 ^ w

/-- The `std::size_t` subtraction `n - 1`, which wraps around at zero. -/
def size_pred (n : Nat) : Nat := (n + (2 ^ 64 - 1)) % 2 ^ 64

variable {α π : Type}

/-! ## Observers -/

/-- The default-constructed map. -/
def empty : IndexMap α π := ⟨[], []⟩

/-- Mirror of `size()`. -/
def size (m : IndexMap α π) : Nat := m.value_storage.length

/-- Mirror of `keys_size()`. -/
def keys_size (m : IndexMap α π) : Nat := m.indices.length

/-- Mirror of `max_size()`: `numeric_limits<KeyType>::max() + (sizeof(KeyType) < sizeof(size_t))`. -/
def max_size (w : Nat) : Nat := (2 ^ w - 1) + (if w < 64 then 1 else 0)

/-- Mirror of `contains_relaxed(key)`. -/
def contains_relaxed (m : IndexMap α π) (k : Nat) : Bool := decide (k < m.indices.length)

/-- Mirror of `valid_index(i)`. -/
def valid_index (m : IndexMap α π) (i : Nat) : Bool := decide (i < size m)

/-- Mirror of `valid_index_relaxed(i)`. -/
def valid_index_relaxed (m : IndexMap α π) (i : Nat) : Bool := decide (i < m.indices.length)

/-- Mirror of `key_to_index_unsafe(key)`: asserts `contains_relaxed(k)`, then reads
`indices[k].sparse_to_dense`. -/
def key_to_index_unsafe (m : IndexMap α π) (k : Nat) : Except Error Nat :=
  match m.indices[k]? with
  | some e => .ok e.sparse_to_dense
  | none => .error .assert_failed

/-- Mirror of `index_to_key_unsafe(i)`: asserts `valid_index_relaxed(i)`, then reads
`indices[i].dense_to_sparse`. -/
def index_to_key_unsafe (m : IndexMap α π) (i : Nat) : Except Error Nat :=
  match m.indices[i]? with
  | some e => .ok e.dense_to_sparse
  | none => .error .assert_failed

/-- Mirror of `key_to_index_relaxed(key)`. -/
def key_to_index_relaxed (m : IndexMap α π) (k : Nat) : Except Error Nat :=
  if contains_relaxed m k then key_to_index_unsafe m k else .error .invalid_key

/-- Mirror of `contains(key)`: `contains_relaxed(k) && valid_index(key_to_index_relaxed(k))`. -/
def contains (m : IndexMap α π) (k : Nat) : Bool :=
  contains_relaxed m k &&
    (match key_to_index_relaxed m k with
     | .ok i => valid_index m i
     | .error _ => false)

/-- Mirror of `key_to_index(key)`. -/
def key_to_index (m : IndexMap α π) (k : Nat) : Except Error Nat :=
  if contains m k then key_to_index_unsafe m k else .error .invalid_key

/-- Mirror of `index_to_key(i)`. -/
def index_to_key (m : IndexMap α π) (i : Nat) : Except Error Nat :=
  if valid_index m i then index_to_key_unsafe m i else .error .invalid_index

/-- Mirror of `index_to_key_relaxed(i)`. -/
def index_to_key_relaxed (m : IndexMap α π) (i : Nat) : Except Error Nat :=
  if valid_index_relaxed m i then index_to_key_unsafe m i else .error .invalid_index

/-- Mirror of `operator[](std::size_t i)`: validates the index, then reads `value_storage[i]`. -/
def at_index (m : IndexMap α π) (i : Nat) : Except Error α :=
  if valid_index m i then
    match m.value_storage[i]? with
    | some v => .ok v
    | none => .error .assert_failed
  else .error .invalid_index

/-- Mirror of `operator[](key k)`: `value_storage[key_to_index(k)]`. -/
def at_key (m : IndexMap α π) (k : Nat) : Except Error α :=
  match key_to_index m k with
  | .ok i =>
    match m.value_storage[i]? with
    | some v => .ok v
    | none => .error .assert_failed
  | .error e => .error e

/-- Mirror of `get_persistent_data(key k)`. -/
def get_persistent_data (m : IndexMap α π) (k : Nat) : Except Error π :=
  if contains_relaxed m k then
    match m.indices[k]? with
    | some e => .ok e.sparse_data
    | none => .error .assert_failed
  else .error .invalid_key

/-- Mirror of `get_persistent_data(std::size_t i)`: `get_persistent_data(index_to_key(i))`. -/
def get_persistent_data_index (m : IndexMap α π) (i : Nat) : Except Error π :=
  match index_to_key m i with
  | .ok k => get_persistent_data m k
  | .error e => .error e

/-- Mirror of the constructor `KeyAndIndex(self, key k)`. -/
def KeyAndIndex.of_key (m : IndexMap α π) (k : Nat) : Except Error KeyAndIndex :=
  match key_to_index_unsafe m k with
  | .ok i => .ok ⟨k, i⟩
  | .error e => .error e

/-- Mirror of the constructor `KeyAndIndex(self, std::size_t i)`. -/
def KeyAndIndex.of_index (m : IndexMap α π) (i : Nat) : Except Error KeyAndIndex :=
  match index_to_key_unsafe m i with
  | .ok k => .ok ⟨k, i⟩
  | .error e => .error e

/-! ## Private helpers of the class -/

/-- The statement `std::swap(indices[p].sparse_to_dense, indices[q].sparse_to_dense)`. -/
def swap_sparse_to_dense (ix : List (IndexEntry π)) (p q : Nat) :
    Except Error (List (IndexEntry π)) :=
  match ix[p]?, ix[q]? with
  | some ep, some eq =>
    .ok ((ix.set p { ep with sparse_to_dense := eq.sparse_to_dense }).set q
      { eq with sparse_to_dense := ep.sparse_to_dense })
  | _, _ => .error .assert_failed

/-- The statement `std::swap(indices[p].dense_to_sparse, indices[q].dense_to_sparse)`. -/
def swap_dense_to_sparse (ix : List (IndexEntry π)) (p q : Nat) :
    Except Error (List (IndexEntry π)) :=
  match ix[p]?, ix[q]? with
  | some ep, some eq =>
    .ok ((ix.set p { ep with dense_to_sparse := eq.dense_to_sparse }).set q
      { eq with dense_to_sparse := ep.dense_to_sparse })
  | _, _ => .error .assert_failed

/-- Mirror of `swap_indices_only_relaxed(a, b)`. -/
def swap_indices_only_relaxed (m : IndexMap α π) (a b : KeyAndIndex) :
    Except Error (IndexMap α π) :=
  if valid_index_relaxed m a.i && valid_index_relaxed m b.i then
    match swap_sparse_to_dense m.indices a.k b.k with
    | .ok ix1 =>
      match swap_dense_to_sparse ix1 a.i b.i with
      | .ok ix2 => .ok { m with indices := ix2 }
      | .error e => .error e
    | .error e => .error e
  else .error .assert_failed

/-- Mirror of `swap_indices_only(a, b)`. -/
def swap_indices_only (m : IndexMap α π) (a b : KeyAndIndex) : Except Error (IndexMap α π) :=
  if valid_index m a.i && valid_index m b.i then swap_indices_only_relaxed m a b
  else .error .assert_failed

/-- The statement `std::ranges::swap((*this)[i], (*this)[j])`; each `operator[]` validates its
index. -/
def swap_values (m : IndexMap α π) (i j : Nat) : Except Error (IndexMap α π) :=
  match at_index m i, at_index m j with
  | .ok x, .ok y => .ok { m with value_storage := (m.value_storage.set i y).set j x }
  | .error e, _ => .error e
  | _, .error e => .error e

/-- The statement `(*this)[dst] = std::move((*this)[src])`; the right operand of an assignment
is evaluated first, and each `operator[]` validates its index. -/
def move_value (ops : MoveOps α) (m : IndexMap α π) (src dst : Nat) :
    Except Error (IndexMap α π) :=
  match at_index m src, at_index m dst with
  | .ok x, .ok _ =>
    if src = dst then .ok { m with value_storage := m.value_storage.set dst (ops.self_move x) }
    else .ok { m with value_storage := (m.value_storage.set dst x).set src (ops.moved_from x) }
  | .error e, _ => .error e
  | _, .error e => .error e

/-- Mirror of `swap_elems_low(a, b)`. -/
def swap_elems_low (m : IndexMap α π) (a b : KeyAndIndex) : Except Error (IndexMap α π) :=
  match swap_indices_only m a b with
  | .ok m1 => swap_values m1 a.i b.i
  | .error e => .error e

/-- Mirror of `move_elem_low(a, b)`: the value of `a` is move-assigned to the slot of `b`. -/
def move_elem_low (ops : MoveOps α) (m : IndexMap α π) (a b : KeyAndIndex) :
    Except Error (IndexMap α π) :=
  match swap_indices_only m a b with
  | .ok m1 => move_value ops m1 a.i b.i
  | .error e => .error e

/-- The statement `value_storage.emplace_back(v)`. -/
def emplace_back (m : IndexMap α π) (v : α) : IndexMap α π :=
  { m with value_storage := m.value_storage ++ [v] }

/-- The statement `value_storage.pop_back()`. -/
def pop_back (m : IndexMap α π) : IndexMap α π :=
  { m with value_storage := m.value_storage.dropLast }

/-- Mirror of `add_key_for_inserted_value(value)`, called after the value was appended. -/
def add_key_for_inserted_value [Inhabited π] (w : Nat) (m : IndexMap α π) :
    Outcome insert_result α π :=
  if size m ≤ m.indices.length then
    match m.indices[size_pred m.value_storage.length]? with
    | some e => (.ok ⟨e.dense_to_sparse, size_pred (size m), size_pred m.value_storage.length⟩, m)
    | none => (.error .assert_failed, m)
  else
    let k := to_key w m.indices.length
    (.ok ⟨k, size_pred (size m), m.indices.length⟩,
      { m with indices := m.indices ++ [⟨k, k, default⟩] })

/-- Mirror of `force_key_for_inserted_value(k, value)`, called after the value was appended. -/
def force_key_for_inserted_value (m : IndexMap α π) (k : Nat) : Outcome insert_result α π :=
  if !contains_relaxed m k then (.error .invalid_key, m)
  else if contains m k then (.error .key_in_use, m)
  else
    match KeyAndIndex.of_index m m.value_storage.length, KeyAndIndex.of_key m k with
    | .ok a, .ok b =>
      match swap_indices_only_relaxed m a b with
      | .ok m1 => (.ok ⟨k, size_pred (size m), k⟩, m1)
      | .error e => (.error e, m)
    | .error e, _ => (.error e, m)
    | _, .error e => (.error e, m)

/-! ## Public mutators -/

/-- Mirror of `emplace(params...)` and of both `insert(value)` overloads:
`can_increase_size_or_throw()`, then `value_storage.emplace_back`, then
`add_key_for_inserted_value`. -/
def emplace [Inhabited π] (w : Nat) (m : IndexMap α π) (v : α) : Outcome insert_result α π :=
  if size m ≥ max_size w then (.error .too_large, m)
  else add_key_for_inserted_value w (emplace_back m v)

/-- Mirror of `emplace_at(k, params...)` and of both `insert_at(k, value)` overloads: the value
is appended first, then `force_key_for_inserted_value` runs. -/
def insert_at (m : IndexMap α π) (k : Nat) (v : α) : Outcome insert_result α π :=
  force_key_for_inserted_value (emplace_back m v) k

/-- The loop `for (; i < n; i++) {e = indices[i]; e.sparse_to_dense = e.dense_to_sparse = KeyType(i);}`
of `prepare_keys_for_insertion`, with `count = n - i` iterations left. -/
def prepare_loop (w : Nat) : Nat → Nat → List (IndexEntry π) → List (IndexEntry π)
  | 0, _, ix => ix
  | count + 1, i, ix =>
    match ix[i]? with
    | some e =>
      prepare_loop w count (i + 1)
        (ix.set i { e with sparse_to_dense := to_key w i, dense_to_sparse := to_key w i })
    | none => ix

/-- Mirror of `prepare_keys_for_insertion(n)`; `indices.resize(n)` appends value-initialised
entries. -/
def prepare_keys_for_insertion [Inhabited π] (w : Nat) (m : IndexMap α π) (n : Nat) :
    Outcome Unit α π :=
  let i := m.indices.length
  if i ≥ n then (.ok (), m)
  else if n > max_size w then (.error .would_be_too_large, m)
  else
    let resized := m.indices ++ List.replicate (n - i) (⟨0, 0, default⟩ : IndexEntry π)
    (.ok (), { m with indices := prepare_loop w (n - i) i resized })

/-- Mirror of `erase(key k)`. -/
def erase (ops : MoveOps α) (m : IndexMap α π) (k : Nat) : Outcome Unit α π :=
  if !contains m k then (.error .invalid_key, m)
  else
    match KeyAndIndex.of_index m (size_pred m.value_storage.length), KeyAndIndex.of_key m k with
    | .ok a, .ok b =>
      match move_elem_low ops m a b with
      | .ok m1 => (.ok (), pop_back m1)
      | .error e => (.error e, m)
    | .error e, _ => (.error e, m)
    | _, .error e => (.error e, m)

/-- Mirror of `erase(std::size_t i)`. -/
def erase_index (ops : MoveOps α) (m : IndexMap α π) (i : Nat) : Outcome Unit α π :=
  if !valid_index m i then (.error .invalid_index, m)
  else
    match KeyAndIndex.of_index m (size_pred m.value_storage.length), KeyAndIndex.of_index m i with
    | .ok a, .ok b =>
      match move_elem_low ops m a b with
      | .ok m1 => (.ok (), pop_back m1)
      | .error e => (.error e, m)
    | .error e, _ => (.error e, m)
    | _, .error e => (.error e, m)

/-- Mirror of `remove_unused_key()`. -/
def remove_unused_key (m : IndexMap α π) : Outcome Bool α π :=
  match m.indices.getLast? with
  | none => (.ok false, m)
  | some last =>
    let i := last.sparse_to_dense
    if i < size m then (.ok false, m)
    else
      match KeyAndIndex.of_index m i, KeyAndIndex.of_index m (size_pred m.indices.length) with
      | .ok a, .ok b =>
        match swap_indices_only_relaxed m a b with
        | .ok m1 => (.ok true, { m1 with indices := m1.indices.dropLast })
        | .error e => (.error e, m)
      | .error e, _ => (.error e, m)
      | _, .error e => (.error e, m)

/-- Mirror of `clear()`. -/
def clear (_m : IndexMap α π) : IndexMap α π := ⟨[], []⟩

/-- Mirror of `soft_clear()`. -/
def soft_clear (m : IndexMap α π) : IndexMap α π := { m with value_storage := [] }

/-- Mirror of `swap_elems(i, j)`. -/
def swap_elems (m : IndexMap α π) (i j : Nat) : Outcome Unit α π :=
  match KeyAndIndex.of_index m i, KeyAndIndex.of_index m j with
  | .ok a, .ok b =>
    match swap_elems_low m a b with
    | .ok m1 => (.ok (), m1)
    | .error e => (.error e, m)
  | .error e, _ => (.error e, m)
  | _, .error e => (.error e, m)

/-- Mirror of `move_elem(from_i, to_i)`. -/
def move_elem (ops : MoveOps α) (m : IndexMap α π) (from_i to_i : Nat) : Outcome Unit α π :=
  match KeyAndIndex.of_index m from_i, KeyAndIndex.of_index m to_i with
  | .ok a, .ok b =>
    match move_elem_low ops m a b with
    | .ok m1 => (.ok (), m1)
    | .error e => (.error e, m)
  | .error e, _ => (.error e, m)
  | _, .error e => (.error e, m)

/-- A write through the reference that the non-const `get_persistent_data(key k)` returns, as in
`m.get_persistent_data(k) = d`: the call validates the key, the assignment replaces
`indices[k].sparse_data`.  Writing through `insert_result::persistent_data` is the same store on
the entry that the reference names. -/
def set_persistent_data (m : IndexMap α π) (k : Nat) (d : π) : Outcome Unit α π :=
  if contains_relaxed m k then
    match m.indices[k]? with
    | some e => (.ok (), { m with indices := m.indices.set k { e with sparse_data := d } })
    | none => (.error .assert_failed, m)
  else (.error .invalid_key, m)

/-- The caller's loop `while (remove_unused_key()) {}` that the header comment recommends, run
for at most `fuel` calls: the result is the number of calls that returned true and the map after
the call that returned false, or `none` when the fuel ran out first. -/
def remove_unused_key_loop : Nat → IndexMap α π → Option (Nat × IndexMap α π)
  | 0, _ => none
  | fuel + 1, m =>
    match remove_unused_key m with
    | (.ok true, m1) => (remove_unused_key_loop fuel m1).map (fun r => (r.1 + 1, r.2))
    | (.ok false, m1) => some (0, m1)
    | (.error _, _) => none

/-! ## Key-value references and iterators -/

/-- Mirror of `detail::IndexMap::KeyValueRef`.  Its pointer `this_map` is the map that the
functions below take as an argument, so only `this_index` is stored. -/
structure KeyValueRef where
  this_index : Nat
  deriving DecidableEq

/-- Mirror of `KeyValueRef::moved`, what `iter_move` returns. -/
structure KeyValueRef.moved where
  ref : KeyValueRef
  deriving DecidableEq

/-- Mirror of `detail::IndexMap::KeyValueIter`. -/
structure KeyValueIter where
  state : KeyValueRef
  deriving DecidableEq

/-- The cast `std::ptrdiff_t(i)` of a `std::size_t`. -/
def to_ptrdiff (i : Nat) : Int :=
  if i % 2 ^ 64 < 2 ^ 63 then (i % 2 ^ 64 : Nat) else (i % 2 ^ 64 : Nat) - 2 ^ 64

/-- Mirror of `operator+(const KeyValueIter &a, difference_type n)`:
`this_index += (std::size_t)n`, in `std::size_t` arithmetic. -/
def KeyValueIter.add (a : KeyValueIter) (n : Int) : KeyValueIter :=
  ⟨⟨(((a.state.this_index : Int) + n) % 2 ^ 64).toNat⟩⟩

/-- Mirror of `KeyValueView::begin()`: `iterator(*this_map, 0)`. -/
def keys_and_values_begin : KeyValueIter := ⟨⟨0⟩⟩

/-- Mirror of `KeyValueView::operator[](size_type i)`: `begin()[std::ptrdiff_t(i)]`, which is
`*(begin() + n)`. -/
def keys_and_values_at (i : Nat) : KeyValueRef := (keys_and_values_begin.add (to_ptrdiff i)).state

/-- Mirror of the customization point `iter_move(const KeyValueIter &iter)`. -/
def iter_move (iter : KeyValueIter) : KeyValueRef.moved := ⟨iter.state⟩

/-- Mirror of `KeyValueRef::operator=(const moved &&other)`:
`this_map->move_elem(other.ref.this_index, this_index)`. -/
def KeyValueRef.assign (ops : MoveOps α) (m : IndexMap α π) (self : KeyValueRef)
    (other : KeyValueRef.moved) : Outcome Unit α π :=
  move_elem ops m other.ref.this_index self.this_index

/-- Mirror of the customization point `iter_swap(const KeyValueIter &a, const KeyValueIter &b)`:
`a->this_map->swap_elems(a->this_index, b->this_index)`. -/
def iter_swap (m : IndexMap α π) (a b : KeyValueIter) : Outcome Unit α π :=
  swap_elems m a.state.this_index b.state.this_index

/-- Mirror of `KeyValueRef::value()`: `(*this_map)[this_index]`. -/
def KeyValueRef.value (m : IndexMap α π) (r : KeyValueRef) : Except Error α :=
  at_index m r.this_index

/-! ## Non-member erase functions -/

/-- The loop of `erase_if(ValueView &values, F &&func)` with the counter at `n`:
`if (n == 0) return ret; n--; if (func(map[n])) {map.erase(n); ret++;}`. -/
def erase_if_values_loop (ops : MoveOps α) (func : α → Bool) :
    Nat → IndexMap α π → Nat → Outcome Nat α π
  | 0, m, ret => (.ok ret, m)
  | n + 1, m, ret =>
    match at_index m n with
    | .ok x =>
      if func x then
        match erase_index ops m n with
        | (.ok (), m1) => erase_if_values_loop ops func n m1 (ret + 1)
        | (.error e, m1) => (.error e, m1)
      else erase_if_values_loop ops func n m ret
    | .error e => (.error e, m)

/-- Mirror of `erase_if(m.values(), func)`: the loop starts at `n = values.size()`, `ret = 0`. -/
def erase_if_values (ops : MoveOps α) (func : α → Bool) (m : IndexMap α π) : Outcome Nat α π :=
  erase_if_values_loop ops func (size m) m 0

/-- Mirror of `erase(m.values(), value)`: `erase_if` with the predicate `elem == value`. -/
def erase_values [DecidableEq α] (ops : MoveOps α) (m : IndexMap α π) (value : α) :
    Outcome Nat α π :=
  erase_if_values ops (fun elem => decide (elem = value)) m

/-- The loop of `erase_if(KeyValueView &keys_and_values, F &&func)` with the counter at `n`; the
predicate receives the const reference `keys_and_values[n]` and reads the map through it. -/
def erase_if_keys_and_values_loop (ops : MoveOps α)
    (func : IndexMap α π → KeyValueRef → Except Error Bool) :
    Nat → IndexMap α π → Nat → Outcome Nat α π
  | 0, m, ret => (.ok ret, m)
  | n + 1, m, ret =>
    match func m (keys_and_values_at n) with
    | .ok true =>
      match erase_index ops m n with
      | (.ok (), m1) => erase_if_keys_and_values_loop ops func n m1 (ret + 1)
      | (.error e, m1) => (.error e, m1)
    | .ok false => erase_if_keys_and_values_loop ops func n m ret
    | .error e => (.error e, m)

/-- Mirror of `erase_if(m.keys_and_values(), func)`: the loop starts at `n = map.size()`. -/
def erase_if_keys_and_values (ops : MoveOps α)
    (func : IndexMap α π → KeyValueRef → Except Error Bool) (m : IndexMap α π) :
    Outcome Nat α π :=
  erase_if_keys_and_values_loop ops func (size m) m 0

/-! ## Views: element access and erasing through an iterator -/

/-- Mirror of `KeyValueIter::operator*()`: the reference that the iterator holds. -/
def KeyValueIter.deref (it : KeyValueIter) : KeyValueRef := it.state

/-- Mirror of `KeyValueView::size()`: `this_map->size()`. -/
def keys_and_values_size (m : IndexMap α π) : Nat := size m

/-- Mirror of `KeyValueView::end()`: `iterator(*this_map, size())`. -/
def keys_and_values_end (m : IndexMap α π) : KeyValueIter := ⟨⟨keys_and_values_size m⟩⟩

/-- Mirror of `KeyValueRef::index()`. -/
def KeyValueRef.index (r : KeyValueRef) : Nat := r.this_index

/-- Mirror of `KeyValueRef::key()`: `this_map->index_to_key_unsafe(this_index)`. -/
def KeyValueRef.key (m : IndexMap α π) (r : KeyValueRef) : Except Error Nat :=
  index_to_key_unsafe m r.this_index

/-- Mirror of `KeyValueRef::persistent_data()`:
`this_map->get_persistent_data(this_map->index_to_key(this_index))`. -/
def KeyValueRef.persistent_data (m : IndexMap α π) (r : KeyValueRef) : Except Error π :=
  match index_to_key m r.this_index with
  | .ok k => get_persistent_data m k
  | .error e => .error e

/-- Mirror of `KeyValueView::erase(iter)`: `iter->map().erase(iter->index()); return iter;`.
The function is `noexcept`, so an exception of `erase` ends the program; the model records which
exception it was. -/
def keys_and_values_erase (ops : MoveOps α) (m : IndexMap α π) (iter : KeyValueIter) :
    Outcome KeyValueIter α π :=
  match erase_index ops m iter.deref.index with
  | (.ok (), m1) => (.ok iter, m1)
  | (.error e, m1) => (.error e, m1)

/-- Mirror of `ValueView::begin()`.  An iterator of the value container (`std::vector`) is the
position it points at, counted from the start of `value_storage`. -/
def values_begin : Nat := 0

/-- Mirror of `ValueView::size()`: `this_map->size()`. -/
def values_size (m : IndexMap α π) : Nat := size m

/-- Mirror of `ValueView::end()`: the end iterator of `value_storage`. -/
def values_end (m : IndexMap α π) : Nat := values_begin + m.value_storage.length

/-- Mirror of `ValueView::erase(iter)`: `auto n = iter - this_map->value_storage.begin();
this_map->erase(std::size_t(n)); return this_map->value_storage.begin() + n;`. -/
def values_erase (ops : MoveOps α) (m : IndexMap α π) (iter : Nat) : Outcome Nat α π :=
  let n : Int := (iter : Int) - (values_begin : Int)
  match erase_index ops m (n % 2 ^ 64).toNat with
  | (.ok (), m1) => (.ok ((values_begin : Int) + n).toNat, m1)
  | (.error e, m1) => (.error e, m1)

/-! ## The size-only map: `IndexMap<void>` -/

/-- Mirror of `detail::IndexMap::SizeOnlyContainer`, "a fake container with a size but no
elements", which `ContainerOrCounter` selects as `value_container` when `T` is `void`. -/
structure SizeOnlyContainer where
  counter : Nat
  deriving DecidableEq

/-- Mirror of `SizeOnlyContainer::size()`. -/
def SizeOnlyContainer.size (c : SizeOnlyContainer) : Nat := c.counter

/-- Mirror of `SizeOnlyContainer::emplace_back()`: `counter++` on a `std::size_t`. -/
def SizeOnlyContainer.emplace_back (c : SizeOnlyContainer) : SizeOnlyContainer :=
  ⟨(c.counter + 1) % 2 ^ 64⟩

/-- Mirror of `SizeOnlyContainer::pop_back()`: `counter--` on a `std::size_t`. -/
def SizeOnlyContainer.pop_back (c : SizeOnlyContainer) : SizeOnlyContainer :=
  ⟨size_pred c.counter⟩

/-- Mirror of `IndexMap<void, KeyType, PersistentData>`: the same two members, with the
counter in place of the vector of values. -/
structure IndexMapVoid (π : Type) where
  indices : List (IndexEntry π)
  value_storage : SizeOnlyContainer
  deriving DecidableEq

/-- Mirror of `IndexMap<void, ...>::insert_result`: its `value` member is the empty struct
`Empty<0>`, so the key and the referenced persistent-data slot remain. -/
structure IndexMapVoid.insert_result where
  key : Nat
  persistent_data : Nat
  deriving DecidableEq

/-- What a call on the size-only map leaves: the returned value or the thrown exception, and the
map afterwards. -/
abbrev OutcomeVoid (ρ π : Type) := Except Error ρ × IndexMapVoid π

namespace IndexMapVoid

/-- The default-constructed size-only map. -/
def empty : IndexMapVoid π := ⟨[], ⟨0⟩⟩

/-- Mirror of `size()`: `value_storage.size()`. -/
def size (m : IndexMapVoid π) : Nat := m.value_storage.size

/-- Mirror of `keys_size()`. -/
def keys_size (m : IndexMapVoid π) : Nat := m.indices.length

/-- Mirror of `contains_relaxed(key)`. -/
def contains_relaxed (m : IndexMapVoid π) (k : Nat) : Bool := decide (k < m.indices.length)

/-- Mirror of `valid_index(i)`. -/
def valid_index (m : IndexMapVoid π) (i : Nat) : Bool := decide (i < size m)

/-- Mirror of `valid_index_relaxed(i)`. -/
def valid_index_relaxed (m : IndexMapVoid π) (i : Nat) : Bool := decide (i < m.indices.length)

/-- Mirror of `key_to_index_unsafe(key)`. -/
def key_to_index_unsafe (m : IndexMapVoid π) (k : Nat) : Except Error Nat :=
  match m.indices[k]? with
  | some e => .ok e.sparse_to_dense
  | none => .error .assert_failed

/-- Mirror of `index_to_key_unsafe(i)`. -/
def index_to_key_unsafe (m : IndexMapVoid π) (i : Nat) : Except Error Nat :=
  match m.indices[i]? with
  | some e => .ok e.dense_to_sparse
  | none => .error .assert_failed

/-- Mirror of `key_to_index_relaxed(key)`. -/
def key_to_index_relaxed (m : IndexMapVoid π) (k : Nat) : Except Error Nat :=
  if contains_relaxed m k then key_to_index_unsafe m k else .error .invalid_key

/-- Mirror of `index_to_key_relaxed(i)`. -/
def index_to_key_relaxed (m : IndexMapVoid π) (i : Nat) : Except Error Nat :=
  if valid_index_relaxed m i then index_to_key_unsafe m i else .error .invalid_index

/-- Mirror of `contains(key)`. -/
def contains (m : IndexMapVoid π) (k : Nat) : Bool :=
  contains_relaxed m k &&
    (match key_to_index_relaxed m k with
     | .ok i => valid_index m i
     | .error _ => false)

/-- Mirror of the constructor `KeyAndIndex(self, key k)`. -/
def KeyAndIndex.of_key (m : IndexMapVoid π) (k : Nat) : Except Error KeyAndIndex :=
  match key_to_index_unsafe m k with
  | .ok i => .ok ⟨k, i⟩
  | .error e => .error e

/-- Mirror of the constructor `KeyAndIndex(self, std::size_t i)`. -/
def KeyAndIndex.of_index (m : IndexMapVoid π) (i : Nat) : Except Error KeyAndIndex :=
  match index_to_key_unsafe m i with
  | .ok k => .ok ⟨k, i⟩
  | .error e => .error e

/-- Mirror of `swap_indices_only_relaxed(a, b)`. -/
def swap_indices_only_relaxed (m : IndexMapVoid π) (a b : KeyAndIndex) :
    Except Error (IndexMapVoid π) :=
  if valid_index_relaxed m a.i && valid_index_relaxed m b.i then
    match swap_sparse_to_dense m.indices a.k b.k with
    | .ok ix1 =>
      match swap_dense_to_sparse ix1 a.i b.i with
      | .ok ix2 => .ok { m with indices := ix2 }
      | .error e => .error e
    | .error e => .error e
  else .error .assert_failed

/-- Mirror of `swap_indices_only(a, b)`. -/
def swap_indices_only (m : IndexMapVoid π) (a b : KeyAndIndex) : Except Error (IndexMapVoid π) :=
  if valid_index m a.i && valid_index m b.i then swap_indices_only_relaxed m a b
  else .error .assert_failed

/-- Mirror of `move_elem_low(a, b)`: with `has_value_type` false only `swap_indices_only(a, b)`
remains. -/
def move_elem_low (m : IndexMapVoid π) (a b : KeyAndIndex) : Except Error (IndexMapVoid π) :=
  swap_indices_only m a b

/-- Mirror of `add_key_for_inserted_value(value)`, called after the counter was incremented. -/
def add_key_for_inserted_value [Inhabited π] (w : Nat) (m : IndexMapVoid π) :
    OutcomeVoid insert_result π :=
  if size m ≤ m.indices.length then
    match m.indices[size_pred m.value_storage.size]? with
    | some e => (.ok ⟨e.dense_to_sparse, size_pred m.value_storage.size⟩, m)
    | none => (.error .assert_failed, m)
  else
    let k := to_key w m.indices.length
    (.ok ⟨k, m.indices.length⟩, { m with indices := m.indices ++ [⟨k, k, default⟩] })

/-- Mirror of `emplace()`, which takes no arguments when `T` is `void`:
`can_increase_size_or_throw()`, then `value_storage.emplace_back()`, then
`add_key_for_inserted_value`. -/
def emplace [Inhabited π] (w : Nat) (m : IndexMapVoid π) : OutcomeVoid insert_result π :=
  if size m ≥ max_size w then (.error .too_large, m)
  else add_key_for_inserted_value w { m with value_storage := m.value_storage.emplace_back }

/-- Mirror of `erase(key k)`. -/
def erase (m : IndexMapVoid π) (k : Nat) : OutcomeVoid Unit π :=
  if !contains m k then (.error .invalid_key, m)
  else
    match KeyAndIndex.of_index m (size_pred m.value_storage.size), KeyAndIndex.of_key m k with
    | .ok a, .ok b =>
      match move_elem_low m a b with
      | .ok m1 => (.ok (), { m1 with value_storage := m1.value_storage.pop_back })
      | .error e => (.error e, m)
    | .error e, _ => (.error e, m)
    | _, .error e => (.error e, m)

/-- Mirror of `erase(std::size_t i)`. -/
def erase_index (m : IndexMapVoid π) (i : Nat) : OutcomeVoid Unit π :=
  if !valid_index m i then (.error .invalid_index, m)
  else
    match KeyAndIndex.of_index m (size_pred m.value_storage.size), KeyAndIndex.of_index m i with
    | .ok a, .ok b =>
      match move_elem_low m a b with
      | .ok m1 => (.ok (), { m1 with value_storage := m1.value_storage.pop_back })
      | .error e => (.error e, m)
    | .error e, _ => (.error e, m)
    | _, .error e => (.error e, m)

/-- Mirror of `remove_unused_key()`. -/
def remove_unused_key (m : IndexMapVoid π) : OutcomeVoid Bool π :=
  match m.indices.getLast? with
  | none => (.ok false, m)
  | some last =>
    let i := last.sparse_to_dense
    if i < size m then (.ok false, m)
    else
      match KeyAndIndex.of_index m i, KeyAndIndex.of_index m (size_pred m.indices.length) with
      | .ok a, .ok b =>
        match swap_indices_only_relaxed m a b with
        | .ok m1 => (.ok true, { m1 with indices := m1.indices.dropLast })
        | .error e => (.error e, m)
      | .error e, _ => (.error e, m)
      | _, .error e => (.error e, m)

end IndexMapVoid

/-! ## Call sequences on a valued map and on a size-only map -/

/-- One call of the interface that `IndexMap<T>` and `IndexMap<void>` share: `emplace` (with the
value to store, which the size-only map does not take), `erase(key)`, `erase(std::size_t)` and
`remove_unused_key()`. -/
inductive Call (α : Type) where
  | emplace (v : α)
  | erase (k : Nat)
  | erase_index (i : Nat)
  | remove_unused_key

/-- What the caller of a `Call` sees when it returns: the key and the persistent-data slot of the
`insert_result`, nothing for the two `erase` overloads, the boolean of `remove_unused_key`. -/
inductive Reply where
  | inserted (key : Nat) (persistent_data : Nat)
  | erased
  | reclaimed (result : Bool)
  deriving DecidableEq

/-- A `Call` made on a valued map. -/
def apply_call [Inhabited π] (w : Nat) (ops : MoveOps α) (m : IndexMap α π) :
    Call α → Outcome Reply α π
  | .emplace v =>
    ((emplace w m v).1.map (fun r => Reply.inserted r.key r.persistent_data), (emplace w m v).2)
  | .erase k => ((erase ops m k).1.map (fun _ => Reply.erased), (erase ops m k).2)
  | .erase_index i =>
    ((erase_index ops m i).1.map (fun _ => Reply.erased), (erase_index ops m i).2)
  | .remove_unused_key =>
    ((remove_unused_key m).1.map Reply.reclaimed, (remove_unused_key m).2)

/-- The same `Call` made on a size-only map. -/
def apply_call_void [Inhabited π] (w : Nat) (m : IndexMapVoid π) : Call α → OutcomeVoid Reply π
  | .emplace _ =>
    ((IndexMapVoid.emplace w m).1.map (fun r => Reply.inserted r.key r.persistent_data),
      (IndexMapVoid.emplace w m).2)
  | .erase k =>
    ((IndexMapVoid.erase m k).1.map (fun _ => Reply.erased), (IndexMapVoid.erase m k).2)
  | .erase_index i =>
    ((IndexMapVoid.erase_index m i).1.map (fun _ => Reply.erased),
      (IndexMapVoid.erase_index m i).2)
  | .remove_unused_key =>
    ((IndexMapVoid.remove_unused_key m).1.map Reply.reclaimed,
      (IndexMapVoid.remove_unused_key m).2)

/-- A sequence of calls on a valued map; a call that throws leaves the map as the exception left
it and the sequence goes on.  The result is what each call returned and the final map. -/
def run_calls [Inhabited π] (w : Nat) (ops : MoveOps α) :
    IndexMap α π → List (Call α) → List (Except Error Reply) × IndexMap α π
  | m, [] => ([], m)
  | m, c :: cs =>
    ((apply_call w ops m c).1 :: (run_calls w ops (apply_call w ops m c).2 cs).1,
      (run_calls w ops (apply_call w ops m c).2 cs).2)

/-- The same sequence of calls on a size-only map. -/
def run_calls_void [Inhabited π] (w : Nat) :
    IndexMapVoid π → List (Call α) → List (Except Error Reply) × IndexMapVoid π
  | m, [] => ([], m)
  | m, c :: cs =>
    ((apply_call_void w m c).1 :: (run_calls_void w (apply_call_void w m c).2 cs).1,
      (run_calls_void w (apply_call_void w m c).2 cs).2)

/-! ## Proof-level views and the representation invariant -/

/-- The `sparse_to_dense` column of the index table, read as a partial function of the key. -/
def sd (ix : List (IndexEntry π)) (k : Nat) : Option Nat :=
  (ix[k]?).map IndexEntry.sparse_to_dense

/-- The `dense_to_sparse` column of the index table, read as a partial function of the position. -/
def ds (ix : List (IndexEntry π)) (i : Nat) : Option Nat :=
  (ix[i]?).map IndexEntry.dense_to_sparse

/-- The `sparse_data` column of the index table, read as a partial function of the key. -/
def pd (ix : List (IndexEntry π)) (k : Nat) : Option π :=
  (ix[k]?).map IndexEntry.sparse_data

/-- The two columns of the index table are inverse to each other, dead keys included. -/
def Inverse (ix : List (IndexEntry π)) : Prop :=
  (∀ k i, sd ix k = some i → ds ix i = some k) ∧ (∀ i k, ds ix i = some k → sd ix k = some i)

/-- The representation invariant of the map for a `w`-bit key type. -/
structure WF (w : Nat) (m : IndexMap α π) : Prop where
  size_le : size m ≤ keys_size m
  keys_le : keys_size m ≤ max_size w
  inv : Inverse m.indices

/-- The effect of erasing key `k`, which sits at dense index `i`, when `kl` is the key of the last
live element: `m'` is the map after the call. -/
structure Erased (m : IndexMap α π) (k i kl : Nat) (m' : IndexMap α π) : Prop where
  keys_eq : keys_size m' = keys_size m
  size_eq : size m' + 1 = size m
  sd_eq : ∀ x, sd m'.indices x =
    if x = k then some (size m - 1) else if x = kl then some i else sd m.indices x
  ds_eq : ∀ y, ds m'.indices y =
    if y = i then some kl else if y = size m - 1 then some k else ds m.indices y
  pd_eq : ∀ x, pd m'.indices x = pd m.indices x
  vals_eq : ∀ j, m'.value_storage[j]? =
    if j < size m - 1 then (if j = i then m.value_storage[size m - 1]? else m.value_storage[j]?)
    else none

/-- The effect of `swap_elems(i, j)` or `move_elem(i, j)` on the index table, where `ki` and `kj`
are the keys at dense indices `i` and `j` before the call. -/
structure Swapped (m : IndexMap α π) (i j ki kj : Nat) (m' : IndexMap α π) : Prop where
  keys_eq : keys_size m' = keys_size m
  size_eq : size m' = size m
  sd_eq : ∀ x, sd m'.indices x =
    if x = kj then some i else if x = ki then some j else sd m.indices x
  ds_eq : ∀ y, ds m'.indices y =
    if y = j then some ki else if y = i then some kj else ds m.indices y
  pd_eq : ∀ x, pd m'.indices x = pd m.indices x

/-- The effect of a successful `remove_unused_key()`: the last key, which sat at position `i`, is
gone, and the key `kb` that sat at the last position now sits at `i`. -/
structure Reclaimed (m : IndexMap α π) (i kb : Nat) (m' : IndexMap α π) : Prop where
  keys_eq : keys_size m' + 1 = keys_size m
  vals_eq : m'.value_storage = m.value_storage
  sd_eq : ∀ x, sd m'.indices x =
    if x < keys_size m - 1 then (if x = kb then some i else sd m.indices x) else none
  ds_eq : ∀ y, ds m'.indices y =
    if y < keys_size m - 1 then (if y = i then some kb else ds m.indices y) else none
  pd_eq : ∀ x, pd m'.indices x = if x < keys_size m - 1 then pd m.indices x else none

/-- The effect of a `prepare_keys_for_insertion(n)` that grows the key table. -/
structure Prepared [Inhabited π] (m : IndexMap α π) (n : Nat) (m' : IndexMap α π) : Prop where
  keys_eq : keys_size m' = n
  vals_eq : m'.value_storage = m.value_storage
  sd_eq : ∀ x, sd m'.indices x =
    if x < keys_size m then sd m.indices x else if x < n then some x else none
  ds_eq : ∀ x, ds m'.indices x =
    if x < keys_size m then ds m.indices x else if x < n then some x else none
  pd_eq : ∀ x, pd m'.indices x =
    if x < keys_size m then pd m.indices x else if x < n then some default else none

/-- The maps a program can build from the default-constructed map with the public mutators
`emplace`/`insert`, `erase` (by key and by index), `swap_elems`, `move_elem`,
`prepare_keys_for_insertion`, `remove_unused_key`, `soft_clear` and `clear`, and with writes to
the persistent data of a key.  Calls that throw are steps too (they leave the map they return);
`swap_elems` and `move_elem` are called within their asserted precondition, both indices valid. -/
inductive Reachable [Inhabited π] (w : Nat) (ops : MoveOps α) : IndexMap α π → Prop where
  | init : Reachable w ops empty
  | step_emplace {m : IndexMap α π} (v : α) :
      Reachable w ops m → Reachable w ops (emplace w m v).2
  | step_erase {m : IndexMap α π} (k : Nat) :
      Reachable w ops m → Reachable w ops (erase ops m k).2
  | step_erase_index {m : IndexMap α π} (i : Nat) :
      Reachable w ops m → Reachable w ops (erase_index ops m i).2
  | step_swap_elems {m : IndexMap α π} (i j : Nat) :
      Reachable w ops m → i < size m → j < size m → Reachable w ops (swap_elems m i j).2
  | step_move_elem {m : IndexMap α π} (i j : Nat) :
      Reachable w ops m → i < size m → j < size m → Reachable w ops (move_elem ops m i j).2
  | step_prepare {m : IndexMap α π} (n : Nat) :
      Reachable w ops m → Reachable w ops (prepare_keys_for_insertion w m n).2
  | step_remove_unused_key {m : IndexMap α π} :
      Reachable w ops m → Reachable w ops (remove_unused_key m).2
  | step_soft_clear {m : IndexMap α π} :
      Reachable w ops m → Reachable w ops (soft_clear m)
  | step_clear {m : IndexMap α π} :
      Reachable w ops m → Reachable w ops (clear m)
  | step_set_persistent_data {m : IndexMap α π} (k : Nat) (d : π) :
      Reachable w ops m → Reachable w ops (set_persistent_data m k d).2

/-- The map of `basic_checks` in `test.cpp` after `emplace(10)`, `emplace(20)`, `emplace(30)` and
`emplace(40)`, for `IndexMap<A>` (32-bit keys, no persistent data). -/
def basic4 : IndexMap Nat Unit :=
  (emplace 32 (emplace 32 (emplace 32 (emplace 32 empty 10).2 20).2 30).2 40).2

/-- The map of `basic_checks` after the following `m.erase(k1)`. -/
def basic4_erased : IndexMap Nat Unit := (erase (MoveOps.trivial Nat) basic4 1).2

/-- A fresh map after `prepare_keys_for_insertion(2)`: keys 0 and 1 are issued and dead. -/
def prepared2 : IndexMap Nat Unit := (prepare_keys_for_insertion 32 empty 2).2

/-- The map of `persistent_data_checks` in `test.cpp`, for `IndexMap<A, unsigned int, Data>`, after
the four `emplace` calls that store 10, 20, 30, 40 and write the payloads 100, 200, 300, 400
through the returned `persistent_data` references. -/
def pdata4 : IndexMap Nat Nat :=
  (set_persistent_data (emplace 32
    (set_persistent_data (emplace 32
      (set_persistent_data (emplace 32
        (set_persistent_data (emplace 32 empty 10).2 0 100).2 20).2 1 200).2 30).2 2 300).2
          40).2 3 400).2

/-- The map of `persistent_data_checks` after the following `erase(i1.key)`, `emplace(21)` and
`erase(i2.key)`: keys 0, 3, 1 are live in this dense order and key 2 is dead. -/
def pdata4_churned : IndexMap Nat Nat :=
  (erase (MoveOps.trivial Nat) (emplace 32 (erase (MoveOps.trivial Nat) pdata4 1).2 21).2 2).2

/-- The map of `persistent_data_checks` after one more `erase`, of key 3: keys 0 and 1 are live,
keys 2 and 3 are dead, and the last key sits at position 2. -/
def pdata4_tail_dead : IndexMap Nat Nat := (erase (MoveOps.trivial Nat) pdata4_churned 3).2

/-- The map holding 10, 20, 30, 40 after `erase` of key 3 and then of key 2: the two last keys
are dead. -/
def basic4_two_dead : IndexMap Nat Unit :=
  (erase (MoveOps.trivial Nat) (erase (MoveOps.trivial Nat) basic4 3).2 2).2

/-- A fresh map after `n` calls of `emplace(0)`. -/
def filled (w : Nat) : Nat → IndexMap Nat Unit
  | 0 => empty
  | n + 1 => (emplace w (filled w n) 0).2

/-- The map of `key_value_range_advanced_checks` and `nonmember_erase_checks` in `test.cpp`:
insert 10, 20, 30, 40, `erase(key 1)`, insert 21, `erase(key 2)`, insert 31; the dense order is
key 0 with 10, key 3 with 40, key 1 with 21, key 2 with 31. -/
def advanced4 : IndexMap Nat Unit :=
  (emplace 32 (erase (MoveOps.trivial Nat)
    (emplace 32 (erase (MoveOps.trivial Nat) basic4 1).2 21).2 2).2 31).2

/-- The map of `basic_checks` after `m.erase(k1)` and `m.emplace(200)`. -/
def basic4_reinserted : IndexMap Nat Unit := (emplace 32 basic4_erased 200).2

/-- The map of `basic_checks` after the following `m.erase(k2)`, which leaves the two index
columns different from each other. -/
def basic4_desynced : IndexMap Nat Unit := (erase (MoveOps.trivial Nat) basic4_reinserted 2).2

/-- The map of `basic_checks` after the following `m.erase(k0)`. -/
def basic4_two_left : IndexMap Nat Unit := (erase (MoveOps.trivial Nat) basic4_desynced 0).2

/-- The size-only map with the index table of `m` and as many elements as `m` has values: what is
left of a valued map when the values are forgotten. -/
def forget (m : IndexMap α π) : IndexMapVoid π := ⟨m.indices, ⟨m.value_storage.length⟩⟩

/-- The calls of `basic_checks` and `void_value_checks` in `test.cpp` up to the third `erase`,
followed by a `remove_unused_key()`, an `erase` of a dead key and an `erase` by index. -/
def scenario_calls : List (Call Nat) :=
  [.emplace 10, .emplace 20, .emplace 30, .emplace 40, .erase 1, .emplace 200, .erase 2,
    .erase 0, .remove_unused_key, .erase 2, .erase_index 1, .remove_unused_key]

/-- The map of `basic_checks` after one more `m.erase(k3)`: only key 1 is live, and the dead keys
3, 0, 2 sit at the positions 1, 2, 3.  This is the index table that `basic_checks` has before its
first successful `remove_unused_key()`. -/
def basic4_one_left : IndexMap Nat Unit := (erase (MoveOps.trivial Nat) basic4_two_left 3).2

/-! ## Lemmas on the index table -/

theorem sd_isSome {ix : List (IndexEntry π)} {k : Nat} (h : k < ix.length) :
    ∃ i, sd ix k = some i := by
  simp [sd, List.getElem?_eq_getElem h]

theorem ds_isSome {ix : List (IndexEntry π)} {i : Nat} (h : i < ix.length) :
    ∃ k, ds ix i = some k := by
  simp [ds, List.getElem?_eq_getElem h]

theorem sd_some_lt {ix : List (IndexEntry π)} {k i : Nat} (h : sd ix k = some i) :
    k < ix.length := by
  by_contra hc
  simp [sd, List.getElem?_eq_none (Nat.le_of_not_lt hc)] at h

theorem ds_some_lt {ix : List (IndexEntry π)} {k i : Nat} (h : ds ix i = some k) :
    i < ix.length := by
  by_contra hc
  simp [ds, List.getElem?_eq_none (Nat.le_of_not_lt hc)] at h

theorem swap_sparse_to_dense_spec (ix : List (IndexEntry π)) (p q : Nat)
    (hp : p < ix.length) (hq : q < ix.length) :
    ∃ ix', swap_sparse_to_dense ix p q = .ok ix' ∧ ix'.length = ix.length ∧
      (∀ x, sd ix' x = if x = q then sd ix p else if x = p then sd ix q else sd ix x) ∧
      (∀ x, ds ix' x = ds ix x) ∧ (∀ x, pd ix' x = pd ix x) := by
  refine ⟨(ix.set p { ix[p] with sparse_to_dense := ix[q].sparse_to_dense }).set q
    { ix[q] with sparse_to_dense := ix[p].sparse_to_dense }, ?_, ?_, ?_, ?_, ?_⟩
  · simp only [swap_sparse_to_dense, List.getElem?_eq_getElem hp, List.getElem?_eq_getElem hq]
  · simp
  · intro x
    by_cases hxq : x = q
    · subst hxq
      simp [sd, List.getElem?_set, hp, hq]
    · by_cases hxp : x = p
      · subst hxp
        simp [sd, List.getElem?_set, hp, hq, hxq, Ne.symm hxq]
      · simp [sd, List.getElem?_set, hxq, hxp, Ne.symm hxq, Ne.symm hxp]
  · intro x
    by_cases hxq : x = q
    · subst hxq
      simp [ds, List.getElem?_set, hp, hq]
    · by_cases hxp : x = p
      · subst hxp
        simp [ds, List.getElem?_set, hp, hq, hxq, Ne.symm hxq]
      · simp [ds, List.getElem?_set, hxq, hxp, Ne.symm hxq, Ne.symm hxp]
  · intro x
    by_cases hxq : x = q
    · subst hxq
      simp [pd, List.getElem?_set, hp, hq]
    · by_cases hxp : x = p
      · subst hxp
        simp [pd, List.getElem?_set, hp, hq, hxq, Ne.symm hxq]
      · simp [pd, List.getElem?_set, hxq, hxp, Ne.symm hxq, Ne.symm hxp]

theorem swap_dense_to_sparse_spec (ix : List (IndexEntry π)) (p q : Nat)
    (hp : p < ix.length) (hq : q < ix.length) :
    ∃ ix', swap_dense_to_sparse ix p q = .ok ix' ∧ ix'.length = ix.length ∧
      (∀ x, ds ix' x = if x = q then ds ix p else if x = p then ds ix q else ds ix x) ∧
      (∀ x, sd ix' x = sd ix x) ∧ (∀ x, pd ix' x = pd ix x) := by
  refine ⟨(ix.set p { ix[p] with dense_to_sparse := ix[q].dense_to_sparse }).set q
    { ix[q] with dense_to_sparse := ix[p].dense_to_sparse }, ?_, ?_, ?_, ?_, ?_⟩
  · simp only [swap_dense_to_sparse, List.getElem?_eq_getElem hp, List.getElem?_eq_getElem hq]
  · simp
  · intro x
    by_cases hxq : x = q
    · subst hxq
      simp [ds, List.getElem?_set, hp, hq]
    · by_cases hxp : x = p
      · subst hxp
        simp [ds, List.getElem?_set, hp, hq, hxq, Ne.symm hxq]
      · simp [ds, List.getElem?_set, hxq, hxp, Ne.symm hxq, Ne.symm hxp]
  · intro x
    by_cases hxq : x = q
    · subst hxq
      simp [sd, List.getElem?_set, hp, hq]
    · by_cases hxp : x = p
      · subst hxp
        simp [sd, List.getElem?_set, hp, hq, hxq, Ne.symm hxq]
      · simp [sd, List.getElem?_set, hxq, hxp, Ne.symm hxq, Ne.symm hxp]
  · intro x
    by_cases hxq : x = q
    · subst hxq
      simp [pd, List.getElem?_set, hp, hq]
    · by_cases hxp : x = p
      · subst hxp
        simp [pd, List.getElem?_set, hp, hq, hxq, Ne.symm hxq]
      · simp [pd, List.getElem?_set, hxq, hxp, Ne.symm hxq, Ne.symm hxp]

theorem swap_indices_only_relaxed_spec (m : IndexMap α π) (a b : KeyAndIndex)
    (hinv : Inverse m.indices) (ha : sd m.indices a.k = some a.i)
    (hb : sd m.indices b.k = some b.i) :
    ∃ m', swap_indices_only_relaxed m a b = .ok m' ∧ m'.value_storage = m.value_storage ∧
      m'.indices.length = m.indices.length ∧
      (∀ x, sd m'.indices x =
        if x = b.k then some a.i else if x = a.k then some b.i else sd m.indices x) ∧
      (∀ y, ds m'.indices y =
        if y = b.i then some a.k else if y = a.i then some b.k else ds m.indices y) ∧
      (∀ x, pd m'.indices x = pd m.indices x) ∧ Inverse m'.indices := by
  have hak := sd_some_lt ha
  have hbk := sd_some_lt hb
  have hai := ds_some_lt (hinv.1 _ _ ha)
  have hbi := ds_some_lt (hinv.1 _ _ hb)
  obtain ⟨ix1, e1, l1, s1, d1, p1⟩ := swap_sparse_to_dense_spec m.indices a.k b.k hak hbk
  obtain ⟨ix2, e2, l2, d2, s2, p2⟩ := swap_dense_to_sparse_spec ix1 a.i b.i (l1 ▸ hai) (l1 ▸ hbi)
  have hs : ∀ x, sd ix2 x =
      if x = b.k then some a.i else if x = a.k then some b.i else sd m.indices x := by
    intro x
    rw [s2, s1, ha, hb]
  have hd : ∀ y, ds ix2 y =
      if y = b.i then some a.k else if y = a.i then some b.k else ds m.indices y := by
    intro y
    rw [d2, d1, d1, d1, hinv.1 _ _ ha, hinv.1 _ _ hb]
  refine ⟨{ m with indices := ix2 }, ?_, rfl, by simp [l2, l1], hs, hd, ?_, ?_, ?_⟩
  · simp [swap_indices_only_relaxed, valid_index_relaxed, hai, hbi, e1, e2]
  · intro x
    show pd ix2 x = _
    rw [p2, p1]
  · intro k i h
    show ds ix2 i = some k
    have h' : sd ix2 k = some i := h
    rw [hs] at h'
    rw [hd]
    by_cases hkb : k = b.k
    · rw [if_pos hkb] at h'
      have hi : i = a.i := (Option.some.inj h').symm
      subst hi
      by_cases hab : a.i = b.i
      · rw [if_pos hab]
        have := hinv.1 _ _ ha
        rw [hab, hinv.1 _ _ hb] at this
        rw [hkb]
        exact this.symm
      · rw [if_neg hab, if_pos rfl, hkb]
    · rw [if_neg hkb] at h'
      by_cases hka : k = a.k
      · rw [if_pos hka] at h'
        have hi : i = b.i := (Option.some.inj h').symm
        rw [if_pos hi, hka]
      · rw [if_neg hka] at h'
        have hk := hinv.1 _ _ h'
        have hib : i ≠ b.i := by
          intro hc
          rw [hc, hinv.1 _ _ hb] at hk
          exact hkb (Option.some.inj hk).symm
        have hia : i ≠ a.i := by
          intro hc
          rw [hc, hinv.1 _ _ ha] at hk
          exact hka (Option.some.inj hk).symm
        rw [if_neg hib, if_neg hia]
        exact hk
  · intro i k h
    show sd ix2 k = some i
    have h' : ds ix2 i = some k := h
    rw [hd] at h'
    rw [hs]
    by_cases hib : i = b.i
    · rw [if_pos hib] at h'
      have hk : k = a.k := (Option.some.inj h').symm
      subst hk
      by_cases hab : a.k = b.k
      · rw [if_pos hab]
        have := ha
        rw [hab, hb] at this
        rw [hib]
        exact this.symm
      · rw [if_neg hab, if_pos rfl, hib]
    · rw [if_neg hib] at h'
      by_cases hia : i = a.i
      · rw [if_pos hia] at h'
        have hk : k = b.k := (Option.some.inj h').symm
        rw [if_pos hk, hia]
      · rw [if_neg hia] at h'
        have hi := hinv.2 _ _ h'
        have hkb : k ≠ b.k := by
          intro hc
          rw [hc, hb] at hi
          exact hib (Option.some.inj hi).symm
        have hka : k ≠ a.k := by
          intro hc
          rw [hc, ha] at hi
          exact hia (Option.some.inj hi).symm
        rw [if_neg hkb, if_neg hka]
        exact hi

theorem max_size_le_pow (w : Nat) : max_size w ≤ 2 ^ w := by
  have : 0 < 2 ^ w := Nat.pow_pos (by decide)
  unfold max_size
  split <;> omega

theorem max_size_lt_size_range {w : Nat} (hw : w ≤ 64) : max_size w < 2 ^ 64 := by
  unfold max_size
  by_cases h : w < 64
  · have h1 : 2 ^ w ≤ 2 ^ 63 := Nat.pow_le_pow_right (by decide) (by omega)
    have h2 : 0 < 2 ^ w := Nat.pow_pos (by decide)
    rw [if_pos h]
    omega
  · have : w = 64 := by omega
    subst this
    decide

theorem size_pred_eq {n : Nat} (h0 : 0 < n) (h1 : n < 2 ^ 64) : size_pred n = n - 1 := by
  unfold size_pred
  have : n + (2 ^ 64 - 1) = (n - 1) + 2 ^ 64 := by omega
  rw [this, Nat.add_mod_right, Nat.mod_eq_of_lt (by omega)]

theorem to_key_eq {w n : Nat} (h : n < max_size w) : to_key w n = n :=
  Nat.mod_eq_of_lt (Nat.lt_of_lt_of_le h (max_size_le_pow w))

theorem key_to_index_unsafe_eq (m : IndexMap α π) (k : Nat) :
    key_to_index_unsafe m k = (match sd m.indices k with
      | some i => .ok i
      | none => .error .assert_failed) := by
  unfold key_to_index_unsafe sd
  cases m.indices[k]? <;> rfl

theorem index_to_key_unsafe_eq (m : IndexMap α π) (i : Nat) :
    index_to_key_unsafe m i = (match ds m.indices i with
      | some k => .ok k
      | none => .error .assert_failed) := by
  unfold index_to_key_unsafe ds
  cases m.indices[i]? <;> rfl

theorem contains_iff (m : IndexMap α π) (k : Nat) :
    contains m k = true ↔ ∃ i, sd m.indices k = some i ∧ i < size m := by
  unfold contains key_to_index_relaxed contains_relaxed valid_index
  rw [key_to_index_unsafe_eq]
  by_cases hk : k < m.indices.length
  · obtain ⟨i, hi⟩ := sd_isSome hk
    simp [hk, hi]
  · constructor
    · intro h
      simp [hk] at h
    · rintro ⟨i, hi, -⟩
      exact absurd (sd_some_lt hi) hk

theorem contains_of_sd {m : IndexMap α π} {k i : Nat} (h : sd m.indices k = some i)
    (hi : i < size m) : contains m k = true :=
  (contains_iff m k).2 ⟨i, h, hi⟩

theorem not_contains_of_sd {m : IndexMap α π} {k i : Nat} (h : sd m.indices k = some i)
    (hi : size m ≤ i) : contains m k = false := by
  cases hc : contains m k
  · rfl
  · obtain ⟨j, hj, hlt⟩ := (contains_iff m k).1 hc
    rw [h] at hj
    cases hj
    omega

theorem key_to_index_of_sd {m : IndexMap α π} {k i : Nat} (h : sd m.indices k = some i)
    (hi : i < size m) : key_to_index m k = .ok i := by
  unfold key_to_index
  rw [contains_of_sd h hi, key_to_index_unsafe_eq, h]
  rfl

theorem key_to_index_relaxed_of_sd {m : IndexMap α π} {k i : Nat}
    (h : sd m.indices k = some i) : key_to_index_relaxed m k = .ok i := by
  unfold key_to_index_relaxed contains_relaxed
  rw [key_to_index_unsafe_eq, h]
  simp [sd_some_lt h]

theorem index_to_key_of_ds {m : IndexMap α π} {k i : Nat} (h : ds m.indices i = some k)
    (hi : i < size m) : index_to_key m i = .ok k := by
  unfold index_to_key valid_index
  rw [index_to_key_unsafe_eq, h]
  simp [hi]

theorem index_to_key_relaxed_of_ds {m : IndexMap α π} {k i : Nat}
    (h : ds m.indices i = some k) : index_to_key_relaxed m i = .ok k := by
  unfold index_to_key_relaxed valid_index_relaxed
  rw [index_to_key_unsafe_eq, h]
  simp [ds_some_lt h]

theorem at_key_of_sd {m : IndexMap α π} {k i : Nat} {v : α} (h : sd m.indices k = some i)
    (hv : m.value_storage[i]? = some v) : at_key m k = .ok v := by
  have hi : i < size m := (List.getElem?_eq_some_iff.1 hv).1
  unfold at_key
  rw [key_to_index_of_sd h hi]
  simp [hv]

theorem at_index_of_get {m : IndexMap α π} {i : Nat} {v : α}
    (hv : m.value_storage[i]? = some v) : at_index m i = .ok v := by
  have hi : i < size m := (List.getElem?_eq_some_iff.1 hv).1
  unfold at_index valid_index
  simp [hi, hv]

theorem at_key_ok_iff (m : IndexMap α π) (k : Nat) (v : α) :
    at_key m k = .ok v ↔ ∃ i, sd m.indices k = some i ∧ m.value_storage[i]? = some v := by
  constructor
  · intro h
    unfold at_key key_to_index at h
    cases hc : contains m k
    · simp [hc] at h
    · obtain ⟨i, hi, hlt⟩ := (contains_iff m k).1 hc
      refine ⟨i, hi, ?_⟩
      rw [hc, key_to_index_unsafe_eq, hi] at h
      simp only [if_true] at h
      cases hv : m.value_storage[i]? with
      | none => simp [hv] at h
      | some x =>
        simp [hv] at h
        rw [h]
  · rintro ⟨i, hi, hv⟩
    exact at_key_of_sd hi hv

theorem WF.size_lt {w : Nat} {m : IndexMap α π} (h : WF w m) (hw : w ≤ 64) :
    size m < 2 ^ 64 :=
  Nat.lt_of_le_of_lt (Nat.le_trans h.size_le h.keys_le) (max_size_lt_size_range hw)

theorem WF.keys_lt {w : Nat} {m : IndexMap α π} (h : WF w m) (hw : w ≤ 64) :
    keys_size m < 2 ^ 64 :=
  Nat.lt_of_le_of_lt h.keys_le (max_size_lt_size_range hw)

theorem move_value_spec (ops : MoveOps α) (m : IndexMap α π) (src dst : Nat)
    (hs : src < size m) (hd : dst < size m) :
    ∃ m1, move_value ops m src dst = .ok m1 ∧ m1.indices = m.indices ∧
      m1.value_storage.length = m.value_storage.length ∧
      ∀ j, j ≠ src → m1.value_storage[j]? =
        if j = dst then m.value_storage[src]? else m.value_storage[j]? := by
  have hs' : src < m.value_storage.length := hs
  have hd' : dst < m.value_storage.length := hd
  unfold move_value at_index valid_index
  simp only [hs, hd, decide_True, if_true, List.getElem?_eq_getElem hs',
    List.getElem?_eq_getElem hd']
  by_cases hsd : src = dst
  · rw [if_pos hsd]
    refine ⟨_, rfl, rfl, by simp, ?_⟩
    intro j hj
    have hjd : j ≠ dst := hsd ▸ hj
    simp [hjd, Ne.symm hjd]
  · rw [if_neg hsd]
    refine ⟨_, rfl, rfl, by simp, ?_⟩
    intro j hj
    by_cases hjd : j = dst
    · subst hjd
      simp [List.getElem?_set, Ne.symm hj, hd']
    · simp [List.getElem?_set, Ne.symm hj, Ne.symm hjd, hjd]

theorem erase_core_spec (ops : MoveOps α) {w : Nat} {m : IndexMap α π} (hw : w ≤ 64)
    (h : WF w m) {k i : Nat} (hk : sd m.indices k = some i) (hi : i < size m) :
    ∃ kl m1, ds m.indices (size m - 1) = some kl ∧
      KeyAndIndex.of_index m (size_pred m.value_storage.length) = .ok ⟨kl, size m - 1⟩ ∧
      move_elem_low ops m ⟨kl, size m - 1⟩ ⟨k, i⟩ = .ok m1 ∧
      Erased m k i kl (pop_back m1) ∧ WF w (pop_back m1) := by
  have hn0 : 0 < size m := by omega
  have hnK : size m ≤ m.indices.length := h.size_le
  have hpred : size_pred m.value_storage.length = size m - 1 :=
    size_pred_eq hn0 (h.size_lt hw)
  obtain ⟨kl, hkl⟩ := ds_isSome (show size m - 1 < m.indices.length by omega)
  have hskl := h.inv.2 _ _ hkl
  obtain ⟨m1, e1, v1, l1, s1, d1, p1, i1⟩ :=
    swap_indices_only_relaxed_spec m ⟨kl, size m - 1⟩ ⟨k, i⟩ h.inv hskl hk
  have hsz1 : size m1 = size m := by unfold size; rw [v1]
  obtain ⟨m2, e2, x2, l2, v2⟩ := move_value_spec ops m1 (size m - 1) i
    (by rw [hsz1]; omega) (by rw [hsz1]; exact hi)
  refine ⟨kl, m2, hkl, ?_, ?_, ?_, ?_⟩
  · rw [hpred]
    unfold KeyAndIndex.of_index
    rw [index_to_key_unsafe_eq, hkl]
  · unfold move_elem_low swap_indices_only valid_index
    have : size m - 1 < size m := by omega
    simp only [this, hi, decide_True, Bool.and_self, if_true, e1]
    exact e2
  · constructor
    · show (pop_back m2).indices.length = m.indices.length
      simp [pop_back, x2, l1]
    · show (pop_back m2).value_storage.length + 1 = size m
      simp only [pop_back, List.length_dropLast, l2, v1]
      unfold size at hn0 ⊢
      omega
    · intro x
      show sd m2.indices x = _
      rw [x2, s1]
    · intro y
      show ds m2.indices y = _
      rw [x2, d1]
    · intro x
      show pd m2.indices x = _
      rw [x2, p1]
    · intro j
      show m2.value_storage.dropLast[j]? = _
      rw [List.getElem?_dropLast, l2, v1]
      show (if j < size m - 1 then _ else _) = _
      by_cases hj : j < size m - 1
      · rw [if_pos hj, if_pos hj, v2 j (by omega), v1]
      · rw [if_neg hj, if_neg hj]
  · constructor
    · show (pop_back m2).value_storage.length ≤ (pop_back m2).indices.length
      simp only [pop_back, List.length_dropLast, l2, v1, x2, l1]
      unfold size at hnK
      omega
    · show (pop_back m2).indices.length ≤ max_size w
      simp only [pop_back, x2, l1]
      exact h.keys_le
    · show Inverse m2.indices
      rw [x2]
      exact i1

theorem erase_ok (ops : MoveOps α) {w : Nat} {m : IndexMap α π} (hw : w ≤ 64)
    (h : WF w m) {k i : Nat} (hk : sd m.indices k = some i) (hi : i < size m) :
    ∃ kl m', ds m.indices (size m - 1) = some kl ∧ erase ops m k = (.ok (), m') ∧
      Erased m k i kl m' ∧ WF w m' := by
  obtain ⟨kl, m1, hkl, ea, em, her, hwf⟩ := erase_core_spec ops hw h hk hi
  refine ⟨kl, pop_back m1, hkl, ?_, her, hwf⟩
  have eb : KeyAndIndex.of_key m k = .ok ⟨k, i⟩ := by
    unfold KeyAndIndex.of_key
    rw [key_to_index_unsafe_eq, hk]
  unfold erase
  rw [contains_of_sd hk hi, ea, eb]
  simp only [Bool.not_true, Bool.false_eq_true, if_false, em]

theorem erase_index_ok (ops : MoveOps α) {w : Nat} {m : IndexMap α π} (hw : w ≤ 64)
    (h : WF w m) {i : Nat} (hi : i < size m) :
    ∃ k kl m', ds m.indices i = some k ∧ ds m.indices (size m - 1) = some kl ∧
      erase_index ops m i = (.ok (), m') ∧ Erased m k i kl m' ∧ WF w m' := by
  obtain ⟨k, hk⟩ := ds_isSome (Nat.lt_of_lt_of_le hi h.size_le)
  have hsk := h.inv.2 _ _ hk
  obtain ⟨kl, m1, hkl, ea, em, her, hwf⟩ := erase_core_spec ops hw h hsk hi
  refine ⟨k, kl, pop_back m1, hk, hkl, ?_, her, hwf⟩
  have eb : KeyAndIndex.of_index m i = .ok ⟨k, i⟩ := by
    unfold KeyAndIndex.of_index
    rw [index_to_key_unsafe_eq, hk]
  unfold erase_index valid_index
  rw [ea, eb]
  simp only [hi, decide_True, Bool.not_true, Bool.false_eq_true, if_false, em]

theorem erase_fail (ops : MoveOps α) {m : IndexMap α π} {k : Nat} (hk : contains m k = false) :
    erase ops m k = (.error .invalid_key, m) := by
  unfold erase
  rw [hk]
  rfl

theorem erase_index_fail (ops : MoveOps α) {m : IndexMap α π} {i : Nat} (hi : size m ≤ i) :
    erase_index ops m i = (.error .invalid_index, m) := by
  unfold erase_index valid_index
  have : ¬ i < size m := by omega
  simp [this]

theorem sd_append (ix : List (IndexEntry π)) (e : IndexEntry π) (x : Nat) :
    sd (ix ++ [e]) x =
      if x = ix.length then some e.sparse_to_dense else sd ix x := by
  unfold sd
  by_cases hx : x = ix.length
  · subst hx
    simp
  · rw [if_neg hx, List.getElem?_append]
    by_cases hlt : x < ix.length
    · rw [if_pos hlt]
    · rw [if_neg hlt, List.getElem?_eq_none (l := ix) (by omega),
        List.getElem?_eq_none (by simp; omega)]

theorem ds_append (ix : List (IndexEntry π)) (e : IndexEntry π) (x : Nat) :
    ds (ix ++ [e]) x =
      if x = ix.length then some e.dense_to_sparse else ds ix x := by
  unfold ds
  by_cases hx : x = ix.length
  · subst hx
    simp
  · rw [if_neg hx, List.getElem?_append]
    by_cases hlt : x < ix.length
    · rw [if_pos hlt]
    · rw [if_neg hlt, List.getElem?_eq_none (l := ix) (by omega),
        List.getElem?_eq_none (by simp; omega)]

theorem pd_append (ix : List (IndexEntry π)) (e : IndexEntry π) (x : Nat) :
    pd (ix ++ [e]) x =
      if x = ix.length then some e.sparse_data else pd ix x := by
  unfold pd
  by_cases hx : x = ix.length
  · subst hx
    simp
  · rw [if_neg hx, List.getElem?_append]
    by_cases hlt : x < ix.length
    · rw [if_pos hlt]
    · rw [if_neg hlt, List.getElem?_eq_none (l := ix) (by omega),
        List.getElem?_eq_none (by simp; omega)]

theorem Inverse_append_self {ix : List (IndexEntry π)} (h : Inverse ix) (d : π) :
    Inverse (ix ++ [⟨ix.length, ix.length, d⟩]) := by
  constructor
  · intro k i hki
    rw [sd_append] at hki
    rw [ds_append]
    by_cases hk : k = ix.length
    · rw [if_pos hk] at hki
      have : i = ix.length := (Option.some.inj hki).symm
      rw [if_pos this, hk]
    · rw [if_neg hk] at hki
      have hi := ds_some_lt (h.1 _ _ hki)
      rw [if_neg (by omega)]
      exact h.1 _ _ hki
  · intro i k hik
    rw [ds_append] at hik
    rw [sd_append]
    by_cases hi : i = ix.length
    · rw [if_pos hi] at hik
      have : k = ix.length := (Option.some.inj hik).symm
      rw [if_pos this, hi]
    · rw [if_neg hi] at hik
      have hk := sd_some_lt (h.2 _ _ hik)
      rw [if_neg (by omega)]
      exact h.2 _ _ hik

theorem emplace_fail [Inhabited π] {w : Nat} {m : IndexMap α π} (v : α)
    (h : max_size w ≤ size m) : emplace w m v = (.error .too_large, m) := by
  unfold emplace
  rw [if_pos h]

theorem emplace_reuse [Inhabited π] {w : Nat} {m : IndexMap α π} (hw : w ≤ 64) (h : WF w m)
    (v : α) (hlt : size m < keys_size m) :
    ∃ k, ds m.indices (size m) = some k ∧
      emplace w m v = (.ok ⟨k, size m, size m⟩, emplace_back m v) ∧
      WF w (emplace_back m v) := by
  obtain ⟨k, hk⟩ := ds_isSome hlt
  have hmax : ¬ size m ≥ max_size w := by
    have := h.keys_le
    omega
  have hlen : (emplace_back m v).value_storage.length = size m + 1 := by
    simp [emplace_back, size]
  have hpred : size_pred (size m + 1) = size m := by
    have := h.keys_lt hw
    rw [size_pred_eq (by omega) (by omega)]
    rfl
  have hany : ∃ e, m.indices[size m]? = some e ∧ e.dense_to_sparse = k := by
    unfold ds at hk
    cases he : m.indices[size m]? with
    | none => simp [he] at hk
    | some e =>
      simp [he] at hk
      exact ⟨e, rfl, hk⟩
  obtain ⟨e, he, hek⟩ := hany
  refine ⟨k, hk, ?_, ?_⟩
  · unfold emplace add_key_for_inserted_value
    rw [if_neg hmax]
    have hsz : size (emplace_back m v) = size m + 1 := hlen
    have hix : (emplace_back m v).indices = m.indices := rfl
    have hle : size m + 1 ≤ m.indices.length := hlt
    simp only [hsz, hix, hlen, hle, if_true, hpred, he, hek]
  · exact ⟨by show (emplace_back m v).value_storage.length ≤ m.indices.length
              rw [hlen]; exact hlt, h.keys_le, h.inv⟩

theorem emplace_fresh [Inhabited π] {w : Nat} {m : IndexMap α π} (hw : w ≤ 64) (h : WF w m)
    (v : α) (heq : size m = keys_size m) (hlt : size m < max_size w) :
    emplace w m v = (.ok ⟨keys_size m, size m, keys_size m⟩,
      ⟨m.indices ++ [⟨keys_size m, keys_size m, default⟩], m.value_storage ++ [v]⟩) ∧
    WF w (⟨m.indices ++ [⟨keys_size m, keys_size m, default⟩], m.value_storage ++ [v]⟩ :
      IndexMap α π) := by
  have hmax : ¬ size m ≥ max_size w := by omega
  have hlen : (emplace_back m v).value_storage.length = size m + 1 := by
    simp [emplace_back, size]
  have hpred : size_pred (size m + 1) = size m := by
    have := max_size_lt_size_range hw
    rw [size_pred_eq (by omega) (by omega)]
    rfl
  have hkey : to_key w m.indices.length = keys_size m :=
    to_key_eq (by unfold keys_size at heq; omega)
  constructor
  · unfold emplace add_key_for_inserted_value
    rw [if_neg hmax]
    have hsz : size (emplace_back m v) = size m + 1 := hlen
    have hix : (emplace_back m v).indices = m.indices := rfl
    have hle : ¬ size m + 1 ≤ m.indices.length := by unfold keys_size at heq; omega
    simp only [hsz, hix, hle, if_false, hpred, hkey]
    rfl
  · refine ⟨?_, ?_, Inverse_append_self h.inv default⟩
    · show (m.value_storage ++ [v]).length ≤ (m.indices ++ [_]).length
      simp only [List.length_append, List.length_singleton]
      unfold size keys_size at heq
      omega
    · show (m.indices ++ [_]).length ≤ max_size w
      simp only [List.length_append, List.length_singleton]
      unfold size at hlt
      unfold size keys_size at heq
      omega

theorem swap_values_spec (m : IndexMap α π) (i j : Nat) (hi : i < size m) (hj : j < size m) :
    ∃ m1, swap_values m i j = .ok m1 ∧ m1.indices = m.indices ∧
      m1.value_storage.length = m.value_storage.length ∧
      ∀ t, m1.value_storage[t]? =
        if t = j then m.value_storage[i]? else if t = i then m.value_storage[j]?
        else m.value_storage[t]? := by
  have hi' : i < m.value_storage.length := hi
  have hj' : j < m.value_storage.length := hj
  unfold swap_values at_index valid_index
  simp only [hi, hj, decide_True, if_true, List.getElem?_eq_getElem hi',
    List.getElem?_eq_getElem hj']
  refine ⟨_, rfl, rfl, by simp, ?_⟩
  intro t
  by_cases htj : t = j
  · subst htj
    simp [List.getElem?_set, hj']
  · by_cases hti : t = i
    · subst hti
      simp [List.getElem?_set, htj, Ne.symm htj, hi']
    · simp [List.getElem?_set, htj, hti, Ne.symm htj, Ne.symm hti]

theorem swap_elems_ok {w : Nat} {m : IndexMap α π} (h : WF w m) {i j : Nat}
    (hi : i < size m) (hj : j < size m) :
    ∃ ki kj m', ds m.indices i = some ki ∧ ds m.indices j = some kj ∧
      swap_elems m i j = (.ok (), m') ∧ Swapped m i j ki kj m' ∧
      (∀ t, m'.value_storage[t]? =
        if t = j then m.value_storage[i]? else if t = i then m.value_storage[j]?
        else m.value_storage[t]?) ∧ WF w m' := by
  obtain ⟨ki, hki⟩ := ds_isSome (Nat.lt_of_lt_of_le hi h.size_le)
  obtain ⟨kj, hkj⟩ := ds_isSome (Nat.lt_of_lt_of_le hj h.size_le)
  obtain ⟨m1, e1, v1, l1, s1, d1, p1, i1⟩ :=
    swap_indices_only_relaxed_spec m ⟨ki, i⟩ ⟨kj, j⟩ h.inv (h.inv.2 _ _ hki) (h.inv.2 _ _ hkj)
  have hsz1 : size m1 = size m := by unfold size; rw [v1]
  obtain ⟨m2, e2, x2, l2, v2⟩ := swap_values_spec m1 i j (by rw [hsz1]; exact hi)
    (by rw [hsz1]; exact hj)
  have hsz2 : size m2 = size m := by unfold size; rw [l2, v1]
  refine ⟨ki, kj, m2, hki, hkj, ?_, ?_, ?_, ?_⟩
  · have ea : KeyAndIndex.of_index m i = .ok ⟨ki, i⟩ := by
      unfold KeyAndIndex.of_index
      rw [index_to_key_unsafe_eq, hki]
    have eb : KeyAndIndex.of_index m j = .ok ⟨kj, j⟩ := by
      unfold KeyAndIndex.of_index
      rw [index_to_key_unsafe_eq, hkj]
    unfold swap_elems
    rw [ea, eb]
    unfold swap_elems_low swap_indices_only valid_index
    simp only [hi, hj, decide_True, Bool.and_self, if_true, e1, e2]
  · constructor
    · show m2.indices.length = m.indices.length
      rw [x2, l1]
    · exact hsz2
    · intro x
      rw [x2, s1]
    · intro y
      rw [x2, d1]
    · intro x
      rw [x2, p1]
  · intro t
    rw [v2, v1]
  · constructor
    · show size m2 ≤ m2.indices.length
      rw [hsz2, x2, l1]
      exact h.size_le
    · show m2.indices.length ≤ max_size w
      rw [x2, l1]
      exact h.keys_le
    · rw [x2]
      exact i1

theorem move_elem_ok (ops : MoveOps α) {w : Nat} {m : IndexMap α π} (h : WF w m) {i j : Nat}
    (hi : i < size m) (hj : j < size m) :
    ∃ ki kj m', ds m.indices i = some ki ∧ ds m.indices j = some kj ∧
      move_elem ops m i j = (.ok (), m') ∧ Swapped m i j ki kj m' ∧
      (∀ t, t ≠ i → m'.value_storage[t]? =
        if t = j then m.value_storage[i]? else m.value_storage[t]?) ∧ WF w m' := by
  obtain ⟨ki, hki⟩ := ds_isSome (Nat.lt_of_lt_of_le hi h.size_le)
  obtain ⟨kj, hkj⟩ := ds_isSome (Nat.lt_of_lt_of_le hj h.size_le)
  obtain ⟨m1, e1, v1, l1, s1, d1, p1, i1⟩ :=
    swap_indices_only_relaxed_spec m ⟨ki, i⟩ ⟨kj, j⟩ h.inv (h.inv.2 _ _ hki) (h.inv.2 _ _ hkj)
  have hsz1 : size m1 = size m := by unfold size; rw [v1]
  obtain ⟨m2, e2, x2, l2, v2⟩ := move_value_spec ops m1 i j (by rw [hsz1]; exact hi)
    (by rw [hsz1]; exact hj)
  have hsz2 : size m2 = size m := by unfold size; rw [l2, v1]
  refine ⟨ki, kj, m2, hki, hkj, ?_, ?_, ?_, ?_⟩
  · have ea : KeyAndIndex.of_index m i = .ok ⟨ki, i⟩ := by
      unfold KeyAndIndex.of_index
      rw [index_to_key_unsafe_eq, hki]
    have eb : KeyAndIndex.of_index m j = .ok ⟨kj, j⟩ := by
      unfold KeyAndIndex.of_index
      rw [index_to_key_unsafe_eq, hkj]
    unfold move_elem
    rw [ea, eb]
    unfold move_elem_low swap_indices_only valid_index
    simp only [hi, hj, decide_True, Bool.and_self, if_true, e1, e2]
  · constructor
    · show m2.indices.length = m.indices.length
      rw [x2, l1]
    · exact hsz2
    · intro x
      rw [x2, s1]
    · intro y
      rw [x2, d1]
    · intro x
      rw [x2, p1]
  · intro t ht
    rw [v2 t ht, v1]
  · constructor
    · show size m2 ≤ m2.indices.length
      rw [hsz2, x2, l1]
      exact h.size_le
    · show m2.indices.length ≤ max_size w
      rw [x2, l1]
      exact h.keys_le
    · rw [x2]
      exact i1

theorem sd_dropLast (ix : List (IndexEntry π)) (x : Nat) :
    sd ix.dropLast x = if x < ix.length - 1 then sd ix x else none := by
  unfold sd
  rw [List.getElem?_dropLast]
  split <;> rfl

theorem ds_dropLast (ix : List (IndexEntry π)) (x : Nat) :
    ds ix.dropLast x = if x < ix.length - 1 then ds ix x else none := by
  unfold ds
  rw [List.getElem?_dropLast]
  split <;> rfl

theorem pd_dropLast (ix : List (IndexEntry π)) (x : Nat) :
    pd ix.dropLast x = if x < ix.length - 1 then pd ix x else none := by
  unfold pd
  rw [List.getElem?_dropLast]
  split <;> rfl

theorem Inverse_dropLast {ix : List (IndexEntry π)} (h : Inverse ix)
    (hlast : sd ix (ix.length - 1) = some (ix.length - 1)) : Inverse ix.dropLast := by
  have hlast' := h.1 _ _ hlast
  constructor
  · intro k i hki
    rw [sd_dropLast] at hki
    rw [ds_dropLast]
    by_cases hk : k < ix.length - 1
    · rw [if_pos hk] at hki
      have hik := h.1 _ _ hki
      have hi := ds_some_lt hik
      have hne : i ≠ ix.length - 1 := by
        intro hc
        rw [hc, hlast'] at hik
        have := Option.some.inj hik
        omega
      rw [if_pos (by omega)]
      exact hik
    · rw [if_neg hk] at hki
      cases hki
  · intro i k hik
    rw [ds_dropLast] at hik
    rw [sd_dropLast]
    by_cases hi : i < ix.length - 1
    · rw [if_pos hi] at hik
      have hki := h.2 _ _ hik
      have hk := sd_some_lt hki
      have hne : k ≠ ix.length - 1 := by
        intro hc
        rw [hc, hlast] at hki
        have := Option.some.inj hki
        omega
      rw [if_pos (by omega)]
      exact hki
    · rw [if_neg hi] at hik
      cases hik

theorem remove_unused_key_empty {m : IndexMap α π} (h : m.indices = []) :
    remove_unused_key m = (.ok false, m) := by
  unfold remove_unused_key
  rw [h]
  rfl

theorem getLast?_of_sd {ix : List (IndexEntry π)} {i : Nat}
    (h : sd ix (ix.length - 1) = some i) :
    ∃ e, ix.getLast? = some e ∧ e.sparse_to_dense = i := by
  rw [List.getLast?_eq_getElem?]
  unfold sd at h
  cases he : ix[ix.length - 1]? with
  | none => simp [he] at h
  | some e =>
    simp [he] at h
    exact ⟨e, rfl, h⟩

theorem remove_unused_key_live {m : IndexMap α π} {i : Nat}
    (hs : sd m.indices (keys_size m - 1) = some i) (hi : i < size m) :
    remove_unused_key m = (.ok false, m) := by
  obtain ⟨e, he, hei⟩ := getLast?_of_sd hs
  unfold remove_unused_key
  rw [he]
  simp only [hei, hi, if_true]

theorem remove_unused_key_dead {w : Nat} {m : IndexMap α π} (hw : w ≤ 64) (h : WF w m)
    {i : Nat} (hs : sd m.indices (keys_size m - 1) = some i) (hi : size m ≤ i) :
    ∃ kb m', ds m.indices (keys_size m - 1) = some kb ∧
      remove_unused_key m = (.ok true, m') ∧ Reclaimed m i kb m' ∧ WF w m' := by
  unfold keys_size at hs
  show ∃ kb m', ds m.indices (m.indices.length - 1) = some kb ∧ _
  have hK : m.indices.length - 1 < m.indices.length := sd_some_lt hs
  have hK0 : 0 < m.indices.length := by omega
  have hiK : i < m.indices.length := ds_some_lt (h.inv.1 _ _ hs)
  obtain ⟨kb, hkb⟩ := ds_isSome hK
  obtain ⟨e, he, hei⟩ := getLast?_of_sd hs
  have hpred : size_pred m.indices.length = m.indices.length - 1 :=
    size_pred_eq hK0 (h.keys_lt hw)
  obtain ⟨m1, e1, v1, l1, s1, d1, p1, i1⟩ :=
    swap_indices_only_relaxed_spec m ⟨m.indices.length - 1, i⟩ ⟨kb, m.indices.length - 1⟩
      h.inv hs (h.inv.2 _ _ hkb)
  dsimp only at s1 d1
  have hlast : sd m1.indices (m1.indices.length - 1) = some (m1.indices.length - 1) := by
    rw [l1, s1]
    by_cases hc : m.indices.length - 1 = kb
    · rw [if_pos hc]
      have := h.inv.2 _ _ hkb
      rw [← hc, hs] at this
      exact this
    · rw [if_neg hc, if_pos rfl]
  refine ⟨kb, { m1 with indices := m1.indices.dropLast }, hkb, ?_, ?_, ?_⟩
  · have ea : KeyAndIndex.of_index m i = .ok ⟨m.indices.length - 1, i⟩ := by
      unfold KeyAndIndex.of_index
      rw [index_to_key_unsafe_eq, h.inv.1 _ _ hs]
    have eb : KeyAndIndex.of_index m (m.indices.length - 1) =
        .ok ⟨kb, m.indices.length - 1⟩ := by
      unfold KeyAndIndex.of_index
      rw [index_to_key_unsafe_eq, hkb]
    unfold remove_unused_key
    rw [he]
    have hni : ¬ i < size m := by omega
    simp only [hei, hni, if_false, hpred, ea, eb, e1]
  · constructor
    · show m1.indices.dropLast.length + 1 = m.indices.length
      rw [List.length_dropLast, l1]
      omega
    · exact v1
    · intro x
      show sd m1.indices.dropLast x =
        if x < m.indices.length - 1 then (if x = kb then some i else sd m.indices x) else none
      rw [sd_dropLast, l1, s1]
      by_cases hx : x < m.indices.length - 1
      · rw [if_pos hx, if_pos hx]
        by_cases hxb : x = kb
        · rw [if_pos hxb, if_pos hxb]
        · rw [if_neg hxb, if_neg hxb, if_neg (show ¬ x = m.indices.length - 1 by omega)]
      · rw [if_neg hx, if_neg hx]
    · intro y
      show ds m1.indices.dropLast y =
        if y < m.indices.length - 1 then (if y = i then some kb else ds m.indices y) else none
      rw [ds_dropLast, l1, d1]
      by_cases hy : y < m.indices.length - 1
      · rw [if_pos hy, if_pos hy, if_neg (show ¬ y = m.indices.length - 1 by omega)]
      · rw [if_neg hy, if_neg hy]
    · intro x
      show pd m1.indices.dropLast x = if x < m.indices.length - 1 then pd m.indices x else none
      rw [pd_dropLast, l1, p1]
  · constructor
    · show m1.value_storage.length ≤ m1.indices.dropLast.length
      rw [List.length_dropLast, l1, v1]
      have : size m ≤ i := hi
      unfold size at this
      omega
    · show m1.indices.dropLast.length ≤ max_size w
      rw [List.length_dropLast, l1]
      have := h.keys_le
      unfold keys_size at this
      omega
    · exact Inverse_dropLast i1 hlast

theorem prepare_loop_spec (w : Nat) : ∀ (c i : Nat) (ix : List (IndexEntry π)),
    i + c ≤ ix.length →
    (prepare_loop w c i ix).length = ix.length ∧
    (∀ x, sd (prepare_loop w c i ix) x =
      if i ≤ x ∧ x < i + c then some (to_key w x) else sd ix x) ∧
    (∀ x, ds (prepare_loop w c i ix) x =
      if i ≤ x ∧ x < i + c then some (to_key w x) else ds ix x) ∧
    (∀ x, pd (prepare_loop w c i ix) x = pd ix x) := by
  intro c
  induction c with
  | zero =>
    intro i ix _
    refine ⟨rfl, ?_, ?_, fun _ => rfl⟩
    · intro x
      rw [if_neg (by omega)]
      rfl
    · intro x
      rw [if_neg (by omega)]
      rfl
  | succ c ih =>
    intro i ix hle
    have hi : i < ix.length := by omega
    have hget : ix[i]? = some ix[i] := List.getElem?_eq_getElem hi
    have hstep : prepare_loop w (c + 1) i ix =
        prepare_loop w c (i + 1)
          (ix.set i { ix[i] with sparse_to_dense := to_key w i, dense_to_sparse := to_key w i }) := by
      simp only [prepare_loop, hget]
    obtain ⟨l, s, d, p⟩ := ih (i + 1)
      (ix.set i { ix[i] with sparse_to_dense := to_key w i, dense_to_sparse := to_key w i })
      (by rw [List.length_set]; omega)
    rw [hstep]
    refine ⟨by rw [l, List.length_set], ?_, ?_, ?_⟩
    · intro x
      rw [s]
      by_cases hx : x = i
      · subst hx
        rw [if_neg (by omega), if_pos (by omega)]
        simp [sd, hi]
      · have e : sd (ix.set i
            { ix[i] with sparse_to_dense := to_key w i, dense_to_sparse := to_key w i }) x =
            sd ix x := by
          unfold sd
          rw [List.getElem?_set_ne (Ne.symm hx)]
        rw [e]
        by_cases hr : i + 1 ≤ x ∧ x < i + 1 + c
        · rw [if_pos hr, if_pos (by omega)]
        · rw [if_neg hr, if_neg (by omega)]
    · intro x
      rw [d]
      by_cases hx : x = i
      · subst hx
        rw [if_neg (by omega), if_pos (by omega)]
        simp [ds, hi]
      · have e : ds (ix.set i
            { ix[i] with sparse_to_dense := to_key w i, dense_to_sparse := to_key w i }) x =
            ds ix x := by
          unfold ds
          rw [List.getElem?_set_ne (Ne.symm hx)]
        rw [e]
        by_cases hr : i + 1 ≤ x ∧ x < i + 1 + c
        · rw [if_pos hr, if_pos (by omega)]
        · rw [if_neg hr, if_neg (by omega)]
    · intro x
      rw [p]
      by_cases hx : x = i
      · subst hx
        simp [pd, hi]
      · unfold pd
        rw [List.getElem?_set_ne (Ne.symm hx)]

theorem prepare_noop [Inhabited π] (w : Nat) {m : IndexMap α π} {n : Nat}
    (h : n ≤ keys_size m) : prepare_keys_for_insertion w m n = (.ok (), m) := by
  unfold keys_size at h
  unfold prepare_keys_for_insertion
  simp only [ge_iff_le]
  rw [if_pos h]

theorem prepare_fail [Inhabited π] {w : Nat} {m : IndexMap α π} {n : Nat}
    (h : keys_size m < n) (hn : max_size w < n) :
    prepare_keys_for_insertion w m n = (.error .would_be_too_large, m) := by
  unfold prepare_keys_for_insertion
  have h1 : ¬ n ≤ m.indices.length := by unfold keys_size at h; omega
  simp only [ge_iff_le, gt_iff_lt]
  rw [if_neg h1, if_pos hn]

theorem prepare_grow [Inhabited π] {w : Nat} {m : IndexMap α π} {n : Nat} (hwf : WF w m)
    (h : keys_size m < n) (hn : n ≤ max_size w) :
    ∃ m', prepare_keys_for_insertion w m n = (.ok (), m') ∧ Prepared m n m' ∧ WF w m' := by
  unfold keys_size at h
  have h1 : ¬ n ≤ m.indices.length := by omega
  have h2 : ¬ max_size w < n := by omega
  have hlen : (m.indices ++ List.replicate (n - m.indices.length)
      (⟨0, 0, default⟩ : IndexEntry π)).length = n := by
    rw [List.length_append, List.length_replicate]
    omega
  obtain ⟨l, s, d, p⟩ := prepare_loop_spec w (n - m.indices.length) m.indices.length
    (m.indices ++ List.replicate (n - m.indices.length) (⟨0, 0, default⟩ : IndexEntry π))
    (by rw [hlen]; omega)
  have hs : ∀ x, sd (prepare_loop w (n - m.indices.length) m.indices.length
      (m.indices ++ List.replicate (n - m.indices.length) (⟨0, 0, default⟩ : IndexEntry π))) x =
      if x < m.indices.length then sd m.indices x else if x < n then some x else none := by
    intro x
    rw [s]
    by_cases hx : x < m.indices.length
    · rw [if_neg (by omega), if_pos hx]
      unfold sd
      rw [List.getElem?_append_left hx]
    · rw [if_neg hx]
      by_cases hxn : x < n
      · rw [if_pos (by omega), if_pos hxn, to_key_eq (by omega)]
      · rw [if_neg (by omega), if_neg hxn]
        unfold sd
        rw [List.getElem?_eq_none (by rw [hlen]; omega)]
        rfl
  have hd : ∀ x, ds (prepare_loop w (n - m.indices.length) m.indices.length
      (m.indices ++ List.replicate (n - m.indices.length) (⟨0, 0, default⟩ : IndexEntry π))) x =
      if x < m.indices.length then ds m.indices x else if x < n then some x else none := by
    intro x
    rw [d]
    by_cases hx : x < m.indices.length
    · rw [if_neg (by omega), if_pos hx]
      unfold ds
      rw [List.getElem?_append_left hx]
    · rw [if_neg hx]
      by_cases hxn : x < n
      · rw [if_pos (by omega), if_pos hxn, to_key_eq (by omega)]
      · rw [if_neg (by omega), if_neg hxn]
        unfold ds
        rw [List.getElem?_eq_none (by rw [hlen]; omega)]
        rfl
  refine ⟨⟨prepare_loop w (n - m.indices.length) m.indices.length
      (m.indices ++ List.replicate (n - m.indices.length) (⟨0, 0, default⟩ : IndexEntry π)),
    m.value_storage⟩, ?_, ?_, ?_⟩
  · unfold prepare_keys_for_insertion
    simp only [ge_iff_le, gt_iff_lt]
    rw [if_neg h1, if_neg h2]
  · constructor
    · show (prepare_loop _ _ _ _).length = n
      rw [l, hlen]
    · rfl
    · exact hs
    · exact hd
    · intro x
      show pd (prepare_loop _ _ _ _) x =
        if x < m.indices.length then pd m.indices x else if x < n then some default else none
      rw [p]
      unfold pd
      by_cases hx : x < m.indices.length
      · rw [if_pos hx, List.getElem?_append_left hx]
      · rw [if_neg hx, List.getElem?_append_right (by omega), List.getElem?_replicate]
        by_cases hxn : x < n
        · rw [if_pos (by omega), if_pos hxn]
          rfl
        · rw [if_neg (by omega), if_neg hxn]
          rfl
  · constructor
    · show m.value_storage.length ≤ (prepare_loop _ _ _ _).length
      rw [l, hlen]
      have := hwf.size_le
      unfold size keys_size at this
      omega
    · show (prepare_loop _ _ _ _).length ≤ max_size w
      rw [l, hlen]
      exact hn
    · constructor
      · intro k i hki
        show ds (prepare_loop _ _ _ _) i = some k
        have hki' : sd (prepare_loop w (n - m.indices.length) m.indices.length
          (m.indices ++ List.replicate (n - m.indices.length)
            (⟨0, 0, default⟩ : IndexEntry π))) k = some i := hki
        rw [hs] at hki'
        rw [hd]
        by_cases hk : k < m.indices.length
        · rw [if_pos hk] at hki'
          have hik := hwf.inv.1 _ _ hki'
          rw [if_pos (ds_some_lt hik)]
          exact hik
        · rw [if_neg hk] at hki'
          by_cases hkn : k < n
          · rw [if_pos hkn] at hki'
            have : i = k := (Option.some.inj hki').symm
            subst this
            rw [if_neg hk, if_pos hkn]
          · rw [if_neg hkn] at hki'
            cases hki'
      · intro i k hik
        show sd (prepare_loop _ _ _ _) k = some i
        have hik' : ds (prepare_loop w (n - m.indices.length) m.indices.length
          (m.indices ++ List.replicate (n - m.indices.length)
            (⟨0, 0, default⟩ : IndexEntry π))) i = some k := hik
        rw [hd] at hik'
        rw [hs]
        by_cases hi : i < m.indices.length
        · rw [if_pos hi] at hik'
          have hki := hwf.inv.2 _ _ hik'
          rw [if_pos (sd_some_lt hki)]
          exact hki
        · rw [if_neg hi] at hik'
          by_cases hin : i < n
          · rw [if_pos hin] at hik'
            have : k = i := (Option.some.inj hik').symm
            subst this
            rw [if_neg hi, if_pos hin]
          · rw [if_neg hin] at hik'
            cases hik'

theorem WF_empty (w : Nat) : WF w (empty : IndexMap α π) := by
  refine ⟨Nat.le_refl _, Nat.zero_le _, ?_, ?_⟩
  · intro k i h
    simp [sd, empty] at h
  · intro k i h
    simp [ds, empty] at h

theorem WF_clear (w : Nat) (m : IndexMap α π) : WF w (clear m) := WF_empty w

theorem WF_soft_clear {w : Nat} {m : IndexMap α π} (h : WF w m) : WF w (soft_clear m) :=
  ⟨Nat.zero_le _, h.keys_le, h.inv⟩

theorem WF_emplace [Inhabited π] {w : Nat} (hw : w ≤ 64) {m : IndexMap α π} (h : WF w m)
    (v : α) : WF w (emplace w m v).2 := by
  by_cases hmax : max_size w ≤ size m
  · rw [emplace_fail v hmax]
    exact h
  · by_cases hlt : size m < keys_size m
    · obtain ⟨k, -, e, hwf⟩ := emplace_reuse hw h v hlt
      rw [e]
      exact hwf
    · have heq : size m = keys_size m := Nat.le_antisymm h.size_le (Nat.le_of_not_lt hlt)
      obtain ⟨e, hwf⟩ := emplace_fresh hw h v heq (Nat.lt_of_not_le hmax)
      rw [e]
      exact hwf

theorem WF_erase (ops : MoveOps α) {w : Nat} (hw : w ≤ 64) {m : IndexMap α π} (h : WF w m)
    (k : Nat) : WF w (erase ops m k).2 := by
  cases hc : contains m k
  · rw [erase_fail ops hc]
    exact h
  · obtain ⟨i, hi, hlt⟩ := (contains_iff m k).1 hc
    obtain ⟨kl, m', -, e, -, hwf⟩ := erase_ok ops hw h hi hlt
    rw [e]
    exact hwf

theorem WF_erase_index (ops : MoveOps α) {w : Nat} (hw : w ≤ 64) {m : IndexMap α π}
    (h : WF w m) (i : Nat) : WF w (erase_index ops m i).2 := by
  by_cases hi : i < size m
  · obtain ⟨k, kl, m', -, -, e, -, hwf⟩ := erase_index_ok ops hw h hi
    rw [e]
    exact hwf
  · rw [erase_index_fail ops (Nat.le_of_not_lt hi)]
    exact h

theorem WF_prepare [Inhabited π] {w : Nat} {m : IndexMap α π} (h : WF w m) (n : Nat) :
    WF w (prepare_keys_for_insertion w m n).2 := by
  by_cases hn : n ≤ keys_size m
  · rw [prepare_noop w hn]
    exact h
  · by_cases hmax : max_size w < n
    · rw [prepare_fail (Nat.lt_of_not_le hn) hmax]
      exact h
    · obtain ⟨m', e, -, hwf⟩ := prepare_grow h (Nat.lt_of_not_le hn) (Nat.le_of_not_lt hmax)
      rw [e]
      exact hwf

theorem WF_remove_unused_key {w : Nat} (hw : w ≤ 64) {m : IndexMap α π} (h : WF w m) :
    WF w (remove_unused_key m).2 := by
  by_cases hK : keys_size m = 0
  · rw [remove_unused_key_empty (List.length_eq_zero.1 hK)]
    exact h
  · obtain ⟨i, hi⟩ := sd_isSome (show keys_size m - 1 < m.indices.length by
      unfold keys_size at hK ⊢; omega)
    by_cases hlt : i < size m
    · rw [remove_unused_key_live hi hlt]
      exact h
    · obtain ⟨kb, m', -, e, -, hwf⟩ := remove_unused_key_dead hw h hi (Nat.le_of_not_lt hlt)
      rw [e]
      exact hwf

theorem set_persistent_data_fail {m : IndexMap α π} {k : Nat} (d : π)
    (hk : m.indices.length ≤ k) : set_persistent_data m k d = (.error .invalid_key, m) := by
  unfold set_persistent_data contains_relaxed
  have : ¬ k < m.indices.length := by omega
  simp [this]

theorem set_persistent_data_ok {m : IndexMap α π} {k : Nat} (d : π)
    (hk : k < m.indices.length) :
    ∃ m', set_persistent_data m k d = (.ok (), m') ∧ m'.value_storage = m.value_storage ∧
      m'.indices.length = m.indices.length ∧ (∀ x, sd m'.indices x = sd m.indices x) ∧
      (∀ x, ds m'.indices x = ds m.indices x) ∧
      (∀ x, pd m'.indices x = if x = k then some d else pd m.indices x) := by
  refine ⟨⟨m.indices.set k { m.indices[k] with sparse_data := d }, m.value_storage⟩,
    ?_, rfl, by simp, ?_, ?_, ?_⟩
  · unfold set_persistent_data contains_relaxed
    simp only [hk, decide_True, if_true, List.getElem?_eq_getElem hk]
  · intro x
    by_cases hx : x = k
    · subst hx
      simp [sd, List.getElem?_set, hk]
    · simp [sd, List.getElem?_set, Ne.symm hx]
  · intro x
    by_cases hx : x = k
    · subst hx
      simp [ds, List.getElem?_set, hk]
    · simp [ds, List.getElem?_set, Ne.symm hx]
  · intro x
    by_cases hx : x = k
    · subst hx
      simp [pd, List.getElem?_set, hk]
    · simp [pd, List.getElem?_set, Ne.symm hx, hx]

theorem WF_set_persistent_data {w : Nat} {m : IndexMap α π} (h : WF w m) (k : Nat) (d : π) :
    WF w (set_persistent_data m k d).2 := by
  by_cases hk : k < m.indices.length
  · obtain ⟨m', e, v, l, s, t, -⟩ := set_persistent_data_ok d hk
    rw [e]
    refine ⟨?_, ?_, ?_, ?_⟩
    · show m'.value_storage.length ≤ m'.indices.length
      rw [v, l]
      exact h.size_le
    · show m'.indices.length ≤ max_size w
      rw [l]
      exact h.keys_le
    · intro a b hab
      show ds m'.indices b = some a
      rw [t]
      apply h.inv.1
      rw [← s]
      exact hab
    · intro a b hab
      show sd m'.indices b = some a
      rw [s]
      apply h.inv.2
      rw [← t]
      exact hab
  · rw [set_persistent_data_fail d (Nat.le_of_not_lt hk)]
    exact h

/-- Every reachable map satisfies the representation invariant. -/
theorem Reachable.wf [Inhabited π] {w : Nat} {ops : MoveOps α} (hw : w ≤ 64)
    {m : IndexMap α π} (h : Reachable w ops m) : WF w m := by
  induction h with
  | init => exact WF_empty w
  | step_emplace v _ ih => exact WF_emplace hw ih v
  | step_erase k _ ih => exact WF_erase ops hw ih k
  | step_erase_index i _ ih => exact WF_erase_index ops hw ih i
  | step_swap_elems i j _ hi hj ih =>
    obtain ⟨ki, kj, m', -, -, e, -, -, hwf⟩ := swap_elems_ok ih hi hj
    rw [e]
    exact hwf
  | step_move_elem i j _ hi hj ih =>
    obtain ⟨ki, kj, m', -, -, e, -, -, hwf⟩ := move_elem_ok ops ih hi hj
    rw [e]
    exact hwf
  | step_prepare n _ ih => exact WF_prepare ih n
  | step_remove_unused_key _ ih => exact WF_remove_unused_key hw ih
  | step_soft_clear _ ih => exact WF_soft_clear ih
  | step_clear _ _ => exact WF_clear w _
  | step_set_persistent_data k d _ ih => exact WF_set_persistent_data ih k d

theorem erase_index_eq_erase (ops : MoveOps α) {w : Nat} {m : IndexMap α π} (hw : w ≤ 64)
    (h : WF w m) {k i : Nat} (hk : sd m.indices k = some i) (hi : i < size m) :
    erase_index ops m i = erase ops m k := by
  obtain ⟨kl, m1, hkl, ea, em, -, -⟩ := erase_core_spec ops hw h hk hi
  have eb : KeyAndIndex.of_key m k = .ok ⟨k, i⟩ := by
    unfold KeyAndIndex.of_key
    rw [key_to_index_unsafe_eq, hk]
  have ec : KeyAndIndex.of_index m i = .ok ⟨k, i⟩ := by
    unfold KeyAndIndex.of_index
    rw [index_to_key_unsafe_eq, h.inv.1 _ _ hk]
  unfold erase erase_index valid_index
  rw [contains_of_sd hk hi, ea, eb, ec]
  simp only [hi, decide_True, Bool.not_true, Bool.false_eq_true, if_false]

theorem sd_injective {ix : List (IndexEntry π)} (h : Inverse ix) {k k' i : Nat}
    (hk : sd ix k = some i) (hk' : sd ix k' = some i) : k = k' := by
  have h1 := h.1 _ _ hk
  rw [h.1 _ _ hk'] at h1
  exact (Option.some.inj h1).symm

theorem ds_injective {ix : List (IndexEntry π)} (h : Inverse ix) {i i' k : Nat}
    (hi : ds ix i = some k) (hi' : ds ix i' = some k) : i = i' := by
  have h1 := h.2 _ _ hi
  rw [h.2 _ _ hi'] at h1
  exact (Option.some.inj h1).symm

/-- A key other than the erased one keeps its value; its dense index changes only if it was the
last one. -/
theorem Erased.other {w : Nat} {m m' : IndexMap α π} {k i kl : Nat} (he : Erased m k i kl m')
    (h : WF w m) (hk : sd m.indices k = some i) (hi : i < size m)
    (hkl : ds m.indices (size m - 1) = some kl) {x j : Nat} (hxk : x ≠ k)
    (hx : sd m.indices x = some j) (hj : j < size m) :
    ∃ j', sd m'.indices x = some j' ∧ j' < size m' ∧
      m'.value_storage[j']? = m.value_storage[j]? ∧ (j ≠ size m - 1 → j' = j) := by
  have hsz := he.size_eq
  have hij : i ≠ j := fun hc => hxk (sd_injective h.inv hx (hc ▸ hk))
  by_cases hxl : x = kl
  · have hjl : j = size m - 1 := by
      have := h.inv.2 _ _ hkl
      rw [← hxl, hx] at this
      exact Option.some.inj this
    refine ⟨i, ?_, by omega, ?_, fun hne => absurd hjl hne⟩
    · rw [he.sd_eq, if_neg hxk, if_pos hxl]
    · rw [he.vals_eq, if_pos (by omega), if_pos rfl, hjl]
  · have hjl : j ≠ size m - 1 := by
      intro hc
      have := h.inv.1 _ _ hx
      rw [hc, hkl] at this
      exact hxl (Option.some.inj this).symm
    refine ⟨j, ?_, by omega, ?_, fun _ => rfl⟩
    · rw [he.sd_eq, if_neg hxk, if_neg hxl]
      exact hx
    · rw [he.vals_eq, if_pos (by omega), if_neg (Ne.symm hij)]

/-- Success of `emplace`/`insert` below capacity, with everything the call changes. -/
theorem emplace_ok [Inhabited π] {w : Nat} {m : IndexMap α π} (hw : w ≤ 64) (h : WF w m)
    (v : α) (hlt : size m < max_size w) :
    ∃ r m', emplace w m v = (.ok r, m') ∧ WF w m' ∧
      m'.value_storage = m.value_storage ++ [v] ∧ r.value = size m ∧
      sd m'.indices r.key = some (size m) ∧ ds m'.indices (size m) = some r.key ∧
      (∀ x, x < keys_size m → sd m'.indices x = sd m.indices x ∧
        ds m'.indices x = ds m.indices x ∧ pd m'.indices x = pd m.indices x) ∧
      (size m < keys_size m → m'.indices = m.indices ∧ r.persistent_data = size m) ∧
      (size m = keys_size m → r.key = keys_size m ∧ keys_size m' = keys_size m + 1 ∧
        r.persistent_data = keys_size m ∧ pd m'.indices (keys_size m) = some default) := by
  by_cases hr : size m < keys_size m
  · obtain ⟨k, hk, e, hwf⟩ := emplace_reuse hw h v hr
    refine ⟨_, _, e, hwf, rfl, rfl, h.inv.2 _ _ hk, hk, fun x _ => ⟨rfl, rfl, rfl⟩,
      fun _ => ⟨rfl, rfl⟩, fun hc => by omega⟩
  · have heq : size m = keys_size m := Nat.le_antisymm h.size_le (Nat.le_of_not_lt hr)
    obtain ⟨e, hwf⟩ := emplace_fresh hw h v heq hlt
    refine ⟨_, _, e, hwf, rfl, rfl, ?_, ?_, ?_, fun hc => absurd hc hr, fun _ => ⟨rfl, ?_, rfl, ?_⟩⟩
    · show sd (m.indices ++ [_]) (keys_size m) = some (size m)
      rw [sd_append, heq]
      exact if_pos rfl
    · show ds (m.indices ++ [_]) (size m) = some (keys_size m)
      rw [ds_append]
      exact if_pos heq
    · intro x hx
      unfold keys_size at hx
      refine ⟨?_, ?_, ?_⟩
      · show sd (m.indices ++ [_]) x = _
        rw [sd_append, if_neg (by omega)]
      · show ds (m.indices ++ [_]) x = _
        rw [ds_append, if_neg (by omega)]
      · show pd (m.indices ++ [_]) x = _
        rw [pd_append, if_neg (by omega)]
    · show (m.indices ++ [_]).length = m.indices.length + 1
      simp
    · show pd (m.indices ++ [_]) (keys_size m) = some default
      rw [pd_append]
      exact if_pos rfl

/-! ## Reachable example maps and lemmas for the claims -/

theorem basic4_reachable : Reachable 32 (MoveOps.trivial Nat) basic4 :=
  .step_emplace 40 (.step_emplace 30 (.step_emplace 20 (.step_emplace 10 .init)))

theorem basic4_erased_reachable : Reachable 32 (MoveOps.trivial Nat) basic4_erased :=
  .step_erase 1 basic4_reachable

theorem prepared2_reachable : Reachable 32 (MoveOps.trivial Nat) prepared2 :=
  .step_prepare 2 .init

theorem key_to_index_ok_iff (m : IndexMap α π) (k i : Nat) :
    key_to_index m k = .ok i ↔ sd m.indices k = some i ∧ i < size m := by
  constructor
  · intro h
    unfold key_to_index at h
    cases hc : contains m k
    · simp [hc] at h
    · obtain ⟨j, hj, hlt⟩ := (contains_iff m k).1 hc
      rw [hc, key_to_index_unsafe_eq, hj] at h
      simp only [if_true] at h
      cases h
      exact ⟨hj, hlt⟩
  · rintro ⟨h1, h2⟩
    exact key_to_index_of_sd h1 h2

/-- A key other than the erased one stays live with its value. -/
theorem erase_keeps_other (ops : MoveOps α) {w : Nat} {m : IndexMap α π} (hw : w ≤ 64)
    (h : WF w m) {k k' : Nat} {v : α} (hne : k' ≠ k) (hk' : contains m k' = true)
    (hv : at_key m k = .ok v) :
    (erase ops m k').1 = .ok () ∧ contains (erase ops m k').2 k = true ∧
      at_key (erase ops m k').2 k = .ok v := by
  obtain ⟨i', hi', hlt'⟩ := (contains_iff m k').1 hk'
  obtain ⟨i, hi, hvi⟩ := (at_key_ok_iff m k v).1 hv
  have hlt : i < size m := (List.getElem?_eq_some_iff.1 hvi).1
  obtain ⟨kl, m', hkl, e, her, -⟩ := erase_ok ops hw h hi' hlt'
  obtain ⟨j, hj, hjlt, hjv, -⟩ := her.other h hi' hlt' hkl (Ne.symm hne) hi hlt
  rw [e]
  exact ⟨rfl, contains_of_sd hj hjlt, at_key_of_sd hj (hjv.trans hvi)⟩

theorem value_isSome {m : IndexMap α π} {i : Nat} (h : i < size m) :
    ∃ v, m.value_storage[i]? = some v :=
  ⟨_, List.getElem?_eq_getElem h⟩

theorem filled_reachable (w n : Nat) : Reachable w (MoveOps.trivial Nat) (filled w n) := by
  induction n with
  | zero => exact .init
  | succ n ih => exact .step_emplace 0 ih

theorem filled_sizes {w : Nat} (hw : w ≤ 64) : ∀ n, n ≤ max_size w →
    size (filled w n) = n ∧ keys_size (filled w n) = n := by
  intro n
  induction n with
  | zero => exact fun _ => ⟨rfl, rfl⟩
  | succ n ih =>
    intro hn
    obtain ⟨hs, hk⟩ := ih (by omega)
    have hwf := (filled_reachable w n).wf hw
    obtain ⟨e, -⟩ := emplace_fresh hw hwf 0 (hs.trans hk.symm) (by omega)
    have e' : filled w (n + 1) = (emplace w (filled w n) 0).2 := rfl
    rw [e', e]
    constructor
    · show (_ ++ [_]).length = n + 1
      rw [List.length_append]
      exact congrArg (· + 1) hs
    · show (_ ++ [_]).length = n + 1
      rw [List.length_append]
      exact congrArg (· + 1) hk

/-- After `erase(k)` the erased key sits at the first dead position of both tables. -/
theorem Erased.erased_key {w : Nat} {m m' : IndexMap α π} {k i kl : Nat}
    (he : Erased m k i kl m') (h : WF w m) (hk : sd m.indices k = some i)
    (hkl : ds m.indices (size m - 1) = some kl) :
    sd m'.indices k = some (size m') ∧ ds m'.indices (size m') = some k := by
  have hsz : size m' = size m - 1 := by
    have := he.size_eq
    omega
  constructor
  · rw [he.sd_eq, if_pos rfl, hsz]
  · rw [he.ds_eq, hsz]
    by_cases hc : size m - 1 = i
    · rw [if_pos hc]
      have := h.inv.1 _ _ hk
      rw [← hc, hkl] at this
      exact this
    · rw [if_neg hc, if_pos rfl]

theorem contains_emplace_back {m : IndexMap α π} {k : Nat} (v : α)
    (h : contains m k = true) : contains (emplace_back m v) k = true := by
  obtain ⟨i, hi, hlt⟩ := (contains_iff m k).1 h
  have hi' : sd (emplace_back m v).indices k = some i := hi
  apply contains_of_sd hi'
  show i < (m.value_storage ++ [v]).length
  rw [List.length_append]
  unfold size at hlt
  omega

/-- Forced insertion at the dead key that sits at the first dead position: the appended value
makes the key look live, so the call throws and leaves the value appended. -/
theorem insert_at_first_dead {m : IndexMap α π} {k : Nat} (v : α)
    (hs : sd m.indices k = some (size m)) :
    insert_at m k v = (.error .key_in_use, emplace_back m v) := by
  have hs' : sd (emplace_back m v).indices k = some (size m) := hs
  have h1 : contains (emplace_back m v) k = true :=
    contains_of_sd hs' (by
      show m.value_storage.length < (m.value_storage ++ [v]).length
      rw [List.length_append]
      exact Nat.lt_succ_self _)
  have h2 : contains_relaxed (emplace_back m v) k = true := by
    unfold contains_relaxed
    show decide (k < m.indices.length) = true
    simp [sd_some_lt hs]
  unfold insert_at force_key_for_inserted_value
  rw [h1, h2]
  rfl

/-- Forced insertion at any other dead key `k`: the call returns `k`, but it has moved `k` to
position `size() + 1` of the old map, which is the first dead position of the new one, so `k` is
still dead and the appended value belongs to the key that sat at position `size()`. -/
theorem insert_at_later_dead {w : Nat} {m : IndexMap α π} (hw : w ≤ 64) (h : WF w m)
    {k p : Nat} (v : α) (hs : sd m.indices k = some p) (hp : size m < p) :
    ∃ m', insert_at m k v = (.ok ⟨k, size m, k⟩, m') ∧
      size m' = size m + 1 ∧ keys_size m' = keys_size m ∧
      sd m'.indices k = some (size m + 1) ∧ contains m' k = false := by
  have hlen : (emplace_back m v).value_storage.length = size m + 1 := by
    show (m.value_storage ++ [v]).length = _
    rw [List.length_append]
    rfl
  have hpK : p < m.indices.length := ds_some_lt (h.inv.1 _ _ hs)
  obtain ⟨q, hq⟩ := ds_isSome (show size m + 1 < m.indices.length by omega)
  have hs' : sd (emplace_back m v).indices k = some p := hs
  have h1 : contains (emplace_back m v) k = false :=
    not_contains_of_sd hs' (by show (emplace_back m v).value_storage.length ≤ p; omega)
  have h2 : contains_relaxed (emplace_back m v) k = true := by
    unfold contains_relaxed
    show decide (k < m.indices.length) = true
    simp [sd_some_lt hs]
  obtain ⟨m1, e1, v1, l1, s1, -, -, -⟩ :=
    swap_indices_only_relaxed_spec (emplace_back m v) ⟨q, size m + 1⟩ ⟨k, p⟩ h.inv
      (h.inv.2 _ _ hq) hs
  have ea : KeyAndIndex.of_index (emplace_back m v) (emplace_back m v).value_storage.length =
      .ok ⟨q, size m + 1⟩ := by
    have hq' : ds (emplace_back m v).indices (size m + 1) = some q := hq
    rw [hlen]
    unfold KeyAndIndex.of_index
    rw [index_to_key_unsafe_eq, hq']
  have eb : KeyAndIndex.of_key (emplace_back m v) k = .ok ⟨k, p⟩ := by
    unfold KeyAndIndex.of_key
    rw [key_to_index_unsafe_eq, hs']
  have hsz1 : size m1 = size m + 1 := by
    unfold size
    rw [v1]
    exact hlen
  have hk1 : sd m1.indices k = some (size m + 1) := by
    rw [s1]
    exact if_pos rfl
  refine ⟨m1, ?_, hsz1, l1, hk1, not_contains_of_sd hk1 (by omega)⟩
  have hpred : size_pred (size (emplace_back m v)) = size m := by
    have hsz : size (emplace_back m v) = size m + 1 := hlen
    have := h.keys_lt hw
    unfold keys_size at this
    rw [hsz, size_pred_eq (by omega) (by omega)]
    rfl
  unfold insert_at force_key_for_inserted_value
  rw [h1, h2, ea, eb]
  simp only [Bool.not_true, Bool.false_eq_true, if_false, e1, hpred]

/-- A failing forced insertion leaves the value it appended in the map. -/
theorem insert_at_fail_state (m : IndexMap α π) (k : Nat) (v : α)
    (h : keys_size m ≤ k ∨ contains m k = true) :
    (insert_at m k v).2 = emplace_back m v := by
  rcases h with h | h
  · have : contains_relaxed (emplace_back m v) k = false := by
      unfold keys_size at h
      show decide (k < m.indices.length) = false
      simp
      exact h
    unfold insert_at force_key_for_inserted_value
    rw [this]
    rfl
  · have h1 : contains (emplace_back m v) k = true := contains_emplace_back v h
    have h2 : contains_relaxed (emplace_back m v) k = true := by
      obtain ⟨i, hi, -⟩ := (contains_iff m k).1 h
      show decide (k < m.indices.length) = true
      simp [sd_some_lt hi]
    unfold insert_at force_key_for_inserted_value
    rw [h1, h2]
    rfl

/-- The two ways a call of `remove_unused_key()` on a well-formed map can go. -/
theorem remove_unused_key_cases {w : Nat} {m : IndexMap α π} (hw : w ≤ 64) (h : WF w m) :
    (remove_unused_key m = (.ok false, m) ∧
      (keys_size m = 0 ∨ contains m (keys_size m - 1) = true)) ∨
    (∃ i kb m', 0 < keys_size m ∧ contains m (keys_size m - 1) = false ∧
      sd m.indices (keys_size m - 1) = some i ∧ size m ≤ i ∧
      ds m.indices (keys_size m - 1) = some kb ∧
      remove_unused_key m = (.ok true, m') ∧ Reclaimed m i kb m' ∧ WF w m') := by
  by_cases hK : keys_size m = 0
  · exact Or.inl ⟨remove_unused_key_empty (List.length_eq_zero.1 hK), Or.inl hK⟩
  · obtain ⟨i, hi⟩ := sd_isSome (show keys_size m - 1 < m.indices.length by
      unfold keys_size at hK ⊢; omega)
    by_cases hlt : i < size m
    · exact Or.inl ⟨remove_unused_key_live hi hlt, Or.inr (contains_of_sd hi hlt)⟩
    · obtain ⟨kb, m', hkb, e, hr, hwf⟩ :=
        remove_unused_key_dead hw h hi (Nat.le_of_not_lt hlt)
      exact Or.inr ⟨i, kb, m', Nat.pos_of_ne_zero hK,
        not_contains_of_sd hi (Nat.le_of_not_lt hlt), hi, Nat.le_of_not_lt hlt, hkb, e, hr, hwf⟩

theorem get_persistent_data_eq (m : IndexMap α π) (k : Nat) :
    get_persistent_data m k = (match pd m.indices k with
      | some d => .ok d
      | none => .error .invalid_key) := by
  unfold get_persistent_data contains_relaxed pd
  by_cases hk : k < m.indices.length
  · simp [hk, List.getElem?_eq_getElem hk]
  · simp [hk, List.getElem?_eq_none (Nat.le_of_not_lt hk)]

theorem pd_isSome {ix : List (IndexEntry π)} {k : Nat} (h : k < ix.length) :
    ∃ d, pd ix k = some d := by
  simp [pd, List.getElem?_eq_getElem h]

theorem get_persistent_data_congr {m m' : IndexMap α π} {k : Nat}
    (h : pd m'.indices k = pd m.indices k) :
    get_persistent_data m' k = get_persistent_data m k := by
  rw [get_persistent_data_eq, get_persistent_data_eq, h]

theorem key_to_index_relaxed_eq (m : IndexMap α π) (k : Nat) :
    key_to_index_relaxed m k = (match sd m.indices k with
      | some i => .ok i
      | none => .error .invalid_key) := by
  unfold key_to_index_relaxed contains_relaxed
  rw [key_to_index_unsafe_eq]
  by_cases hk : k < m.indices.length
  · obtain ⟨i, hi⟩ := sd_isSome hk
    simp [hk, hi]
  · simp [hk, sd, List.getElem?_eq_none (Nat.le_of_not_lt hk)]

theorem index_to_key_relaxed_eq (m : IndexMap α π) (i : Nat) :
    index_to_key_relaxed m i = (match ds m.indices i with
      | some k => .ok k
      | none => .error .invalid_index) := by
  unfold index_to_key_relaxed valid_index_relaxed
  rw [index_to_key_unsafe_eq]
  by_cases hi : i < m.indices.length
  · obtain ⟨k, hk⟩ := ds_isSome hi
    simp [hi, hk]
  · simp [hi, ds, List.getElem?_eq_none (Nat.le_of_not_lt hi)]

theorem contains_congr {m m' : IndexMap α π} {k : Nat}
    (hs : sd m'.indices k = sd m.indices k) (hz : size m' = size m) :
    contains m' k = contains m k := by
  cases hc : contains m k
  · cases hc' : contains m' k
    · rfl
    · obtain ⟨i, hi, hlt⟩ := (contains_iff m' k).1 hc'
      rw [hs] at hi
      rw [hz] at hlt
      rw [contains_of_sd hi hlt] at hc
      cases hc
  · obtain ⟨i, hi, hlt⟩ := (contains_iff m k).1 hc
    rw [← hs] at hi
    rw [← hz] at hlt
    exact contains_of_sd hi hlt

theorem basic4_two_dead_reachable : Reachable 32 (MoveOps.trivial Nat) basic4_two_dead :=
  .step_erase 2 (.step_erase 3 basic4_reachable)

theorem pdata4_reachable : Reachable 32 (MoveOps.trivial Nat) pdata4 :=
  .step_set_persistent_data 3 400 (.step_emplace 40
    (.step_set_persistent_data 2 300 (.step_emplace 30
      (.step_set_persistent_data 1 200 (.step_emplace 20
        (.step_set_persistent_data 0 100 (.step_emplace 10 .init)))))))

theorem pdata4_churned_reachable : Reachable 32 (MoveOps.trivial Nat) pdata4_churned :=
  .step_erase 2 (.step_emplace 21 (.step_erase 1 pdata4_reachable))

theorem pdata4_tail_dead_reachable : Reachable 32 (MoveOps.trivial Nat) pdata4_tail_dead :=
  .step_erase 3 pdata4_churned_reachable

/-- After a successful `remove_unused_key()` every key below the removed one that was live keeps
its dense index, and every such key keeps its liveness. -/
theorem Reclaimed.frame {w : Nat} {m m' : IndexMap α π} {i kb : Nat} (hr : Reclaimed m i kb m')
    (h : WF w m) (hs : sd m.indices (keys_size m - 1) = some i) (hi : size m ≤ i)
    (hkb : ds m.indices (keys_size m - 1) = some kb) {k : Nat} (hk : k < keys_size m - 1) :
    contains m' k = contains m k ∧
      (∀ j, sd m.indices k = some j → j < size m → sd m'.indices k = some j) := by
  have hiK : i < m.indices.length := ds_some_lt (h.inv.1 _ _ hs)
  have hskb : sd m.indices kb = some (keys_size m - 1) := h.inv.2 _ _ hkb
  have hsz : size m' = size m := by
    unfold size
    rw [hr.vals_eq]
  have hs' := hr.sd_eq k
  rw [if_pos hk] at hs'
  unfold keys_size at hk hskb
  by_cases hkk : k = kb
  · rw [if_pos hkk] at hs'
    constructor
    · rw [not_contains_of_sd hs' (by omega), hkk, not_contains_of_sd hskb (by omega)]
    · intro j hj hjlt
      rw [hkk, hskb] at hj
      have := Option.some.inj hj
      omega
  · rw [if_neg hkk] at hs'
    exact ⟨contains_congr hs' hsz, fun j hj _ => hs'.trans hj⟩

/-- With more fuel than `keys_size() - size()` the reclamation loop ends, after at most
`keys_size() - size()` successful calls, in a map on which `remove_unused_key()` returns false. -/
theorem remove_unused_key_loop_terminates {w : Nat} (hw : w ≤ 64) :
    ∀ (d : Nat) (m : IndexMap α π), WF w m → keys_size m - size m ≤ d →
    ∀ fuel, d < fuel →
    ∃ c m', remove_unused_key_loop fuel m = some (c, m') ∧ c ≤ keys_size m - size m ∧
      keys_size m' + c = keys_size m ∧ m'.value_storage = m.value_storage ∧
      remove_unused_key m' = (.ok false, m') ∧ WF w m' := by
  intro d
  induction d with
  | zero =>
    intro m h hd fuel hf
    obtain ⟨f, rfl⟩ : ∃ f, fuel = f + 1 := ⟨fuel - 1, by omega⟩
    rcases remove_unused_key_cases hw h with ⟨e, -⟩ | ⟨i, kb, m1, -, -, -, -, -, -, hr, hwf1⟩
    · refine ⟨0, m, ?_, Nat.zero_le _, rfl, rfl, e, h⟩
      simp only [remove_unused_key_loop, e]
    · have h1 := hr.keys_eq
      have h2 := hwf1.size_le
      have h3 : size m1 = size m := by
        unfold size
        rw [hr.vals_eq]
      omega
  | succ d ih =>
    intro m h hd fuel hf
    obtain ⟨f, rfl⟩ : ∃ f, fuel = f + 1 := ⟨fuel - 1, by omega⟩
    rcases remove_unused_key_cases hw h with ⟨e, -⟩ | ⟨i, kb, m1, -, -, -, -, -, e, hr, hwf1⟩
    · refine ⟨0, m, ?_, Nat.zero_le _, rfl, rfl, e, h⟩
      simp only [remove_unused_key_loop, e]
    · have h1 := hr.keys_eq
      have h2 := hwf1.size_le
      have h3 : size m1 = size m := by
        unfold size
        rw [hr.vals_eq]
      obtain ⟨c, m', el, hc, hk, hv, hfalse, hwf'⟩ := ih m1 hwf1 (by omega) f (by omega)
      refine ⟨c + 1, m', ?_, by omega, by omega, hv.trans hr.vals_eq, hfalse, hwf'⟩
      simp only [remove_unused_key_loop, e, el, Option.map_some']

/-- Two index tables with the same three columns at a position have the same entry there. -/
theorem entry_eq_of_columns {ix ix' : List (IndexEntry π)} {k : Nat}
    (hs : sd ix' k = sd ix k) (hd : ds ix' k = ds ix k) (hp : pd ix' k = pd ix k) :
    ix'[k]? = ix[k]? := by
  unfold sd at hs
  unfold ds at hd
  unfold pd at hp
  cases h : ix[k]? with
  | none =>
    cases h' : ix'[k]? with
    | none => rfl
    | some e' => simp [h, h'] at hs
  | some e =>
    cases h' : ix'[k]? with
    | none => simp [h, h'] at hs
    | some e' =>
      simp only [h, h', Option.map_some', Option.some.injEq] at hs hd hp
      cases e
      cases e'
      simp only at hs hd hp
      rw [hs, hd, hp]

theorem erase_pd (ops : MoveOps α) {w : Nat} {m : IndexMap α π} (hw : w ≤ 64) (h : WF w m)
    (k x : Nat) : pd (erase ops m k).2.indices x = pd m.indices x := by
  cases hc : contains m k
  · rw [erase_fail ops hc]
  · obtain ⟨i, hi, hlt⟩ := (contains_iff m k).1 hc
    obtain ⟨kl, m', -, e, her, -⟩ := erase_ok ops hw h hi hlt
    rw [e]
    exact her.pd_eq x

theorem erase_index_pd (ops : MoveOps α) {w : Nat} {m : IndexMap α π} (hw : w ≤ 64)
    (h : WF w m) (i x : Nat) : pd (erase_index ops m i).2.indices x = pd m.indices x := by
  by_cases hi : i < size m
  · obtain ⟨k, kl, m', -, -, e, her, -⟩ := erase_index_ok ops hw h hi
    rw [e]
    exact her.pd_eq x
  · rw [erase_index_fail ops (Nat.le_of_not_lt hi)]

theorem emplace_pd [Inhabited π] {w : Nat} {m : IndexMap α π} (hw : w ≤ 64) (h : WF w m)
    (v : α) {x : Nat} (hx : x < keys_size m) :
    pd (emplace w m v).2.indices x = pd m.indices x := by
  by_cases hmax : max_size w ≤ size m
  · rw [emplace_fail v hmax]
  · obtain ⟨r, m', e, -, -, -, -, -, hfr, -, -⟩ := emplace_ok hw h v (Nat.lt_of_not_le hmax)
    rw [e]
    exact (hfr x hx).2.2

theorem advanced4_reachable : Reachable 32 (MoveOps.trivial Nat) advanced4 :=
  .step_emplace 31 (.step_erase 2 (.step_emplace 21 (.step_erase 1 basic4_reachable)))

theorem at_index_congr {m m' : IndexMap α π} {t : Nat} (hz : size m' = size m)
    (hv : m'.value_storage[t]? = m.value_storage[t]?) : at_index m' t = at_index m t := by
  unfold at_index valid_index
  rw [hz, hv]

theorem index_to_key_congr {m m' : IndexMap α π} {t : Nat} (hz : size m' = size m)
    (hd : ds m'.indices t = ds m.indices t) : index_to_key m' t = index_to_key m t := by
  unfold index_to_key valid_index
  rw [hz, index_to_key_unsafe_eq, index_to_key_unsafe_eq, hd]

theorem keys_and_values_begin_add {i : Nat} (hi : i < 2 ^ 64) :
    keys_and_values_begin.add (i : Int) = ⟨⟨i⟩⟩ := by
  unfold KeyValueIter.add keys_and_values_begin
  have : (((0 : Nat) : Int) + (i : Int)) % 2 ^ 64 = (i : Int) := by omega
  simp only [this, Int.toNat_ofNat]

theorem keys_and_values_at_eq {i : Nat} (hi : i < 2 ^ 64) : keys_and_values_at i = ⟨i⟩ := by
  unfold keys_and_values_at KeyValueIter.add keys_and_values_begin to_ptrdiff
  have h1 : i % 2 ^ 64 = i := Nat.mod_eq_of_lt hi
  rw [h1]
  by_cases h2 : i < 2 ^ 63
  · rw [if_pos h2]
    have : (((0 : Nat) : Int) + (i : Int)) % 2 ^ 64 = (i : Int) := by omega
    simp only [this, Int.toNat_ofNat]
  · rw [if_neg h2]
    have : (((0 : Nat) : Int) + ((i : Int) - 2 ^ 64)) % 2 ^ 64 = (i : Int) := by omega
    simp only [this, Int.toNat_ofNat]

/-- After `swap_elems` or `move_elem` every key reaches the dense position that its element was
moved to. -/
theorem Swapped.key_position {w : Nat} {m m' : IndexMap α π} {i j ki kj : Nat}
    (hs : Swapped m i j ki kj m') (h : WF w m) (hki : ds m.indices i = some ki)
    (hkj : ds m.indices j = some kj) {k t : Nat} (hk : sd m.indices k = some t) :
    sd m'.indices k = some (if t = j then i else if t = i then j else t) := by
  rw [hs.sd_eq]
  by_cases h1 : k = kj
  · have : t = j := by
      have := h.inv.2 _ _ hkj
      rw [← h1, hk] at this
      exact Option.some.inj this
    rw [if_pos h1, if_pos this]
  · have hne : t ≠ j := by
      intro hc
      have := h.inv.1 _ _ hk
      rw [hc, hkj] at this
      exact h1 (Option.some.inj this).symm
    rw [if_neg h1, if_neg hne]
    by_cases h2 : k = ki
    · have : t = i := by
        have := h.inv.2 _ _ hki
        rw [← h2, hk] at this
        exact Option.some.inj this
      rw [if_pos h2, if_pos this]
    · have hne2 : t ≠ i := by
        intro hc
        have := h.inv.1 _ _ hk
        rw [hc, hki] at this
        exact h2 (Option.some.inj this).symm
      rw [if_neg h2, if_neg hne2]
      exact hk

theorem move_value_src (ops : MoveOps α) (m : IndexMap α π) {src dst : Nat}
    (hs : src < size m) (hd : dst < size m) (hne : src ≠ dst) :
    ∃ m1, move_value ops m src dst = .ok m1 ∧
      m1.value_storage[src]? = (m.value_storage[src]?).map ops.moved_from := by
  have hs' : src < m.value_storage.length := hs
  have hd' : dst < m.value_storage.length := hd
  unfold move_value at_index valid_index
  simp only [hs, hd, decide_True, if_true, List.getElem?_eq_getElem hs',
    List.getElem?_eq_getElem hd']
  rw [if_neg hne]
  refine ⟨_, rfl, ?_⟩
  simp [List.getElem?_set, hs']

/-- After `move_elem(i, j)` with `i != j` the source position holds the moved-from value. -/
theorem move_elem_src (ops : MoveOps α) {w : Nat} {m : IndexMap α π} (h : WF w m) {i j : Nat}
    (hi : i < size m) (hj : j < size m) (hne : i ≠ j) :
    (move_elem ops m i j).2.value_storage[i]? = (m.value_storage[i]?).map ops.moved_from := by
  obtain ⟨ki, hki⟩ := ds_isSome (Nat.lt_of_lt_of_le hi h.size_le)
  obtain ⟨kj, hkj⟩ := ds_isSome (Nat.lt_of_lt_of_le hj h.size_le)
  obtain ⟨m1, e1, v1, -, -, -, -, -⟩ :=
    swap_indices_only_relaxed_spec m ⟨ki, i⟩ ⟨kj, j⟩ h.inv (h.inv.2 _ _ hki) (h.inv.2 _ _ hkj)
  have hsz1 : size m1 = size m := by unfold size; rw [v1]
  obtain ⟨m2, e2, hv2⟩ := move_value_src ops m1 (show i < size m1 by rw [hsz1]; exact hi)
    (show j < size m1 by rw [hsz1]; exact hj) hne
  have ea : KeyAndIndex.of_index m i = .ok ⟨ki, i⟩ := by
    unfold KeyAndIndex.of_index
    rw [index_to_key_unsafe_eq, hki]
  have eb : KeyAndIndex.of_index m j = .ok ⟨kj, j⟩ := by
    unfold KeyAndIndex.of_index
    rw [index_to_key_unsafe_eq, hkj]
  have e : move_elem ops m i j = (.ok (), m2) := by
    unfold move_elem
    rw [ea, eb]
    unfold move_elem_low swap_indices_only valid_index
    simp only [hi, hj, decide_True, Bool.and_self, if_true, e1, e2]
  rw [e]
  show m2.value_storage[i]? = _
  rw [hv2, v1]

theorem take_eq_of_getElem? {l l' : List α} {n : Nat}
    (h : ∀ j, j < n → l'[j]? = l[j]?) : l'.take n = l.take n := by
  apply List.ext_getElem?
  intro j
  rw [List.getElem?_take, List.getElem?_take]
  by_cases hj : j < n
  · rw [if_pos hj, if_pos hj, h j hj]
  · rw [if_neg hj, if_neg hj]

theorem countP_take_succ (p : α → Bool) {l : List α} {n : Nat} {x : α}
    (hx : l[n]? = some x) :
    (l.take (n + 1)).countP p = (l.take n).countP p + (if p x then 1 else 0) := by
  rw [List.take_succ, hx, List.countP_append]
  simp [List.countP_cons]

/-- The loop of `erase_if` over the values: started at counter `n` on a well-formed map whose
positions from `n` on hold no element satisfying `func`, it returns, having added to `ret` the
number of elements below `n` that satisfy `func`, and leaves exactly the others. -/
theorem erase_if_values_loop_spec (ops : MoveOps α) (p : α → Bool) {w : Nat} (hw : w ≤ 64) :
    ∀ (n : Nat) (m : IndexMap α π) (ret : Nat), WF w m → n ≤ size m →
    (∀ i v, n ≤ i → m.value_storage[i]? = some v → p v = false) →
    ∃ m', erase_if_values_loop ops p n m ret =
        (.ok (ret + (m.value_storage.take n).countP p), m') ∧ WF w m' ∧
      size m' + (m.value_storage.take n).countP p = size m ∧
      keys_size m' = keys_size m ∧
      (∀ (i : Nat) v, m'.value_storage[i]? = some v → p v = false) ∧
      (∀ k v, at_key m k = .ok v → p v = false → at_key m' k = .ok v) ∧
      (∀ k v, at_key m k = .ok v → p v = true → contains m' k = false) ∧
      (∀ k, contains m k = false → contains m' k = false) ∧
      (∀ x, pd m'.indices x = pd m.indices x) := by
  intro n
  induction n with
  | zero =>
    intro m ret h _ hclean
    refine ⟨m, ?_, h, ?_, rfl, fun i v hv => hclean i v (Nat.zero_le _) hv,
      fun k v hk _ => hk, ?_, fun k hk => hk, fun x => rfl⟩
    · simp [erase_if_values_loop]
    · simp
    · intro k v hk hp
      obtain ⟨i, -, hv⟩ := (at_key_ok_iff m k v).1 hk
      rw [hclean i v (Nat.zero_le _) hv] at hp
      cases hp
  | succ n ih =>
    intro m ret h hn hclean
    have hlt : n < size m := hn
    obtain ⟨x, hx⟩ := value_isSome hlt
    have hat : at_index m n = .ok x := at_index_of_get hx
    have hcount := countP_take_succ p hx
    cases hpx : p x
    · -- the element at `n` stays
      have hstep : erase_if_values_loop ops p (n + 1) m ret =
          erase_if_values_loop ops p n m ret := by
        simp [erase_if_values_loop, hat, hpx]
      obtain ⟨m', e, hwf', hsz, hks, hcl, hkeep, hgone, hdead, hpd⟩ :=
        ih m ret h (Nat.le_of_lt hlt) (by
          intro i v hi hv
          by_cases hin : i = n
          · subst hin
            rw [hx] at hv
            cases hv
            exact hpx
          · exact hclean i v (by omega) hv)
      rw [hpx] at hcount
      simp only [Bool.false_eq_true, if_false, Nat.add_zero] at hcount
      refine ⟨m', ?_, hwf', ?_, hks, hcl, hkeep, hgone, hdead, hpd⟩
      · rw [hstep, e, hcount]
      · rw [hcount]
        exact hsz
    · -- the element at `n` is erased
      obtain ⟨k, kl, m1, hk, hkl, e1, her, hwf1⟩ := erase_index_ok ops hw h hlt
      have hsk : sd m.indices k = some n := h.inv.2 _ _ hk
      have hsz1 := her.size_eq
      have hstep : erase_if_values_loop ops p (n + 1) m ret =
          erase_if_values_loop ops p n m1 (ret + 1) := by
        simp [erase_if_values_loop, hat, hpx, e1]
      have htake : m1.value_storage.take n = m.value_storage.take n := by
        apply take_eq_of_getElem?
        intro j hj
        rw [her.vals_eq, if_pos (by omega), if_neg (by omega)]
      obtain ⟨m', e, hwf', hsz, hks, hcl, hkeep, hgone, hdead, hpd⟩ :=
        ih m1 (ret + 1) hwf1 (by omega) (by
          intro i v hi hv
          rw [her.vals_eq] at hv
          by_cases hi1 : i < size m - 1
          · rw [if_pos hi1] at hv
            by_cases hin : i = n
            · rw [if_pos hin] at hv
              exact hclean (size m - 1) v (by omega) hv
            · rw [if_neg hin] at hv
              exact hclean i v (by omega) hv
          · rw [if_neg hi1] at hv
            cases hv)
      rw [hpx] at hcount
      simp only [if_true] at hcount
      rw [htake] at e hsz
      have hother : ∀ k0 v, k0 ≠ k → at_key m k0 = .ok v → at_key m1 k0 = .ok v := by
        intro k0 v hne hk0
        obtain ⟨j, hj, hvj⟩ := (at_key_ok_iff m k0 v).1 hk0
        have hjlt : j < size m := (List.getElem?_eq_some_iff.1 hvj).1
        obtain ⟨j', hj', -, hv', -⟩ := her.other h hsk hlt hkl hne hj hjlt
        exact at_key_of_sd hj' (hv'.trans hvj)
      have hkx : at_key m k = .ok x := at_key_of_sd hsk hx
      have hkdead : contains m1 k = false :=
        not_contains_of_sd (her.erased_key h hsk hkl).1 (Nat.le_refl _)
      refine ⟨m', ?_, hwf', ?_, hks.trans her.keys_eq, hcl, ?_, ?_, ?_, ?_⟩
      · rw [hstep, e, hcount]
        congr 2
        omega
      · rw [hcount]
        omega
      · intro k0 v hk0 hpv
        have hne : k0 ≠ k := by
          intro hc
          rw [hc, hkx] at hk0
          cases hk0
          rw [hpx] at hpv
          cases hpv
        exact hkeep k0 v (hother k0 v hne hk0) hpv
      · intro k0 v hk0 hpv
        by_cases hc : k0 = k
        · rw [hc]
          exact hdead k hkdead
        · exact hgone k0 v (hother k0 v hc hk0) hpv
      · intro k0 hk0
        apply hdead
        cases hc : contains m1 k0
        · rfl
        · obtain ⟨j, hj, hjlt⟩ := (contains_iff m1 k0).1 hc
          rw [her.sd_eq] at hj
          by_cases h1 : k0 = k
          · rw [if_pos h1] at hj
            have := Option.some.inj hj
            omega
          · rw [if_neg h1] at hj
            by_cases h2 : k0 = kl
            · rw [h2, contains_of_sd (h.inv.2 _ _ hkl) (by omega)] at hk0
              cases hk0
            · rw [if_neg h2] at hj
              rw [contains_of_sd hj (by omega)] at hk0
              cases hk0
      · intro y
        rw [hpd, her.pd_eq]

/-- The loop of `erase_if` over the key-value view, with a predicate that applies `p` to
`.value()`, is the loop of `erase_if` over the values. -/
theorem erase_if_keys_and_values_loop_value (ops : MoveOps α) (p : α → Bool)
    (f : IndexMap α π → KeyValueRef → Except Error Bool)
    (hf : ∀ m r, f m r = (KeyValueRef.value m r).map p) :
    ∀ (n : Nat) (m : IndexMap α π) (ret : Nat), n < 2 ^ 64 →
    erase_if_keys_and_values_loop ops f n m ret = erase_if_values_loop ops p n m ret := by
  intro n
  induction n with
  | zero =>
    intro m ret _
    simp [erase_if_keys_and_values_loop, erase_if_values_loop]
  | succ n ih =>
    intro m ret hn
    have hat : keys_and_values_at n = ⟨n⟩ := keys_and_values_at_eq (by omega)
    cases hv : at_index m n with
    | error e =>
      simp [erase_if_keys_and_values_loop, erase_if_values_loop, hat, hf, KeyValueRef.value, hv,
        Except.map]
    | ok x =>
      cases hpx : p x
      · simp [erase_if_keys_and_values_loop, erase_if_values_loop, hat, hf, KeyValueRef.value,
          hv, Except.map, hpx, ih m ret (by omega)]
      · cases he : erase_index ops m n with
        | mk r m1 =>
          cases r with
          | error e =>
            simp [erase_if_keys_and_values_loop, erase_if_values_loop, hat, hf,
              KeyValueRef.value, hv, Except.map, hpx, he]
          | ok u =>
            simp [erase_if_keys_and_values_loop, erase_if_values_loop, hat, hf,
              KeyValueRef.value, hv, Except.map, hpx, he, ih m1 (ret + 1) (by omega)]

theorem swap_sparse_to_dense_length {ix ix' : List (IndexEntry π)} {p q : Nat}
    (h : swap_sparse_to_dense ix p q = .ok ix') : ix'.length = ix.length := by
  unfold swap_sparse_to_dense at h
  split at h
  · cases h
    simp
  · cases h

theorem swap_dense_to_sparse_length {ix ix' : List (IndexEntry π)} {p q : Nat}
    (h : swap_dense_to_sparse ix p q = .ok ix') : ix'.length = ix.length := by
  unfold swap_dense_to_sparse at h
  split at h
  · cases h
    simp
  · cases h

theorem swap_indices_only_relaxed_keys_size {m m' : IndexMap α π} {a b : KeyAndIndex}
    (h : swap_indices_only_relaxed m a b = .ok m') : keys_size m' = keys_size m := by
  unfold swap_indices_only_relaxed at h
  split at h
  · split at h
    · rename_i ix1 h1
      split at h
      · rename_i ix2 h2
        cases h
        show ix2.length = m.indices.length
        rw [swap_dense_to_sparse_length h2, swap_sparse_to_dense_length h1]
      · cases h
    · cases h
  · cases h

theorem swap_indices_only_keys_size {m m' : IndexMap α π} {a b : KeyAndIndex}
    (h : swap_indices_only m a b = .ok m') : keys_size m' = keys_size m := by
  unfold swap_indices_only at h
  split at h
  · exact swap_indices_only_relaxed_keys_size h
  · cases h

theorem swap_values_keys_size {m m' : IndexMap α π} {i j : Nat}
    (h : swap_values m i j = .ok m') : keys_size m' = keys_size m := by
  unfold swap_values at h
  split at h
  · cases h
    rfl
  · cases h
  · cases h

theorem move_value_keys_size (ops : MoveOps α) {m m' : IndexMap α π} {i j : Nat}
    (h : move_value ops m i j = .ok m') : keys_size m' = keys_size m := by
  unfold move_value at h
  split at h
  · split at h
    · cases h
      rfl
    · cases h
      rfl
  · cases h
  · cases h

theorem swap_elems_low_keys_size {m m' : IndexMap α π} {a b : KeyAndIndex}
    (h : swap_elems_low m a b = .ok m') : keys_size m' = keys_size m := by
  unfold swap_elems_low at h
  split at h
  · rename_i m1 h1
    rw [swap_values_keys_size h, swap_indices_only_keys_size h1]
  · cases h

theorem move_elem_low_keys_size (ops : MoveOps α) {m m' : IndexMap α π} {a b : KeyAndIndex}
    (h : move_elem_low ops m a b = .ok m') : keys_size m' = keys_size m := by
  unfold move_elem_low at h
  split at h
  · rename_i m1 h1
    rw [move_value_keys_size ops h, swap_indices_only_keys_size h1]
  · cases h

theorem swap_elems_keys_size (m : IndexMap α π) (i j : Nat) :
    keys_size (swap_elems m i j).2 = keys_size m := by
  unfold swap_elems
  split
  · split
    · rename_i m1 h1
      exact swap_elems_low_keys_size h1
    · rfl
  · rfl
  · rfl

theorem move_elem_keys_size (ops : MoveOps α) (m : IndexMap α π) (i j : Nat) :
    keys_size (move_elem ops m i j).2 = keys_size m := by
  unfold move_elem
  split
  · split
    · rename_i m1 h1
      exact move_elem_low_keys_size ops h1
    · rfl
  · rfl
  · rfl

theorem erase_keys_size (ops : MoveOps α) (m : IndexMap α π) (k : Nat) :
    keys_size (erase ops m k).2 = keys_size m := by
  unfold erase
  split
  · rfl
  · split
    · split
      · rename_i m1 h1
        exact (show keys_size (pop_back m1) = keys_size m1 from rfl).trans
          (move_elem_low_keys_size ops h1)
      · rfl
    · rfl
    · rfl

theorem erase_index_keys_size (ops : MoveOps α) (m : IndexMap α π) (i : Nat) :
    keys_size (erase_index ops m i).2 = keys_size m := by
  unfold erase_index
  split
  · rfl
  · split
    · split
      · rename_i m1 h1
        exact (show keys_size (pop_back m1) = keys_size m1 from rfl).trans
          (move_elem_low_keys_size ops h1)
      · rfl
    · rfl
    · rfl

theorem insert_at_keys_size (m : IndexMap α π) (k : Nat) (v : α) :
    keys_size (insert_at m k v).2 = keys_size m := by
  unfold insert_at force_key_for_inserted_value
  split
  · rfl
  · split
    · rfl
    · split
      · split
        · rename_i m1 h1
          show keys_size m1 = keys_size (emplace_back m v)
          exact swap_indices_only_relaxed_keys_size h1
        · rfl
      · rfl
      · rfl

theorem emplace_keys_size [Inhabited π] (w : Nat) (m : IndexMap α π) (v : α) :
    keys_size m ≤ keys_size (emplace w m v).2 := by
  unfold emplace add_key_for_inserted_value
  split
  · exact Nat.le_refl _
  · split
    · split
      · exact Nat.le_refl _
      · exact Nat.le_refl _
    · show m.indices.length ≤ (m.indices ++ [_]).length
      simp

theorem prepare_loop_length (w : Nat) :
    ∀ (count i : Nat) (ix : List (IndexEntry π)), (prepare_loop w count i ix).length = ix.length
  | 0, _, _ => rfl
  | count + 1, i, ix => by
    unfold prepare_loop
    split
    · rw [prepare_loop_length w count]
      simp
    · rfl

theorem prepare_keys_size [Inhabited π] (w : Nat) (m : IndexMap α π) (n : Nat) :
    keys_size m ≤ keys_size (prepare_keys_for_insertion w m n).2 := by
  unfold prepare_keys_for_insertion
  dsimp only
  split
  · exact Nat.le_refl _
  · split
    · exact Nat.le_refl _
    · show m.indices.length ≤ (prepare_loop w _ _ _).length
      rw [prepare_loop_length]
      simp

theorem live_keys_card {w : Nat} {m : IndexMap α π} (h : WF w m) :
    ((Finset.range (keys_size m)).filter (fun k => contains m k = true)).card = size m := by
  have himg : (Finset.range (keys_size m)).filter (fun k => contains m k = true) =
      (Finset.range (size m)).image (fun i => (ds m.indices i).getD 0) := by
    ext k
    simp only [Finset.mem_filter, Finset.mem_range, Finset.mem_image]
    constructor
    · rintro ⟨-, hc⟩
      obtain ⟨i, hi, hlt⟩ := (contains_iff m k).1 hc
      exact ⟨i, hlt, by rw [h.inv.1 _ _ hi]; rfl⟩
    · rintro ⟨i, hlt, hk⟩
      obtain ⟨k', hk'⟩ := ds_isSome (Nat.lt_of_lt_of_le hlt h.size_le)
      rw [hk'] at hk
      have hkk : k' = k := hk
      subst hkk
      have hs := h.inv.2 _ _ hk'
      exact ⟨sd_some_lt hs, (contains_iff m k').2 ⟨i, hs, hlt⟩⟩
  rw [himg, Finset.card_image_of_injOn, Finset.card_range]
  intro i hi i' hi' heq
  have hi1 : i < size m := Finset.mem_range.1 hi
  have hi2 : i' < size m := Finset.mem_range.1 hi'
  obtain ⟨k, hk⟩ := ds_isSome (Nat.lt_of_lt_of_le hi1 h.size_le)
  obtain ⟨k', hk'⟩ := ds_isSome (Nat.lt_of_lt_of_le hi2 h.size_le)
  simp only [hk, hk', Option.getD_some] at heq
  subst heq
  exact ds_injective h.inv hk hk'

theorem values_erase_eq (ops : MoveOps α) (m : IndexMap α π) {n : Nat} (hn : n < 2 ^ 64) :
    values_erase ops m (values_begin + n) =
      (match erase_index ops m n with
       | (.ok (), m1) => (.ok (values_begin + n), m1)
       | (.error e, m1) => (.error e, m1)) := by
  unfold values_erase values_begin
  have h1 : (((((0 + n : Nat) : Int) - ((0 : Nat) : Int)) % 2 ^ 64).toNat) = n := by
    have : (((0 + n : Nat) : Int) - ((0 : Nat) : Int)) % 2 ^ 64 = (n : Int) := by omega
    rw [this, Int.toNat_ofNat]
  have h2 : (((0 : Nat) : Int) + (((0 + n : Nat) : Int) - ((0 : Nat) : Int))).toNat = 0 + n := by
    have : ((0 : Nat) : Int) + (((0 + n : Nat) : Int) - ((0 : Nat) : Int)) =
        ((0 + n : Nat) : Int) := by
      omega
    rw [this, Int.toNat_ofNat]
  simp only [h1, h2]

theorem forget_observers (m : IndexMap α π) :
    IndexMapVoid.size (forget m) = size m ∧ IndexMapVoid.keys_size (forget m) = keys_size m ∧
    (∀ k, IndexMapVoid.contains (forget m) k = contains m k) ∧
    (∀ k, IndexMapVoid.key_to_index_relaxed (forget m) k = key_to_index_relaxed m k) ∧
    (∀ i, IndexMapVoid.index_to_key_relaxed (forget m) i = index_to_key_relaxed m i) :=
  ⟨rfl, rfl, fun _ => rfl, fun _ => rfl, fun _ => rfl⟩

theorem swap_indices_only_relaxed_forget (m : IndexMap α π) (a b : KeyAndIndex) :
    IndexMapVoid.swap_indices_only_relaxed (forget m) a b =
      (swap_indices_only_relaxed m a b).map forget := by
  unfold swap_indices_only_relaxed IndexMapVoid.swap_indices_only_relaxed
  have hc : (IndexMapVoid.valid_index_relaxed (forget m) a.i &&
      IndexMapVoid.valid_index_relaxed (forget m) b.i) =
      (valid_index_relaxed m a.i && valid_index_relaxed m b.i) := rfl
  have hix : (forget m).indices = m.indices := rfl
  rw [hc, hix]
  split
  · cases swap_sparse_to_dense m.indices a.k b.k with
    | error e => rfl
    | ok ix1 =>
      dsimp only
      cases swap_dense_to_sparse ix1 a.i b.i with
      | error e => rfl
      | ok ix2 => rfl
  · rfl

theorem swap_indices_only_forget (m : IndexMap α π) (a b : KeyAndIndex) :
    IndexMapVoid.swap_indices_only (forget m) a b = (swap_indices_only m a b).map forget := by
  unfold swap_indices_only IndexMapVoid.swap_indices_only
  have hc : (IndexMapVoid.valid_index (forget m) a.i &&
      IndexMapVoid.valid_index (forget m) b.i) =
      (valid_index m a.i && valid_index m b.i) := rfl
  rw [hc, swap_indices_only_relaxed_forget]
  split
  · rfl
  · rfl

theorem swap_indices_only_relaxed_values {m m1 : IndexMap α π} {a b : KeyAndIndex}
    (h : swap_indices_only_relaxed m a b = .ok m1) : m1.value_storage = m.value_storage := by
  unfold swap_indices_only_relaxed at h
  split at h
  · split at h
    · split at h
      · cases h
        rfl
      · cases h
    · cases h
  · cases h

theorem move_elem_low_forget (ops : MoveOps α) (m : IndexMap α π) (a b : KeyAndIndex) :
    IndexMapVoid.move_elem_low (forget m) a b = (move_elem_low ops m a b).map forget := by
  unfold move_elem_low IndexMapVoid.move_elem_low
  rw [swap_indices_only_forget]
  cases h1 : swap_indices_only m a b with
  | error e => rfl
  | ok m1 =>
    dsimp only
    unfold swap_indices_only at h1
    split at h1
    · rename_i hv
      have hvals := swap_indices_only_relaxed_values h1
      have hab : a.i < size m ∧ b.i < size m := by
        simpa only [Bool.and_eq_true, valid_index, decide_eq_true_eq] using hv
      have hsz : size m1 = size m := by
        unfold size
        rw [hvals]
      have ha : a.i < size m1 := by omega
      have hb : b.i < size m1 := by omega
      obtain ⟨m2, e2, hix, hlen, -⟩ := move_value_spec ops m1 a.i b.i ha hb
      rw [e2]
      show Except.ok (forget m1) = Except.ok (forget m2)
      unfold forget
      rw [hix, hlen]
    · cases h1

theorem of_index_forget (m : IndexMap α π) (i : Nat) :
    IndexMapVoid.KeyAndIndex.of_index (forget m) i = KeyAndIndex.of_index m i := rfl

theorem of_key_forget (m : IndexMap α π) (k : Nat) :
    IndexMapVoid.KeyAndIndex.of_key (forget m) k = KeyAndIndex.of_key m k := rfl

theorem move_elem_low_length (ops : MoveOps α) {m m1 : IndexMap α π} {a b : KeyAndIndex}
    (h : move_elem_low ops m a b = .ok m1) : size m1 = size m := by
  have h2 := move_elem_low_forget ops m a b
  rw [h] at h2
  unfold IndexMapVoid.move_elem_low IndexMapVoid.swap_indices_only at h2
  split at h2
  · have h3 := swap_indices_only_relaxed_forget m a b
    rw [h2] at h3
    cases h4 : swap_indices_only_relaxed m a b with
    | error e =>
      rw [h4] at h3
      cases h3
    | ok m0 =>
      rw [h4] at h3
      have h5 : forget m1 = forget m0 := Except.ok.inj h3
      have h6 : (forget m1).value_storage.counter = (forget m0).value_storage.counter := by
        rw [h5]
      have h7 := swap_indices_only_relaxed_values h4
      show m1.value_storage.length = m.value_storage.length
      rw [← h7]
      exact h6
  · cases h2

theorem pop_back_forget {m : IndexMap α π} (h0 : 0 < size m) (h1 : size m < 2 ^ 64) :
    ({ forget m with value_storage := (forget m).value_storage.pop_back } : IndexMapVoid π) =
      forget (pop_back m) := by
  unfold forget pop_back SizeOnlyContainer.pop_back
  have : size_pred m.value_storage.length = m.value_storage.dropLast.length := by
    rw [List.length_dropLast]
    exact size_pred_eq h0 h1
  simp only [this]

theorem erase_tail_forget (ops : MoveOps α) {m : IndexMap α π} (h0 : 0 < size m)
    (h1 : size m < 2 ^ 64) (ra rb : Except Error KeyAndIndex) :
    (match ra, rb with
      | .ok a, .ok b =>
        match IndexMapVoid.move_elem_low (forget m) a b with
        | .ok m1 => ((.ok () : Except Error Unit),
            ({ m1 with value_storage := m1.value_storage.pop_back } : IndexMapVoid π))
        | .error e => (.error e, forget m)
      | .error e, _ => (.error e, forget m)
      | _, .error e => (.error e, forget m)) =
    ((match ra, rb with
      | .ok a, .ok b =>
        match move_elem_low ops m a b with
        | .ok m1 => ((.ok () : Except Error Unit), pop_back m1)
        | .error e => (.error e, m)
      | .error e, _ => (.error e, m)
      | _, .error e => (.error e, m)).1,
     forget (match ra, rb with
      | .ok a, .ok b =>
        match move_elem_low ops m a b with
        | .ok m1 => ((.ok () : Except Error Unit), pop_back m1)
        | .error e => (.error e, m)
      | .error e, _ => (.error e, m)
      | _, .error e => (.error e, m)).2) := by
  cases ra with
  | error e => cases rb <;> rfl
  | ok a =>
    cases rb with
    | error e => rfl
    | ok b =>
      dsimp only
      rw [move_elem_low_forget ops]
      cases h2 : move_elem_low ops m a b with
      | error e => rfl
      | ok m1 =>
        have hs := move_elem_low_length ops h2
        show ((.ok () : Except Error Unit),
          ({ forget m1 with value_storage := (forget m1).value_storage.pop_back } :
            IndexMapVoid π)) = (.ok (), forget (pop_back m1))
        rw [pop_back_forget (by omega) (by omega)]

theorem erase_forget (ops : MoveOps α) {m : IndexMap α π} (h1 : size m < 2 ^ 64) (k : Nat) :
    IndexMapVoid.erase (forget m) k = ((erase ops m k).1, forget (erase ops m k).2) := by
  unfold erase IndexMapVoid.erase
  have hc : IndexMapVoid.contains (forget m) k = contains m k := rfl
  rw [hc]
  cases hk : contains m k
  · rfl
  · obtain ⟨i, -, hi⟩ := (contains_iff m k).1 hk
    have h0 : 0 < size m := by omega
    simp only [Bool.not_true, Bool.false_eq_true, if_false]
    exact erase_tail_forget ops h0 h1 _ _

theorem erase_index_forget (ops : MoveOps α) {m : IndexMap α π} (h1 : size m < 2 ^ 64)
    (i : Nat) :
    IndexMapVoid.erase_index (forget m) i =
      ((erase_index ops m i).1, forget (erase_index ops m i).2) := by
  unfold erase_index IndexMapVoid.erase_index
  have hc : IndexMapVoid.valid_index (forget m) i = valid_index m i := rfl
  rw [hc]
  cases hk : valid_index m i
  · rfl
  · have hi : i < size m := of_decide_eq_true hk
    have h0 : 0 < size m := by omega
    simp only [Bool.not_true, Bool.false_eq_true, if_false]
    exact erase_tail_forget ops h0 h1 _ _

theorem remove_unused_key_forget (m : IndexMap α π) :
    IndexMapVoid.remove_unused_key (forget m) =
      ((remove_unused_key m).1, forget (remove_unused_key m).2) := by
  unfold remove_unused_key IndexMapVoid.remove_unused_key
  have hix : (forget m).indices = m.indices := rfl
  have hsz : IndexMapVoid.size (forget m) = size m := rfl
  rw [hix, hsz]
  cases m.indices.getLast? with
  | none => rfl
  | some last =>
    dsimp only
    split
    · rfl
    · rw [of_index_forget, of_index_forget]
      cases KeyAndIndex.of_index m last.sparse_to_dense with
      | error e => cases KeyAndIndex.of_index m (size_pred m.indices.length) <;> rfl
      | ok a =>
        cases KeyAndIndex.of_index m (size_pred m.indices.length) with
        | error e => rfl
        | ok b =>
          dsimp only
          rw [swap_indices_only_relaxed_forget]
          cases swap_indices_only_relaxed m a b with
          | error e => rfl
          | ok m1 => rfl

theorem emplace_forget [Inhabited π] {w : Nat} (hw : w ≤ 64) (m : IndexMap α π) (v : α) :
    IndexMapVoid.emplace w (forget m) =
      ((emplace w m v).1.map (fun r => ⟨r.key, r.persistent_data⟩),
        forget (emplace w m v).2) := by
  unfold emplace IndexMapVoid.emplace
  have hsz : IndexMapVoid.size (forget m) = size m := rfl
  rw [hsz]
  by_cases hmax : size m ≥ max_size w
  · rw [if_pos hmax, if_pos hmax]
    rfl
  · rw [if_neg hmax, if_neg hmax]
    have hlt := max_size_lt_size_range hw
    have hback : ({ forget m with value_storage := (forget m).value_storage.emplace_back } :
        IndexMapVoid π) = forget (emplace_back m v) := by
      unfold forget emplace_back SizeOnlyContainer.emplace_back
      have : (m.value_storage.length + 1) % 2 ^ 64 = (m.value_storage ++ [v]).length := by
        rw [List.length_append, List.length_singleton]
        apply Nat.mod_eq_of_lt
        unfold size at hmax
        omega
      simp only [this]
    rw [hback]
    unfold add_key_for_inserted_value IndexMapVoid.add_key_for_inserted_value
    have hsz2 : IndexMapVoid.size (forget (emplace_back m v)) = size (emplace_back m v) := rfl
    have hix2 : (forget (emplace_back m v)).indices = (emplace_back m v).indices := rfl
    have hvs2 : (forget (emplace_back m v)).value_storage.size =
        (emplace_back m v).value_storage.length := rfl
    rw [hsz2, hix2, hvs2]
    split
    · cases (emplace_back m v).indices[size_pred (emplace_back m v).value_storage.length]? with
      | none => rfl
      | some e => rfl
    · rfl

theorem apply_call_forget [Inhabited π] {w : Nat} (hw : w ≤ 64) (ops : MoveOps α)
    {m : IndexMap α π} (h1 : size m < 2 ^ 64) (c : Call α) :
    apply_call_void w (forget m) c =
      ((apply_call w ops m c).1, forget (apply_call w ops m c).2) := by
  cases c with
  | emplace v =>
    show ((IndexMapVoid.emplace w (forget m)).1.map
        (fun r => Reply.inserted r.key r.persistent_data),
        (IndexMapVoid.emplace w (forget m)).2) =
      (((emplace w m v).1.map (fun r => Reply.inserted r.key r.persistent_data)),
        forget (emplace w m v).2)
    rw [emplace_forget hw m v]
    dsimp only
    cases (emplace w m v).1 <;> rfl
  | erase k =>
    show ((IndexMapVoid.erase (forget m) k).1.map (fun _ => Reply.erased),
        (IndexMapVoid.erase (forget m) k).2) =
      ((erase ops m k).1.map (fun _ => Reply.erased), forget (erase ops m k).2)
    rw [erase_forget ops h1 k]
  | erase_index i =>
    show ((IndexMapVoid.erase_index (forget m) i).1.map (fun _ => Reply.erased),
        (IndexMapVoid.erase_index (forget m) i).2) =
      ((erase_index ops m i).1.map (fun _ => Reply.erased), forget (erase_index ops m i).2)
    rw [erase_index_forget ops h1 i]
  | remove_unused_key =>
    show ((IndexMapVoid.remove_unused_key (forget m)).1.map Reply.reclaimed,
        (IndexMapVoid.remove_unused_key (forget m)).2) =
      ((remove_unused_key m).1.map Reply.reclaimed, forget (remove_unused_key m).2)
    rw [remove_unused_key_forget m]

theorem apply_call_reachable [Inhabited π] {w : Nat} {ops : MoveOps α} {m : IndexMap α π}
    (h : Reachable w ops m) (c : Call α) : Reachable w ops (apply_call w ops m c).2 := by
  cases c with
  | emplace v => exact .step_emplace v h
  | erase k => exact .step_erase k h
  | erase_index i => exact .step_erase_index i h
  | remove_unused_key => exact .step_remove_unused_key h

theorem run_calls_reachable [Inhabited π] {w : Nat} {ops : MoveOps α} :
    ∀ (calls : List (Call α)) {m : IndexMap α π}, Reachable w ops m →
      Reachable w ops (run_calls w ops m calls).2
  | [], _, h => h
  | c :: cs, _, h => run_calls_reachable cs (apply_call_reachable h c)

theorem run_calls_forget [Inhabited π] {w : Nat} (hw : w ≤ 64) (ops : MoveOps α) :
    ∀ (calls : List (Call α)) {m : IndexMap α π}, Reachable w ops m →
      run_calls_void w (forget m) calls =
        ((run_calls w ops m calls).1, forget (run_calls w ops m calls).2)
  | [], _, _ => rfl
  | c :: cs, m, h => by
    have h1 := (h.wf hw).size_lt hw
    have ih := run_calls_forget hw ops cs (apply_call_reachable h c)
    unfold run_calls run_calls_void
    rw [apply_call_forget hw ops h1 c]
    dsimp only
    rw [ih]

theorem basic4_reinserted_reachable : Reachable 32 (MoveOps.trivial Nat) basic4_reinserted :=
  .step_emplace 200 basic4_erased_reachable

theorem basic4_desynced_reachable : Reachable 32 (MoveOps.trivial Nat) basic4_desynced :=
  .step_erase 2 basic4_reinserted_reachable

theorem basic4_two_left_reachable : Reachable 32 (MoveOps.trivial Nat) basic4_two_left :=
  .step_erase 0 basic4_desynced_reachable

theorem basic4_one_left_reachable : Reachable 32 (MoveOps.trivial Nat) basic4_one_left :=
  .step_erase 3 basic4_two_left_reachable

theorem basic4_one_left_live (k : Nat) (hk : contains basic4_one_left k = true) : k ≤ 1 := by
  obtain ⟨i, hi, -⟩ := (contains_iff _ k).1 hk
  have hlt : k < 4 := sd_some_lt hi
  interval_cases k
  · omega
  · omega
  · exact absurd hk (by decide)
  · exact absurd hk (by decide)

theorem not_contains_of_keys_size_le {m : IndexMap α π} {k : Nat} (h : keys_size m ≤ k) :
    contains m k = false := by
  cases hc : contains m k
  · rfl
  · obtain ⟨i, hi, -⟩ := (contains_iff m k).1 hc
    have := sd_some_lt hi
    unfold keys_size at h
    omega

theorem Reclaimed.live {w : Nat} {m m' : IndexMap α π} {i kb : Nat} (hr : Reclaimed m i kb m')
    (h : WF w m) (hK : 0 < keys_size m) (hs : sd m.indices (keys_size m - 1) = some i)
    (hi : size m ≤ i) (hkb : ds m.indices (keys_size m - 1) = some kb) (k : Nat) :
    contains m' k = contains m k ∧
      (∀ j, sd m.indices k = some j → j < size m → sd m'.indices k = some j) := by
  by_cases hk : k < keys_size m - 1
  · exact hr.frame h hs hi hkb hk
  · have hke := hr.keys_eq
    have h1 : contains m' k = false := not_contains_of_keys_size_le (by omega)
    by_cases hk2 : k = keys_size m - 1
    · have h2 : contains m k = false := by
        rw [hk2]
        exact not_contains_of_sd hs hi
      refine ⟨h1.trans h2.symm, ?_⟩
      intro j hj hlt
      rw [hk2, hs] at hj
      cases hj
      omega
    · have h2 : contains m k = false := not_contains_of_keys_size_le (by omega)
      refine ⟨h1.trans h2.symm, ?_⟩
      intro j hj hlt
      have := sd_some_lt hj
      unfold keys_size at hk hk2
      omega

theorem remove_unused_key_loop_live {w : Nat} (hw : w ≤ 64) :
    ∀ (fuel : Nat) (m : IndexMap α π) (c : Nat) (m' : IndexMap α π), WF w m →
      remove_unused_key_loop fuel m = some (c, m') →
      WF w m' ∧ remove_unused_key m' = (.ok false, m') ∧
      m'.value_storage = m.value_storage ∧ (∀ k, contains m' k = contains m k) ∧
      (∀ k j, sd m.indices k = some j → j < size m → sd m'.indices k = some j)
  | 0, _, _, _, _, hl => by
    unfold remove_unused_key_loop at hl
    cases hl
  | fuel + 1, m, c, m', h, hl => by
    unfold remove_unused_key_loop at hl
    rcases remove_unused_key_cases hw h with ⟨e, -⟩ | ⟨i, kb, m1, hK, -, hs, hi, hkb, e, hr, hwf1⟩
    · rw [e] at hl
      dsimp only at hl
      cases hl
      exact ⟨h, e, rfl, fun _ => rfl, fun _ _ hj _ => hj⟩
    · rw [e] at hl
      dsimp only at hl
      cases hloop : remove_unused_key_loop fuel m1 with
      | none =>
        rw [hloop] at hl
        cases hl
      | some r =>
        rw [hloop] at hl
        have hm : r.2 = m' := by
          have := Option.some.inj hl
          exact congrArg Prod.snd this
        have hr2 : remove_unused_key_loop fuel m1 = some (r.1, m') := by
          rw [hloop, ← hm]
        obtain ⟨hwf', hfalse, hv, hc, hsd⟩ :=
          remove_unused_key_loop_live hw fuel m1 r.1 m' hwf1 hr2
        have hsz : size m1 = size m := by
          unfold size
          rw [hr.vals_eq]
        refine ⟨hwf', hfalse, hv.trans hr.vals_eq, ?_, ?_⟩
        · intro k
          rw [hc k]
          exact (hr.live h hK hs hi hkb k).1
        · intro k j hj hlt
          exact hsd k j ((hr.live h hK hs hi hkb k).2 j hj hlt) (by omega)

/-! ## Claims C1 to C10 -/

/-- C1: in every reachable map, every live key `k` has `key_to_index(k) < size()` and
`index_to_key(key_to_index(k)) == k`, and every dense index `i < size()` has
`key_to_index(index_to_key(i)) == i`. -/
theorem C1_sparse_dense_invariant [Inhabited π] {w : Nat} {ops : MoveOps α} (hw : w ≤ 64)
    {m : IndexMap α π} (h : Reachable w ops m) :
    (∀ k, contains m k = true →
      ∃ i, key_to_index m k = .ok i ∧ i < size m ∧ index_to_key m i = .ok k) ∧
    (∀ i, i < size m → ∃ k, index_to_key m i = .ok k ∧ key_to_index m k = .ok i) := by
  have hwf := h.wf hw
  constructor
  · intro k hk
    obtain ⟨i, hi, hlt⟩ := (contains_iff m k).1 hk
    exact ⟨i, key_to_index_of_sd hi hlt, hlt, index_to_key_of_ds (hwf.inv.1 _ _ hi) hlt⟩
  · intro i hi
    obtain ⟨k, hk⟩ := ds_isSome (Nat.lt_of_lt_of_le hi hwf.size_le)
    exact ⟨k, index_to_key_of_ds hk hi, key_to_index_of_sd (hwf.inv.2 _ _ hk) hi⟩

/-- C1 at the map of `basic_checks` after `erase(k1)`: key 3 is live and dense index 1 is valid. -/
theorem C1_sparse_dense_invariant_witness :
    (32 ≤ 64 ∧ Reachable 32 (MoveOps.trivial Nat) basic4_erased) ∧
    (∃ i, key_to_index basic4_erased 3 = .ok i ∧ i < size basic4_erased ∧
      index_to_key basic4_erased i = .ok 3) ∧
    (∃ k, index_to_key basic4_erased 1 = .ok k ∧ key_to_index basic4_erased k = .ok 1) :=
  ⟨⟨by decide, basic4_erased_reachable⟩,
    (C1_sparse_dense_invariant (by decide) basic4_erased_reachable).1 3 (by decide),
    (C1_sparse_dense_invariant (by decide) basic4_erased_reachable).2 1 (by decide)⟩

/-- C2 (key stability): a live key `k` holding `v` is still live and still holds `v` after an
`emplace`/`insert` of any value, and after `erase` of any other live key, by key or by that
key's dense index. -/
theorem C2_key_stability [Inhabited π] {w : Nat} {ops : MoveOps α} (hw : w ≤ 64)
    {m : IndexMap α π} (h : Reachable w ops m) {k : Nat} {v : α}
    (hk : contains m k = true) (hv : at_key m k = .ok v) :
    (∀ v', contains (emplace w m v').2 k = true ∧ at_key (emplace w m v').2 k = .ok v) ∧
    (∀ k', k' ≠ k → contains m k' = true →
      (erase ops m k').1 = .ok () ∧ contains (erase ops m k').2 k = true ∧
        at_key (erase ops m k').2 k = .ok v) ∧
    (∀ k' i', k' ≠ k → key_to_index m k' = .ok i' →
      (erase_index ops m i').1 = .ok () ∧ contains (erase_index ops m i').2 k = true ∧
        at_key (erase_index ops m i').2 k = .ok v) := by
  have hwf := h.wf hw
  refine ⟨?_, ?_, ?_⟩
  · intro v'
    by_cases hmax : max_size w ≤ size m
    · rw [emplace_fail v' hmax]
      exact ⟨hk, hv⟩
    · obtain ⟨i, hi, hvi⟩ := (at_key_ok_iff m k v).1 hv
      have hlt : i < m.value_storage.length := (List.getElem?_eq_some_iff.1 hvi).1
      obtain ⟨r, m', e, -, hvs, -, -, -, hfr, -, -⟩ :=
        emplace_ok hw hwf v' (Nat.lt_of_not_le hmax)
      have hs : sd m'.indices k = some i := by
        rw [(hfr k (sd_some_lt hi)).1]
        exact hi
      have hval : m'.value_storage[i]? = some v := by
        rw [hvs, List.getElem?_append_left hlt]
        exact hvi
      rw [e]
      exact ⟨contains_of_sd hs (List.getElem?_eq_some_iff.1 hval).1, at_key_of_sd hs hval⟩
  · intro k' hne hk'
    exact erase_keeps_other ops hw hwf hne hk' hv
  · intro k' i' hne hki
    obtain ⟨hs, hlt⟩ := (key_to_index_ok_iff m k' i').1 hki
    rw [erase_index_eq_erase ops hw hwf hs hlt]
    exact erase_keeps_other ops hw hwf hne (contains_of_sd hs hlt) hv

/-- C2 at the map of `basic_checks` holding 10, 20, 30, 40: key 3 keeps the value 40 across an
insertion and across erasing key 1, by key and by index. -/
theorem C2_key_stability_witness :
    (32 ≤ 64 ∧ Reachable 32 (MoveOps.trivial Nat) basic4 ∧ contains basic4 3 = true ∧
      at_key basic4 3 = .ok 40) ∧
    (contains (emplace 32 basic4 50).2 3 = true ∧ at_key (emplace 32 basic4 50).2 3 = .ok 40) ∧
    ((erase (MoveOps.trivial Nat) basic4 1).1 = .ok () ∧
      contains (erase (MoveOps.trivial Nat) basic4 1).2 3 = true ∧
      at_key (erase (MoveOps.trivial Nat) basic4 1).2 3 = .ok 40) ∧
    ((erase_index (MoveOps.trivial Nat) basic4 1).1 = .ok () ∧
      contains (erase_index (MoveOps.trivial Nat) basic4 1).2 3 = true ∧
      at_key (erase_index (MoveOps.trivial Nat) basic4 1).2 3 = .ok 40) :=
  ⟨⟨by decide, basic4_reachable, by decide, rfl⟩,
    (C2_key_stability (by decide) basic4_reachable (k := 3) (v := 40) (by decide) rfl).1 50,
    (C2_key_stability (by decide) basic4_reachable (k := 3) (v := 40) (by decide) rfl).2.1 1
      (by decide) (by decide),
    (C2_key_stability (by decide) basic4_reachable (k := 3) (v := 40) (by decide) rfl).2.2 1 1
      (by decide) rfl⟩

/-- C3 (erase is swap-and-pop): erasing the live key `k` at dense index `i`, by key or by index,
succeeds, lowers `size()` by one, keeps `keys_size()`, puts the value and key that were last at
dense index `i` (when `i` was not last), and leaves every other remaining dense index alone. -/
theorem C3_erase_is_swap_pop [Inhabited π] {w : Nat} {ops : MoveOps α} (hw : w ≤ 64)
    {m : IndexMap α π} (h : Reachable w ops m) {k i : Nat} (hk : key_to_index m k = .ok i) :
    erase_index ops m i = erase ops m k ∧ (erase ops m k).1 = .ok () ∧
    size (erase ops m k).2 + 1 = size m ∧ keys_size (erase ops m k).2 = keys_size m ∧
    (i ≠ size m - 1 → ∃ v kl, at_index m (size m - 1) = .ok v ∧
      index_to_key m (size m - 1) = .ok kl ∧ at_index (erase ops m k).2 i = .ok v ∧
      index_to_key (erase ops m k).2 i = .ok kl) ∧
    (∀ j, j < size m - 1 → j ≠ i → ∃ v kj, at_index m j = .ok v ∧
      index_to_key m j = .ok kj ∧ at_index (erase ops m k).2 j = .ok v ∧
      index_to_key (erase ops m k).2 j = .ok kj) := by
  have hwf := h.wf hw
  obtain ⟨hs, hlt⟩ := (key_to_index_ok_iff m k i).1 hk
  obtain ⟨kl, m', hkl, e, her, -⟩ := erase_ok ops hw hwf hs hlt
  have hsz := her.size_eq
  refine ⟨erase_index_eq_erase ops hw hwf hs hlt, ?_, ?_, ?_, ?_, ?_⟩
  · rw [e]
  · rw [e]
    exact hsz
  · rw [e]
    exact her.keys_eq
  · intro hne
    obtain ⟨v, hv⟩ := value_isSome (show size m - 1 < size m by omega)
    have hi' : i < size m' := by omega
    refine ⟨v, kl, at_index_of_get hv, index_to_key_of_ds hkl (by omega), ?_, ?_⟩
    · rw [e]
      apply at_index_of_get
      rw [her.vals_eq, if_pos (by omega), if_pos rfl]
      exact hv
    · rw [e]
      apply index_to_key_of_ds _ hi'
      rw [her.ds_eq, if_pos rfl]
  · intro j hj hji
    obtain ⟨v, hv⟩ := value_isSome (show j < size m by omega)
    obtain ⟨kj, hkj⟩ := ds_isSome (show j < m.indices.length by
      have := hwf.size_le
      unfold keys_size at this
      omega)
    have hj' : j < size m' := by omega
    refine ⟨v, kj, at_index_of_get hv, index_to_key_of_ds hkj (by omega), ?_, ?_⟩
    · rw [e]
      apply at_index_of_get
      rw [her.vals_eq, if_pos hj, if_neg hji]
      exact hv
    · rw [e]
      apply index_to_key_of_ds _ hj'
      rw [her.ds_eq, if_neg hji, if_neg (by omega)]
      exact hkj

/-- C3 at the map of `basic_checks` holding 10, 20, 30, 40: erasing key 1 (dense index 1) moves
the last element to index 1 and leaves index 0 alone. -/
theorem C3_erase_is_swap_pop_witness :
    (32 ≤ 64 ∧ Reachable 32 (MoveOps.trivial Nat) basic4 ∧ key_to_index basic4 1 = .ok 1) ∧
    size (erase (MoveOps.trivial Nat) basic4 1).2 + 1 = size basic4 ∧
    (∃ v kl, at_index basic4 (size basic4 - 1) = .ok v ∧
      index_to_key basic4 (size basic4 - 1) = .ok kl ∧
      at_index (erase (MoveOps.trivial Nat) basic4 1).2 1 = .ok v ∧
      index_to_key (erase (MoveOps.trivial Nat) basic4 1).2 1 = .ok kl) ∧
    (∃ v kj, at_index basic4 0 = .ok v ∧ index_to_key basic4 0 = .ok kj ∧
      at_index (erase (MoveOps.trivial Nat) basic4 1).2 0 = .ok v ∧
      index_to_key (erase (MoveOps.trivial Nat) basic4 1).2 0 = .ok kj) :=
  ⟨⟨by decide, basic4_reachable, rfl⟩,
    (C3_erase_is_swap_pop (by decide) basic4_reachable (k := 1) (i := 1) rfl).2.2.1,
    (C3_erase_is_swap_pop (by decide) basic4_reachable (k := 1) (i := 1) rfl).2.2.2.2.1
      (by decide),
    (C3_erase_is_swap_pop (by decide) basic4_reachable (k := 1) (i := 1) rfl).2.2.2.2.2 0
      (by decide) (by decide)⟩

/-- C4: below capacity `emplace`/`insert` succeeds; the new element sits at dense index old
`size()` under the returned key, the returned value reference is that element, and every key
that was live keeps its dense index. -/
theorem C4_emplace_appends [Inhabited π] {w : Nat} {ops : MoveOps α} (hw : w ≤ 64)
    {m : IndexMap α π} (h : Reachable w ops m) (v : α) (hlt : size m < max_size w) :
    ∃ r, (emplace w m v).1 = .ok r ∧ size (emplace w m v).2 = size m + 1 ∧
      contains (emplace w m v).2 r.key = true ∧
      key_to_index (emplace w m v).2 r.key = .ok (size m) ∧
      at_key (emplace w m v).2 r.key = .ok v ∧
      r.value = size m ∧ at_index (emplace w m v).2 r.value = .ok v ∧
      ∀ k i, key_to_index m k = .ok i → key_to_index (emplace w m v).2 k = .ok i := by
  have hwf := h.wf hw
  obtain ⟨r, m', e, -, hvs, hrv, hsr, -, hfr, -, -⟩ := emplace_ok hw hwf v hlt
  have hsz : size m' = size m + 1 := by
    unfold size
    rw [hvs]
    simp
  have hval : m'.value_storage[size m]? = some v := by
    rw [hvs]
    exact List.getElem?_concat_length _ _
  rw [e]
  dsimp only
  refine ⟨r, rfl, hsz, contains_of_sd hsr (by omega), key_to_index_of_sd hsr (by omega),
    at_key_of_sd hsr hval, hrv, ?_, ?_⟩
  · rw [hrv]
    exact at_index_of_get hval
  · intro k i hki
    obtain ⟨hs, hi⟩ := (key_to_index_ok_iff m k i).1 hki
    apply key_to_index_of_sd _ (show i < size m' by omega)
    rw [(hfr k (sd_some_lt hs)).1]
    exact hs

/-- C4 at the map of `basic_checks` after `erase(k1)`: inserting 200 puts it at dense index 3
under a key that is live afterwards. -/
theorem C4_emplace_appends_witness :
    (32 ≤ 64 ∧ Reachable 32 (MoveOps.trivial Nat) basic4_erased ∧
      size basic4_erased < max_size 32) ∧
    ∃ r, (emplace 32 basic4_erased 200).1 = .ok r ∧
      size (emplace 32 basic4_erased 200).2 = size basic4_erased + 1 ∧
      contains (emplace 32 basic4_erased 200).2 r.key = true ∧
      key_to_index (emplace 32 basic4_erased 200).2 r.key = .ok (size basic4_erased) ∧
      at_key (emplace 32 basic4_erased 200).2 r.key = .ok 200 :=
  ⟨⟨by decide, .step_erase 1 basic4_reachable, by decide⟩,
    (C4_emplace_appends (by decide) (.step_erase 1 basic4_reachable) 200 (by decide)).imp
      (fun _ hr => ⟨hr.1, hr.2.1, hr.2.2.1, hr.2.2.2.1, hr.2.2.2.2.1⟩)⟩

/-- C5 as stated fails at capacity: the map of an 8-bit key type holding 256 elements is reachable
and has `keys_size() == size()`, yet `emplace` throws, issues no key and leaves `keys_size()`
as it was. -/
theorem C5_counterexample :
    Reachable 8 (MoveOps.trivial Nat) (filled 8 256) ∧
    keys_size (filled 8 256) = size (filled 8 256) ∧
    emplace 8 (filled 8 256) 0 = (.error .too_large, filled 8 256) ∧
    ¬ (keys_size (emplace 8 (filled 8 256) 0).2 = keys_size (filled 8 256) + 1) := by
  have hs := filled_sizes (w := 8) (by decide) 256 (by decide)
  have he : emplace 8 (filled 8 256) 0 = (.error .too_large, filled 8 256) :=
    emplace_fail 0 (by rw [hs.1]; decide)
  refine ⟨filled_reachable 8 256, hs.2.trans hs.1.symm, he, ?_⟩
  rw [he]
  dsimp only
  omega

/-- C5, amended to maps below capacity: `emplace`/`insert` succeeds; it issues the brand-new key
`keys_size()`, growing `keys_size()` by one with the new entry self-mapped, exactly when
`keys_size() == size()` held before; otherwise it returns the dead key
`index_to_key_relaxed(size())` and leaves `keys_size()` alone. -/
theorem C5_auto_key_choice [Inhabited π] {w : Nat} {ops : MoveOps α} (hw : w ≤ 64)
    {m : IndexMap α π} (h : Reachable w ops m) (v : α) (hlt : size m < max_size w) :
    ∃ r, (emplace w m v).1 = .ok r ∧
      ((r.key = keys_size m ∧ keys_size (emplace w m v).2 = keys_size m + 1) ↔
        keys_size m = size m) ∧
      (keys_size m = size m →
        contains_relaxed m r.key = false ∧
        key_to_index_relaxed (emplace w m v).2 r.key = .ok r.key ∧
        index_to_key_relaxed (emplace w m v).2 r.key = .ok r.key) ∧
      (keys_size m ≠ size m →
        index_to_key_relaxed m (size m) = .ok r.key ∧ contains_relaxed m r.key = true ∧
        contains m r.key = false ∧ keys_size (emplace w m v).2 = keys_size m) := by
  have hwf := h.wf hw
  obtain ⟨r, m', e, -, -, -, hsr, hdr, hfr, hreuse, hfresh⟩ := emplace_ok hw hwf v hlt
  have hle := hwf.size_le
  rw [e]
  dsimp only
  refine ⟨r, rfl, ⟨?_, ?_⟩, ?_, ?_⟩
  · rintro ⟨-, hk⟩
    by_contra hne
    have hix := (hreuse (by omega)).1
    unfold keys_size at hk
    rw [hix] at hk
    omega
  · intro heq
    exact ⟨(hfresh heq.symm).1, (hfresh heq.symm).2.1⟩
  · intro heq
    have hkey := (hfresh heq.symm).1
    refine ⟨?_, ?_, ?_⟩
    · rw [hkey]
      unfold contains_relaxed keys_size
      simp
    · apply key_to_index_relaxed_of_sd
      rw [hsr, hkey, heq]
    · apply index_to_key_relaxed_of_ds
      have := hdr
      rw [← heq, ← hkey] at this
      exact this
  · intro hne
    have hlt' : size m < keys_size m := by omega
    have hix := (hreuse hlt').1
    have hd : ds m.indices (size m) = some r.key := by
      rw [← hix]
      exact hdr
    have hs := hwf.inv.2 _ _ hd
    refine ⟨index_to_key_relaxed_of_ds hd, ?_, not_contains_of_sd hs (Nat.le_refl _), ?_⟩
    · unfold contains_relaxed
      simp [sd_some_lt hs]
    · unfold keys_size
      rw [hix]

/-- C5 (amended) at the map of `basic_checks` after `erase(k1)`, where `keys_size()` is 4 and
`size()` is 3: the insertion returns the dead key at position 3. -/
theorem C5_auto_key_choice_witness :
    (32 ≤ 64 ∧ Reachable 32 (MoveOps.trivial Nat) basic4_erased ∧
      size basic4_erased < max_size 32) ∧
    ∃ r, (emplace 32 basic4_erased 200).1 = .ok r ∧
      ((r.key = keys_size basic4_erased ∧
        keys_size (emplace 32 basic4_erased 200).2 = keys_size basic4_erased + 1) ↔
        keys_size basic4_erased = size basic4_erased) :=
  ⟨⟨by decide, basic4_erased_reachable, by decide⟩,
    (C5_auto_key_choice (by decide) basic4_erased_reachable 200 (by decide)).imp
      (fun _ hr => ⟨hr.1, hr.2.1⟩)⟩

/-- C6: `erase(k)` of a live key immediately followed by `emplace`/`insert` returns `k` again,
with `m[k]` the new value and `keys_size()` as before. -/
theorem C6_erase_then_emplace_reuses_key [Inhabited π] {w : Nat} {ops : MoveOps α}
    (hw : w ≤ 64) {m : IndexMap α π} (h : Reachable w ops m) {k : Nat}
    (hk : contains m k = true) (v : α) :
    (erase ops m k).1 = .ok () ∧
    ∃ r, (emplace w (erase ops m k).2 v).1 = .ok r ∧ r.key = k ∧
      at_key (emplace w (erase ops m k).2 v).2 k = .ok v ∧
      keys_size (emplace w (erase ops m k).2 v).2 = keys_size m := by
  have hwf := h.wf hw
  obtain ⟨i, hi, hlt⟩ := (contains_iff m k).1 hk
  obtain ⟨kl, m1, hkl, e, her, hwf1⟩ := erase_ok ops hw hwf hi hlt
  obtain ⟨hs1, hd1⟩ := her.erased_key hwf hi hkl
  have hsz := her.size_eq
  have hks := her.keys_eq
  have hle := hwf.size_le
  have hmax := hwf.keys_le
  have hlt1 : size m1 < keys_size m1 := by omega
  obtain ⟨r, m2, e2, -, hvs, -, hsr, hdr, hfr, hreuse, -⟩ :=
    emplace_ok hw hwf1 v (show size m1 < max_size w by omega)
  have hix := (hreuse hlt1).1
  have hkey : r.key = k := by
    rw [hix, hd1] at hdr
    exact (Option.some.inj hdr).symm
  have hval : m2.value_storage[size m1]? = some v := by
    rw [hvs]
    exact List.getElem?_concat_length _ _
  rw [e]
  dsimp only
  rw [e2]
  dsimp only
  refine ⟨rfl, r, rfl, hkey, ?_, ?_⟩
  · rw [← hkey]
    exact at_key_of_sd hsr hval
  · unfold keys_size at hks ⊢
    rw [hix]
    exact hks

/-- C6 at the map of `basic_checks` holding 10, 20, 30, 40: `erase(k1)` then `emplace(200)`
returns key 1 again. -/
theorem C6_erase_then_emplace_reuses_key_witness :
    (32 ≤ 64 ∧ Reachable 32 (MoveOps.trivial Nat) basic4 ∧ contains basic4 1 = true) ∧
    (erase (MoveOps.trivial Nat) basic4 1).1 = .ok () ∧
    ∃ r, (emplace 32 (erase (MoveOps.trivial Nat) basic4 1).2 200).1 = .ok r ∧ r.key = 1 ∧
      at_key (emplace 32 (erase (MoveOps.trivial Nat) basic4 1).2 200).2 1 = .ok 200 ∧
      keys_size (emplace 32 (erase (MoveOps.trivial Nat) basic4 1).2 200).2 = keys_size basic4 :=
  ⟨⟨by decide, basic4_reachable, by decide⟩,
    C6_erase_then_emplace_reuses_key (by decide) basic4_reachable (by decide) 200⟩

/-- C7: after `erase(k)` of a live key, `contains(k)` is false, `contains_relaxed(k)` is still
true, `key_to_index_relaxed(k)` is the new `size()` and `index_to_key_relaxed(size())` is `k`. -/
theorem C7_erased_key_at_first_dead_position [Inhabited π] {w : Nat} {ops : MoveOps α}
    (hw : w ≤ 64) {m : IndexMap α π} (h : Reachable w ops m) {k : Nat}
    (hk : contains m k = true) :
    (erase ops m k).1 = .ok () ∧
    contains (erase ops m k).2 k = false ∧ contains_relaxed (erase ops m k).2 k = true ∧
    key_to_index_relaxed (erase ops m k).2 k = .ok (size (erase ops m k).2) ∧
    index_to_key_relaxed (erase ops m k).2 (size (erase ops m k).2) = .ok k := by
  have hwf := h.wf hw
  obtain ⟨i, hi, hlt⟩ := (contains_iff m k).1 hk
  obtain ⟨kl, m1, hkl, e, her, -⟩ := erase_ok ops hw hwf hi hlt
  obtain ⟨hs1, hd1⟩ := her.erased_key hwf hi hkl
  rw [e]
  dsimp only
  refine ⟨rfl, not_contains_of_sd hs1 (Nat.le_refl _), ?_, key_to_index_relaxed_of_sd hs1,
    index_to_key_relaxed_of_ds hd1⟩
  unfold contains_relaxed
  simp [sd_some_lt hs1]

/-- C7 at the map of `basic_checks` holding 10, 20, 30, 40, erasing key 1. -/
theorem C7_erased_key_at_first_dead_position_witness :
    (32 ≤ 64 ∧ Reachable 32 (MoveOps.trivial Nat) basic4 ∧ contains basic4 1 = true) ∧
    (erase (MoveOps.trivial Nat) basic4 1).1 = .ok () ∧
    contains (erase (MoveOps.trivial Nat) basic4 1).2 1 = false ∧
    contains_relaxed (erase (MoveOps.trivial Nat) basic4 1).2 1 = true ∧
    key_to_index_relaxed (erase (MoveOps.trivial Nat) basic4 1).2 1 =
      .ok (size (erase (MoveOps.trivial Nat) basic4 1).2) ∧
    index_to_key_relaxed (erase (MoveOps.trivial Nat) basic4 1).2
      (size (erase (MoveOps.trivial Nat) basic4 1).2) = .ok 1 :=
  ⟨⟨by decide, basic4_reachable, by decide⟩,
    C7_erased_key_at_first_dead_position (by decide) basic4_reachable (by decide)⟩

/-- C8: on a reachable map `erase(key)` throws exactly when `contains(k)` is false, and then it
throws `out_of_range("Invalid index map key.")`; `erase(index)` throws exactly when
`i >= size()`, and then `out_of_range("Invalid index map index.")`; a throwing call leaves the
map as it was. -/
theorem C8_erase_failure [Inhabited π] {w : Nat} {ops : MoveOps α} (hw : w ≤ 64)
    {m : IndexMap α π} (h : Reachable w ops m) :
    (∀ k, ((∃ e, (erase ops m k).1 = .error e) ↔ contains m k = false) ∧
      (∀ e, (erase ops m k).1 = .error e →
        e = .invalid_key ∧ e.what = "Invalid index map key." ∧ (erase ops m k).2 = m)) ∧
    (∀ i, ((∃ e, (erase_index ops m i).1 = .error e) ↔ size m ≤ i) ∧
      (∀ e, (erase_index ops m i).1 = .error e →
        e = .invalid_index ∧ e.what = "Invalid index map index." ∧
          (erase_index ops m i).2 = m)) := by
  have hwf := h.wf hw
  constructor
  · intro k
    cases hc : contains m k
    · rw [erase_fail ops hc]
      refine ⟨⟨fun _ => rfl, fun _ => ⟨_, rfl⟩⟩, ?_⟩
      intro e he
      cases he
      exact ⟨rfl, rfl, rfl⟩
    · obtain ⟨i, hi, hlt⟩ := (contains_iff m k).1 hc
      obtain ⟨kl, m1, -, e, -, -⟩ := erase_ok ops hw hwf hi hlt
      rw [e]
      refine ⟨⟨?_, fun hf => by cases hf⟩, ?_⟩
      · rintro ⟨e', he'⟩
        cases he'
      · intro e' he'
        cases he'
  · intro i
    by_cases hi : i < size m
    · obtain ⟨k, kl, m1, -, -, e, -, -⟩ := erase_index_ok ops hw hwf hi
      rw [e]
      refine ⟨⟨?_, fun hf => by omega⟩, ?_⟩
      · rintro ⟨e', he'⟩
        cases he'
      · intro e' he'
        cases he'
    · rw [erase_index_fail ops (Nat.le_of_not_lt hi)]
      refine ⟨⟨fun _ => Nat.le_of_not_lt hi, fun _ => ⟨_, rfl⟩⟩, ?_⟩
      intro e he
      cases he
      exact ⟨rfl, rfl, rfl⟩

/-- C8 at the map of the exception checks of `test.cpp` after `erase(k1)`: erasing the dead key 1
and the index 3 both throw and change nothing. -/
theorem C8_erase_failure_witness :
    (32 ≤ 64 ∧ Reachable 32 (MoveOps.trivial Nat) basic4_erased) ∧
    ((∃ e, (erase (MoveOps.trivial Nat) basic4_erased 1).1 = .error e) ↔
      contains basic4_erased 1 = false) ∧
    ((∃ e, (erase_index (MoveOps.trivial Nat) basic4_erased 3).1 = .error e) ↔
      size basic4_erased ≤ 3) ∧
    (erase (MoveOps.trivial Nat) basic4_erased 1).2 = basic4_erased ∧
    (erase_index (MoveOps.trivial Nat) basic4_erased 3).2 = basic4_erased :=
  ⟨⟨by decide, .step_erase 1 basic4_reachable⟩,
    ((C8_erase_failure (by decide) (.step_erase 1 basic4_reachable)).1 1).1,
    ((C8_erase_failure (by decide) (.step_erase 1 basic4_reachable)).2 3).1,
    (((C8_erase_failure (by decide) (.step_erase 1 basic4_reachable)).1 1).2
      .invalid_key rfl).2.2,
    (((C8_erase_failure (by decide) (.step_erase 1 basic4_reachable)).2 3).2
      .invalid_index rfl).2.2⟩

/-- C9 fails in the code.  After `prepare_keys_for_insertion(2)` on a fresh map keys 0 and 1 are
preallocated and dead.  `insert_at(key 0, 7)` throws "This index map key is already in use.",
because the liveness test runs after the value was appended; `insert_at(key 1, 7)` returns key 1,
but afterwards key 1 is not live and the value 7 is reached through key 0. -/
theorem C9_insert_at_on_dead_key :
    Reachable 32 (MoveOps.trivial Nat) prepared2 ∧
    (contains_relaxed prepared2 0 = true ∧ contains prepared2 0 = false ∧
      (insert_at prepared2 0 7).1 = .error .key_in_use) ∧
    (contains_relaxed prepared2 1 = true ∧ contains prepared2 1 = false ∧
      (insert_at prepared2 1 7).1 = .ok ⟨1, 0, 1⟩ ∧
      size (insert_at prepared2 1 7).2 = 1 ∧
      contains (insert_at prepared2 1 7).2 1 = false ∧
      at_key (insert_at prepared2 1 7).2 1 = .error .invalid_key ∧
      key_to_index_relaxed (insert_at prepared2 1 7).2 1 = .ok 1 ∧
      at_key (insert_at prepared2 1 7).2 0 = .ok 7) :=
  ⟨prepared2_reachable, ⟨by decide, by decide, rfl⟩,
    ⟨by decide, by decide, rfl, by decide, by decide, rfl, rfl, rfl⟩⟩

/-- C10: `insert_at`/`emplace_at(k, ...)` throws `out_of_range("Invalid index map key.")` whenever
`k` is not below `keys_size()`, and `out_of_range("This index map key is already in use.")`
whenever `k` was live before the call. -/
theorem C10_insert_at_failures (m : IndexMap α π) (k : Nat) (v : α) :
    (keys_size m ≤ k → (insert_at m k v).1 = .error .invalid_key) ∧
    (contains m k = true → (insert_at m k v).1 = .error .key_in_use) ∧
    Error.invalid_key.what = "Invalid index map key." ∧
    Error.key_in_use.what = "This index map key is already in use." := by
  refine ⟨?_, ?_, rfl, rfl⟩
  · intro hk
    have : contains_relaxed (emplace_back m v) k = false := by
      unfold contains_relaxed
      unfold keys_size at hk
      show decide (k < m.indices.length) = false
      simp
      exact hk
    unfold insert_at force_key_for_inserted_value
    rw [this]
    rfl
  · intro hk
    have h1 : contains (emplace_back m v) k = true := contains_emplace_back v hk
    have h2 : contains_relaxed (emplace_back m v) k = true := by
      obtain ⟨i, hi, -⟩ := (contains_iff m k).1 hk
      unfold contains_relaxed
      show decide (k < m.indices.length) = true
      simp [sd_some_lt hi]
    unfold insert_at force_key_for_inserted_value
    rw [h1, h2]
    rfl

/-- C10 at the map of `basic_checks` holding 10, 20, 30, 40: key 4 was never issued and key 1 is
live. -/
theorem C10_insert_at_failures_witness :
    (keys_size basic4 ≤ 4 ∧ contains basic4 1 = true) ∧
    (insert_at basic4 4 7).1 = .error .invalid_key ∧
    (insert_at basic4 1 7).1 = .error .key_in_use :=
  ⟨⟨by decide, by decide⟩, (C10_insert_at_failures basic4 4 7).1 (by decide),
    (C10_insert_at_failures basic4 1 7).2.1 (by decide)⟩

/-! ## Claims C11 to C20 -/

/-- C11 fails in the code.  On the map of `basic_checks` holding 10, 20, 30, 40 (keys 0 to 3, all
live) `insert_at(key 4, 7)` throws "Invalid index map key." and `insert_at(key 1, 7)` throws "This
index map key is already in use.", and both leave the value 7 appended: `size()` is 5 while
`keys_size()` is still 4, so `keys_size() >= size()` no longer holds. -/
theorem C11_insert_at_failure_keeps_value :
    Reachable 32 (MoveOps.trivial Nat) basic4 ∧ size basic4 = 4 ∧ keys_size basic4 = 4 ∧
    ((insert_at basic4 4 7).1 = .error .invalid_key ∧
      (insert_at basic4 4 7).2.value_storage = [10, 20, 30, 40, 7] ∧
      size (insert_at basic4 4 7).2 = 5 ∧ keys_size (insert_at basic4 4 7).2 = 4 ∧
      ¬ size (insert_at basic4 4 7).2 ≤ keys_size (insert_at basic4 4 7).2 ∧
      (insert_at basic4 4 7).2 ≠ basic4) ∧
    ((insert_at basic4 1 7).1 = .error .key_in_use ∧
      (insert_at basic4 1 7).2.value_storage = [10, 20, 30, 40, 7] ∧
      size (insert_at basic4 1 7).2 = 5 ∧ keys_size (insert_at basic4 1 7).2 = 4 ∧
      ¬ size (insert_at basic4 1 7).2 ≤ keys_size (insert_at basic4 1 7).2 ∧
      (insert_at basic4 1 7).2 ≠ basic4) :=
  ⟨basic4_reachable, rfl, rfl,
    ⟨rfl, rfl, rfl, rfl, by decide, by decide⟩,
    ⟨rfl, rfl, rfl, rfl, by decide, by decide⟩⟩

/-- C12: on a reachable map `remove_unused_key()` returns without failing; it returns true
exactly when `keys_size() > 0` and the last key `keys_size() - 1` is not live; when it returns
true `keys_size()` drops by exactly one and `size()` is unchanged; when it returns false the map
is unchanged. -/
theorem C12_remove_unused_key_result [Inhabited π] {w : Nat} {ops : MoveOps α} (hw : w ≤ 64)
    {m : IndexMap α π} (h : Reachable w ops m) :
    ∃ b, (remove_unused_key m).1 = .ok b ∧
      (b = true ↔ 0 < keys_size m ∧ contains m (keys_size m - 1) = false) ∧
      (b = true → keys_size (remove_unused_key m).2 + 1 = keys_size m ∧
        size (remove_unused_key m).2 = size m) ∧
      (b = false → (remove_unused_key m).2 = m) := by
  rcases remove_unused_key_cases hw (h.wf hw) with ⟨e, hc⟩ | ⟨i, kb, m', hK, hc, -, -, -, e, hr, -⟩
  · rw [e]
    refine ⟨false, rfl, ⟨fun hb => Bool.noConfusion hb, ?_⟩, fun hb => Bool.noConfusion hb,
      fun _ => rfl⟩
    rintro ⟨hK, hd⟩
    rcases hc with hc | hc
    · omega
    · rw [hc] at hd
      cases hd
  · rw [e]
    refine ⟨true, rfl, ⟨fun _ => ⟨hK, hc⟩, fun _ => rfl⟩, fun _ => ⟨hr.keys_eq, ?_⟩,
      fun hb => Bool.noConfusion hb⟩
    show m'.value_storage.length = m.value_storage.length
    rw [hr.vals_eq]

/-- C12 at the map holding 10, 20, 30, 40 after `erase` of keys 3 and 2: the last key is dead
and the call returns true. -/
theorem C12_remove_unused_key_result_witness :
    (32 ≤ 64 ∧ Reachable 32 (MoveOps.trivial Nat) basic4_two_dead) ∧
    ∃ b, (remove_unused_key basic4_two_dead).1 = .ok b ∧
      (b = true ↔ 0 < keys_size basic4_two_dead ∧
        contains basic4_two_dead (keys_size basic4_two_dead - 1) = false) :=
  ⟨⟨by decide, basic4_two_dead_reachable⟩,
    (C12_remove_unused_key_result (by decide) basic4_two_dead_reachable).imp
      (fun _ hb => ⟨hb.1, hb.2.1⟩)⟩

/-- C13: when `remove_unused_key()` returns true on a reachable map with `keys_size() == n`, only
key `n - 1` is removed: every key `k < n - 1` still passes `contains_relaxed`, keeps its liveness,
keeps its dense index and value when live, and keeps its persistent data; the relaxed tables of
the result are mutually inverse on `[0, n - 1)`. -/
theorem C13_remove_unused_key_frame [Inhabited π] {w : Nat} {ops : MoveOps α} (hw : w ≤ 64)
    {m : IndexMap α π} (h : Reachable w ops m) (hr : (remove_unused_key m).1 = .ok true) :
    keys_size (remove_unused_key m).2 + 1 = keys_size m ∧
    contains_relaxed (remove_unused_key m).2 (keys_size m - 1) = false ∧
    (∀ k, k < keys_size m - 1 →
      contains_relaxed (remove_unused_key m).2 k = true ∧
      contains (remove_unused_key m).2 k = contains m k ∧
      (∀ i, key_to_index m k = .ok i → key_to_index (remove_unused_key m).2 k = .ok i) ∧
      (∀ v, at_key m k = .ok v → at_key (remove_unused_key m).2 k = .ok v) ∧
      get_persistent_data (remove_unused_key m).2 k = get_persistent_data m k) ∧
    (∀ k, k < keys_size m - 1 → ∃ i, i < keys_size m - 1 ∧
      key_to_index_relaxed (remove_unused_key m).2 k = .ok i ∧
      index_to_key_relaxed (remove_unused_key m).2 i = .ok k) ∧
    (∀ i, i < keys_size m - 1 → ∃ k, k < keys_size m - 1 ∧
      index_to_key_relaxed (remove_unused_key m).2 i = .ok k ∧
      key_to_index_relaxed (remove_unused_key m).2 k = .ok i) := by
  have hwf := h.wf hw
  rcases remove_unused_key_cases hw hwf with ⟨e, -⟩ | ⟨i, kb, m', hK, -, hs, hi, hkb, e, hrec, hwf'⟩
  · rw [e] at hr
    cases hr
  · rw [e]
    dsimp only
    have hlen : m'.indices.length = keys_size m - 1 := by
      have := hrec.keys_eq
      unfold keys_size at this ⊢
      omega
    have hsz : size m' = size m := by
      unfold size
      rw [hrec.vals_eq]
    refine ⟨hrec.keys_eq, ?_, ?_, ?_, ?_⟩
    · unfold contains_relaxed
      rw [hlen]
      simp
    · intro k hk
      obtain ⟨hc, hkeep⟩ := hrec.frame hwf hs hi hkb hk
      refine ⟨?_, hc, ?_, ?_, ?_⟩
      · unfold contains_relaxed
        rw [hlen]
        simp [hk]
      · intro j hj
        obtain ⟨hsj, hjlt⟩ := (key_to_index_ok_iff m k j).1 hj
        exact key_to_index_of_sd (hkeep j hsj hjlt) (by omega)
      · intro v hv
        obtain ⟨j, hsj, hvj⟩ := (at_key_ok_iff m k v).1 hv
        have hjlt : j < size m := (List.getElem?_eq_some_iff.1 hvj).1
        apply at_key_of_sd (hkeep j hsj hjlt)
        rw [hrec.vals_eq]
        exact hvj
      · apply get_persistent_data_congr
        rw [hrec.pd_eq, if_pos hk]
    · intro k hk
      obtain ⟨j, hj⟩ := sd_isSome (show k < m'.indices.length by omega)
      have hjk := hwf'.inv.1 _ _ hj
      exact ⟨j, by have := ds_some_lt hjk; omega, key_to_index_relaxed_of_sd hj,
        index_to_key_relaxed_of_ds hjk⟩
    · intro j hj
      obtain ⟨k, hk⟩ := ds_isSome (show j < m'.indices.length by omega)
      have hkj := hwf'.inv.2 _ _ hk
      exact ⟨k, by have := sd_some_lt hkj; omega, index_to_key_relaxed_of_ds hk,
        key_to_index_relaxed_of_sd hkj⟩

/-- C13 at the map of `persistent_data_checks` with keys 0 and 1 live and keys 2 and 3 dead: the
call removes key 3, and the live key 1 keeps its liveness, its dense index and its payload. -/
theorem C13_remove_unused_key_frame_witness :
    (32 ≤ 64 ∧ Reachable 32 (MoveOps.trivial Nat) pdata4_tail_dead ∧
      (remove_unused_key pdata4_tail_dead).1 = .ok true) ∧
    keys_size (remove_unused_key pdata4_tail_dead).2 + 1 = keys_size pdata4_tail_dead ∧
    (contains_relaxed (remove_unused_key pdata4_tail_dead).2 1 = true ∧
      contains (remove_unused_key pdata4_tail_dead).2 1 = contains pdata4_tail_dead 1 ∧
      key_to_index (remove_unused_key pdata4_tail_dead).2 1 = .ok 1 ∧
      get_persistent_data (remove_unused_key pdata4_tail_dead).2 1 =
        get_persistent_data pdata4_tail_dead 1) :=
  ⟨⟨by decide, pdata4_tail_dead_reachable, rfl⟩,
    (C13_remove_unused_key_frame (by decide) pdata4_tail_dead_reachable rfl).1,
    ⟨((C13_remove_unused_key_frame (by decide) pdata4_tail_dead_reachable rfl).2.2.1 1
      (by decide)).1,
     ((C13_remove_unused_key_frame (by decide) pdata4_tail_dead_reachable rfl).2.2.1 1
      (by decide)).2.1,
     ((C13_remove_unused_key_frame (by decide) pdata4_tail_dead_reachable rfl).2.2.1 1
      (by decide)).2.2.1 1 rfl,
     ((C13_remove_unused_key_frame (by decide) pdata4_tail_dead_reachable rfl).2.2.1 1
      (by decide)).2.2.2.2⟩⟩

/-- C14: on a reachable map each successful `remove_unused_key()` lowers `keys_size()` by exactly
one and not below `size()`; the call returns false whenever `keys_size() == size()`; and the loop
`while (remove_unused_key()) {}` ends after at most `keys_size() - size()` successful calls, in a
map on which the call returns false. -/
theorem C14_reclamation_terminates [Inhabited π] {w : Nat} {ops : MoveOps α} (hw : w ≤ 64)
    {m : IndexMap α π} (h : Reachable w ops m) :
    ((remove_unused_key m).1 = .ok true →
      keys_size (remove_unused_key m).2 + 1 = keys_size m ∧
      size (remove_unused_key m).2 ≤ keys_size (remove_unused_key m).2) ∧
    (keys_size m = size m → (remove_unused_key m).1 = .ok false) ∧
    (∀ fuel, keys_size m - size m < fuel →
      ∃ c m', remove_unused_key_loop fuel m = some (c, m') ∧ c ≤ keys_size m - size m ∧
        keys_size m' + c = keys_size m ∧ size m' = size m ∧ size m' ≤ keys_size m' ∧
        (remove_unused_key m').1 = .ok false) := by
  have hwf := h.wf hw
  refine ⟨?_, ?_, ?_⟩
  · intro hr
    rcases remove_unused_key_cases hw hwf with ⟨e, -⟩ | ⟨i, kb, m1, -, -, -, -, -, e, hrec, hwf1⟩
    · rw [e] at hr
      cases hr
    · rw [e]
      exact ⟨hrec.keys_eq, hwf1.size_le⟩
  · intro heq
    rcases remove_unused_key_cases hw hwf with ⟨e, -⟩ | ⟨i, kb, m1, -, -, hs, hi, -, -, -, -⟩
    · rw [e]
    · have := ds_some_lt (hwf.inv.1 _ _ hs)
      unfold keys_size at heq
      omega
  · intro fuel hf
    obtain ⟨c, m', el, hc, hk, hv, hfalse, hwf'⟩ :=
      remove_unused_key_loop_terminates hw (keys_size m - size m) m hwf (Nat.le_refl _) fuel hf
    refine ⟨c, m', el, hc, hk, ?_, hwf'.size_le, ?_⟩
    · unfold size
      rw [hv]
    · rw [hfalse]

/-- C14 at the map holding 10, 20, 30, 40 after `erase` of keys 3 and 2, where `keys_size()` is 4
and `size()` is 2: with fuel 3 the loop ends after at most two successful calls. -/
theorem C14_reclamation_terminates_witness :
    (32 ≤ 64 ∧ Reachable 32 (MoveOps.trivial Nat) basic4_two_dead ∧
      keys_size basic4_two_dead - size basic4_two_dead < 3) ∧
    ∃ c m', remove_unused_key_loop 3 basic4_two_dead = some (c, m') ∧
      c ≤ keys_size basic4_two_dead - size basic4_two_dead ∧
      keys_size m' + c = keys_size basic4_two_dead ∧ size m' = size basic4_two_dead ∧
      size m' ≤ keys_size m' ∧ (remove_unused_key m').1 = .ok false :=
  ⟨⟨by decide, basic4_two_dead_reachable, by decide⟩,
    (C14_reclamation_terminates (by decide) basic4_two_dead_reachable).2.2 3 (by decide)⟩

/-- C15: for `n <= max_size()`, `prepare_keys_for_insertion(n)` succeeds and makes `keys_size()`
the maximum of the old `keys_size()` and `n`, being a no-op when the old `keys_size()` is at least
`n`; `size()`, the values and the index entries (with their persistent data) of the existing keys
are unchanged; every new key `i` is dead, passes `contains_relaxed`, and is self-mapped in both
relaxed tables. -/
theorem C15_prepare_keys_for_insertion [Inhabited π] {w : Nat} {ops : MoveOps α}
    (hw : w ≤ 64) {m : IndexMap α π} (h : Reachable w ops m) {n : Nat}
    (hn : n ≤ max_size w) :
    (prepare_keys_for_insertion w m n).1 = .ok () ∧
    keys_size (prepare_keys_for_insertion w m n).2 = max (keys_size m) n ∧
    (n ≤ keys_size m → (prepare_keys_for_insertion w m n).2 = m) ∧
    size (prepare_keys_for_insertion w m n).2 = size m ∧
    (prepare_keys_for_insertion w m n).2.value_storage = m.value_storage ∧
    (∀ k, k < keys_size m →
      (prepare_keys_for_insertion w m n).2.indices[k]? = m.indices[k]? ∧
      contains (prepare_keys_for_insertion w m n).2 k = contains m k ∧
      key_to_index_relaxed (prepare_keys_for_insertion w m n).2 k = key_to_index_relaxed m k ∧
      index_to_key_relaxed (prepare_keys_for_insertion w m n).2 k = index_to_key_relaxed m k ∧
      get_persistent_data (prepare_keys_for_insertion w m n).2 k = get_persistent_data m k) ∧
    (∀ i, keys_size m ≤ i → i < n →
      contains (prepare_keys_for_insertion w m n).2 i = false ∧
      contains_relaxed (prepare_keys_for_insertion w m n).2 i = true ∧
      key_to_index_relaxed (prepare_keys_for_insertion w m n).2 i = .ok i ∧
      index_to_key_relaxed (prepare_keys_for_insertion w m n).2 i = .ok i) := by
  have hwf := h.wf hw
  by_cases hle : n ≤ keys_size m
  · rw [prepare_noop w hle]
    refine ⟨rfl, (Nat.max_eq_left hle).symm, fun _ => rfl, rfl, rfl,
      fun k _ => ⟨rfl, rfl, rfl, rfl, rfl⟩, fun i h1 h2 => by omega⟩
  · obtain ⟨m', e, hp, -⟩ := prepare_grow hwf (Nat.lt_of_not_le hle) hn
    rw [e]
    dsimp only
    have hsz : size m' = size m := by
      unfold size
      rw [hp.vals_eq]
    refine ⟨rfl, ?_, fun hc => absurd hc hle, hsz, hp.vals_eq, ?_, ?_⟩
    · rw [hp.keys_eq]
      exact (Nat.max_eq_right (Nat.le_of_not_le hle)).symm
    · intro k hk
      have hs : sd m'.indices k = sd m.indices k := by rw [hp.sd_eq, if_pos hk]
      have hd : ds m'.indices k = ds m.indices k := by rw [hp.ds_eq, if_pos hk]
      have hq : pd m'.indices k = pd m.indices k := by rw [hp.pd_eq, if_pos hk]
      refine ⟨entry_eq_of_columns hs hd hq, contains_congr hs hsz, ?_, ?_,
        get_persistent_data_congr hq⟩
      · rw [key_to_index_relaxed_eq, key_to_index_relaxed_eq, hs]
      · rw [index_to_key_relaxed_eq, index_to_key_relaxed_eq, hd]
    · intro i hi hin
      have hs : sd m'.indices i = some i := by
        rw [hp.sd_eq, if_neg (by omega), if_pos hin]
      have hd : ds m'.indices i = some i := by
        rw [hp.ds_eq, if_neg (by omega), if_pos hin]
      refine ⟨not_contains_of_sd hs ?_, ?_, key_to_index_relaxed_of_sd hs,
        index_to_key_relaxed_of_ds hd⟩
      · rw [hsz]
        exact Nat.le_trans hwf.size_le hi
      · unfold contains_relaxed
        simp [sd_some_lt hs]

/-- C15 at the map of `basic_checks` after `erase(k1)` (four keys), growing the key table to 6. -/
theorem C15_prepare_keys_for_insertion_witness :
    (32 ≤ 64 ∧ Reachable 32 (MoveOps.trivial Nat) basic4_erased ∧ 6 ≤ max_size 32) ∧
    keys_size (prepare_keys_for_insertion 32 basic4_erased 6).2 =
      max (keys_size basic4_erased) 6 ∧
    (contains (prepare_keys_for_insertion 32 basic4_erased 6).2 3 = contains basic4_erased 3 ∧
      key_to_index_relaxed (prepare_keys_for_insertion 32 basic4_erased 6).2 3 =
        key_to_index_relaxed basic4_erased 3) ∧
    (contains (prepare_keys_for_insertion 32 basic4_erased 6).2 5 = false ∧
      contains_relaxed (prepare_keys_for_insertion 32 basic4_erased 6).2 5 = true ∧
      key_to_index_relaxed (prepare_keys_for_insertion 32 basic4_erased 6).2 5 = .ok 5 ∧
      index_to_key_relaxed (prepare_keys_for_insertion 32 basic4_erased 6).2 5 = .ok 5) :=
  ⟨⟨by decide, basic4_erased_reachable, by decide⟩,
    (C15_prepare_keys_for_insertion (by decide) basic4_erased_reachable (n := 6)
      (by decide)).2.1,
    ⟨((C15_prepare_keys_for_insertion (by decide) basic4_erased_reachable (n := 6)
      (by decide)).2.2.2.2.2.1 3 (by decide)).2.1,
     ((C15_prepare_keys_for_insertion (by decide) basic4_erased_reachable (n := 6)
      (by decide)).2.2.2.2.2.1 3 (by decide)).2.2.1⟩,
    (C15_prepare_keys_for_insertion (by decide) basic4_erased_reachable (n := 6)
      (by decide)).2.2.2.2.2.2 5 (by decide) (by decide)⟩

/-- C16: on a reachable map `prepare_keys_for_insertion(n)` with `n > max_size()` throws
`out_of_range("Index map would be too large.")` and leaves the map as it was. -/
theorem C16_prepare_keys_too_large [Inhabited π] {w : Nat} {ops : MoveOps α} (hw : w ≤ 64)
    {m : IndexMap α π} (h : Reachable w ops m) {n : Nat} (hn : max_size w < n) :
    prepare_keys_for_insertion w m n = (.error .would_be_too_large, m) ∧
    Error.would_be_too_large.what = "Index map would be too large." ∧
    keys_size (prepare_keys_for_insertion w m n).2 = keys_size m := by
  have hk := (h.wf hw).keys_le
  have e : prepare_keys_for_insertion w m n = (.error .would_be_too_large, m) :=
    prepare_fail (by omega) hn
  refine ⟨e, rfl, ?_⟩
  rw [e]

/-- C16 at a map of an 8-bit key type holding three elements, asked for 257 keys. -/
theorem C16_prepare_keys_too_large_witness :
    (8 ≤ 64 ∧ Reachable 8 (MoveOps.trivial Nat) (filled 8 3) ∧ max_size 8 < 257) ∧
    prepare_keys_for_insertion 8 (filled 8 3) 257 = (.error .would_be_too_large, filled 8 3) :=
  ⟨⟨by decide, filled_reachable 8 3, by decide⟩,
    (C16_prepare_keys_too_large (by decide) (filled_reachable 8 3) (by decide)).1⟩

/-- C17: the persistent data of every issued key `k < keys_size()` is the same after `erase` of
any key or index (the key `k` itself included), after `emplace`/`insert` (one that reuses the
dead key `k` included), after `swap_elems` and after `move_elem`. -/
theorem C17_persistent_data_stays_with_key [Inhabited π] {w : Nat} {ops : MoveOps α}
    (hw : w ≤ 64) {m : IndexMap α π} (h : Reachable w ops m) {k : Nat}
    (hk : k < keys_size m) :
    (∀ k', get_persistent_data (erase ops m k').2 k = get_persistent_data m k) ∧
    (∀ i, get_persistent_data (erase_index ops m i).2 k = get_persistent_data m k) ∧
    (∀ v, get_persistent_data (emplace w m v).2 k = get_persistent_data m k) ∧
    (∀ i j, i < size m → j < size m →
      get_persistent_data (swap_elems m i j).2 k = get_persistent_data m k) ∧
    (∀ i j, i < size m → j < size m →
      get_persistent_data (move_elem ops m i j).2 k = get_persistent_data m k) := by
  have hwf := h.wf hw
  refine ⟨?_, ?_, ?_, ?_, ?_⟩
  · intro k'
    exact get_persistent_data_congr (erase_pd ops hw hwf k' k)
  · intro i
    exact get_persistent_data_congr (erase_index_pd ops hw hwf i k)
  · intro v
    exact get_persistent_data_congr (emplace_pd hw hwf v hk)
  · intro i j hi hj
    obtain ⟨ki, kj, m', -, -, e, hs, -, -⟩ := swap_elems_ok hwf hi hj
    rw [e]
    exact get_persistent_data_congr (hs.pd_eq k)
  · intro i j hi hj
    obtain ⟨ki, kj, m', -, -, e, hs, -, -⟩ := move_elem_ok ops hwf hi hj
    rw [e]
    exact get_persistent_data_congr (hs.pd_eq k)

/-- C17 at the map of `persistent_data_checks` after `erase(i1.key)`, `emplace(21)`,
`erase(i2.key)`: the dead key 2 has payload 300, the live key 1 has payload 200; erasing key 1,
reusing key 2 by an insertion, and swapping or moving dense indices 0 and 2 keep them. -/
theorem C17_persistent_data_stays_with_key_witness :
    (32 ≤ 64 ∧ Reachable 32 (MoveOps.trivial Nat) pdata4_churned ∧
      2 < keys_size pdata4_churned ∧ get_persistent_data pdata4_churned 2 = .ok 300 ∧
      get_persistent_data pdata4_churned 1 = .ok 200) ∧
    get_persistent_data (erase (MoveOps.trivial Nat) pdata4_churned 1).2 1 =
      get_persistent_data pdata4_churned 1 ∧
    ((∃ r, (emplace 32 pdata4_churned 3000).1 = .ok r ∧ r.key = 2) ∧
      get_persistent_data (emplace 32 pdata4_churned 3000).2 2 =
        get_persistent_data pdata4_churned 2) ∧
    get_persistent_data (swap_elems pdata4_churned 0 2).2 2 =
      get_persistent_data pdata4_churned 2 ∧
    get_persistent_data (move_elem (MoveOps.trivial Nat) pdata4_churned 0 2).2 2 =
      get_persistent_data pdata4_churned 2 :=
  ⟨⟨by decide, pdata4_churned_reachable, by decide, rfl, rfl⟩,
    (C17_persistent_data_stays_with_key (by decide) pdata4_churned_reachable (k := 1)
      (by decide)).1 1,
    ⟨⟨_, rfl, rfl⟩, (C17_persistent_data_stays_with_key (by decide) pdata4_churned_reachable (k := 2)
      (by decide)).2.2.1 3000⟩,
    (C17_persistent_data_stays_with_key (by decide) pdata4_churned_reachable (k := 2)
      (by decide)).2.2.2.1 0 2 (by decide) (by decide),
    (C17_persistent_data_stays_with_key (by decide) pdata4_churned_reachable (k := 2)
      (by decide)).2.2.2.2 0 2 (by decide) (by decide)⟩

/-- C18: `get_persistent_data(key k)` succeeds exactly when `k < keys_size()`, which is
`contains_relaxed(k)`, so also for dead keys, and otherwise throws
`out_of_range("Invalid index map key.")`; `get_persistent_data(index i)` throws exactly when
`i >= size()` and otherwise returns `get_persistent_data(index_to_key(i))`. -/
theorem C18_get_persistent_data_validation [Inhabited π] {w : Nat} {ops : MoveOps α}
    (hw : w ≤ 64) {m : IndexMap α π} (h : Reachable w ops m) :
    (∀ k, ((∃ d, get_persistent_data m k = .ok d) ↔ k < keys_size m) ∧
      (contains_relaxed m k = true ↔ k < keys_size m) ∧
      (keys_size m ≤ k → get_persistent_data m k = .error .invalid_key)) ∧
    Error.invalid_key.what = "Invalid index map key." ∧
    (∀ i, ((∃ e, get_persistent_data_index m i = .error e) ↔ size m ≤ i) ∧
      (i < size m → ∃ k d, index_to_key m i = .ok k ∧ get_persistent_data m k = .ok d ∧
        get_persistent_data_index m i = .ok d)) := by
  have hwf := h.wf hw
  refine ⟨?_, rfl, ?_⟩
  · intro k
    refine ⟨⟨?_, ?_⟩, ?_, ?_⟩
    · rintro ⟨d, hd⟩
      by_contra hk
      rw [get_persistent_data_eq] at hd
      have : pd m.indices k = none := by
        unfold pd
        rw [List.getElem?_eq_none (Nat.le_of_not_lt hk)]
        rfl
      rw [this] at hd
      cases hd
    · intro hk
      obtain ⟨d, hd⟩ := pd_isSome (show k < m.indices.length from hk)
      exact ⟨d, by rw [get_persistent_data_eq, hd]⟩
    · unfold contains_relaxed keys_size
      simp
    · intro hk
      rw [get_persistent_data_eq]
      have : pd m.indices k = none := by
        unfold pd
        rw [List.getElem?_eq_none hk]
        rfl
      rw [this]
  · intro i
    by_cases hi : i < size m
    · obtain ⟨k, hk⟩ := ds_isSome (Nat.lt_of_lt_of_le hi hwf.size_le)
      obtain ⟨d, hd⟩ := pd_isSome (sd_some_lt (hwf.inv.2 _ _ hk))
      have e1 : index_to_key m i = .ok k := index_to_key_of_ds hk hi
      have e2 : get_persistent_data m k = .ok d := by rw [get_persistent_data_eq, hd]
      have e3 : get_persistent_data_index m i = .ok d := by
        unfold get_persistent_data_index
        rw [e1]
        exact e2
      refine ⟨⟨?_, fun hc => by omega⟩, fun _ => ⟨k, d, e1, e2, e3⟩⟩
      rintro ⟨e, he⟩
      rw [e3] at he
      cases he
    · have e1 : index_to_key m i = .error .invalid_index := by
        unfold index_to_key valid_index
        simp [hi]
      have e3 : get_persistent_data_index m i = .error .invalid_index := by
        unfold get_persistent_data_index
        rw [e1]
      exact ⟨⟨fun _ => Nat.le_of_not_lt hi, fun _ => ⟨_, e3⟩⟩, fun hc => absurd hc hi⟩

/-- C18 at the map of `persistent_data_checks` after `erase(i1.key)`, `emplace(21)`,
`erase(i2.key)`: the dead key 2 still has its payload, key 4 was never issued, dense index 1
holds key 3, and dense index 3 is out of range. -/
theorem C18_get_persistent_data_validation_witness :
    (32 ≤ 64 ∧ Reachable 32 (MoveOps.trivial Nat) pdata4_churned) ∧
    ((∃ d, get_persistent_data pdata4_churned 2 = .ok d) ↔ 2 < keys_size pdata4_churned) ∧
    get_persistent_data pdata4_churned 4 = .error .invalid_key ∧
    ((∃ e, get_persistent_data_index pdata4_churned 3 = .error e) ↔
      size pdata4_churned ≤ 3) ∧
    (∃ k d, index_to_key pdata4_churned 1 = .ok k ∧ get_persistent_data pdata4_churned k = .ok d ∧
      get_persistent_data_index pdata4_churned 1 = .ok d) :=
  ⟨⟨by decide, pdata4_churned_reachable⟩,
    ((C18_get_persistent_data_validation (by decide) pdata4_churned_reachable).1 2).1,
    ((C18_get_persistent_data_validation (by decide) pdata4_churned_reachable).1 4).2.2
      (by decide),
    ((C18_get_persistent_data_validation (by decide) pdata4_churned_reachable).2.2 3).1,
    ((C18_get_persistent_data_validation (by decide) pdata4_churned_reachable).2.2 1).2
      (by decide)⟩

/-- C19 (capacity boundary): on every map with `size() == max_size()`, reachable ones included,
`emplace`/`insert` throws `out_of_range("Index map is too large.")` without appending the value;
the map is unchanged and `size() == max_size()` still holds. -/
theorem C19_emplace_at_capacity [Inhabited π] (w : Nat) (m : IndexMap α π) (v : α)
    (hfull : size m = max_size w) :
    emplace w m v = (.error .too_large, m) ∧
    Error.too_large.what = "Index map is too large." ∧
    (emplace w m v).2.value_storage = m.value_storage ∧
    size (emplace w m v).2 = max_size w := by
  have e : emplace w m v = (.error .too_large, m) := emplace_fail v (Nat.le_of_eq hfull.symm)
  refine ⟨e, rfl, ?_, ?_⟩
  · rw [e]
  · rw [e]
    exact hfull

/-- C19 for an 8-bit key type: the map holding 256 elements rejects the 257th. -/
theorem C19_emplace_at_capacity_witness :
    (Reachable 8 (MoveOps.trivial Nat) (filled 8 256) ∧ size (filled 8 256) = max_size 8) ∧
    emplace 8 (filled 8 256) 7 = (.error .too_large, filled 8 256) ∧
    size (emplace 8 (filled 8 256) 7).2 = 256 :=
  ⟨⟨filled_reachable 8 256, (filled_sizes (w := 8) (by decide) 256 (by decide)).1⟩,
    (C19_emplace_at_capacity 8 (filled 8 256) 7
      (filled_sizes (w := 8) (by decide) 256 (by decide)).1).1,
    (C19_emplace_at_capacity 8 (filled 8 256) 7
      (filled_sizes (w := 8) (by decide) 256 (by decide)).1).2.2.2⟩

/-- C20: `max_size()` is `numeric_limits<KeyType>::max() + 1 = 2^w` for a key type of `w < 64`
bits (256 for `unsigned char`) and `numeric_limits<std::size_t>::max() = 2^64 - 1` for a 64-bit
key type; the sum fits `std::size_t`, so computing it modulo `2^64` changes nothing. -/
theorem C20_max_size_value (w : Nat) :
    (w < 64 → max_size w = (2 ^ w - 1) + 1 ∧ max_size w = 2 ^ w) ∧
    max_size 8 = 256 ∧
    max_size 64 = 2 ^ 64 - 1 ∧
    (w ≤ 64 → max_size w < 2 ^ 64 ∧
      ((2 ^ w - 1) + (if w < 64 then 1 else 0)) % 2 ^ 64 = max_size w) := by
  refine ⟨?_, by decide, by decide, ?_⟩
  · intro hw
    have hpos : 0 < 2 ^ w := Nat.pow_pos (by decide)
    unfold max_size
    rw [if_pos hw]
    exact ⟨rfl, by omega⟩
  · intro hw
    have hlt := max_size_lt_size_range hw
    refine ⟨hlt, ?_⟩
    show (max_size w) % 2 ^ 64 = max_size w
    exact Nat.mod_eq_of_lt hlt

/-- C20 for the key types of the tests: `unsigned char`, `unsigned int` and a 64-bit key. -/
theorem C20_max_size_value_witness :
    ((8 < 64 ∧ 32 < 64) ∧ 64 ≤ 64) ∧
    max_size 8 = 2 ^ 8 ∧ max_size 32 = 2 ^ 32 ∧ max_size 64 < 2 ^ 64 :=
  ⟨⟨⟨by decide, by decide⟩, by decide⟩, ((C20_max_size_value 8).1 (by decide)).2,
    ((C20_max_size_value 32).1 (by decide)).2, ((C20_max_size_value 64).2.2.2 (by decide)).1⟩

/-! ## Claims C21 to C30 -/

/-- C21: for valid dense indices `i` and `j`, `swap_elems(i, j)` (which is what `iter_swap` on the
key-value iterators calls) exchanges the values and the keys at `i` and `j`; every live key keeps
its value; every other dense position, `size()` and `keys_size()` are unchanged. -/
theorem C21_swap_elems_exchanges [Inhabited π] {w : Nat} {ops : MoveOps α} (hw : w ≤ 64)
    {m : IndexMap α π} (h : Reachable w ops m) {i j : Nat} (hi : i < size m)
    (hj : j < size m) :
    (swap_elems m i j).1 = .ok () ∧
    iter_swap m (keys_and_values_begin.add i) (keys_and_values_begin.add j) = swap_elems m i j ∧
    size (swap_elems m i j).2 = size m ∧ keys_size (swap_elems m i j).2 = keys_size m ∧
    (∃ vi vj ki kj, at_index m i = .ok vi ∧ at_index m j = .ok vj ∧
      index_to_key m i = .ok ki ∧ index_to_key m j = .ok kj ∧
      at_index (swap_elems m i j).2 i = .ok vj ∧ at_index (swap_elems m i j).2 j = .ok vi ∧
      index_to_key (swap_elems m i j).2 i = .ok kj ∧
      index_to_key (swap_elems m i j).2 j = .ok ki) ∧
    (∀ k v, at_key m k = .ok v → at_key (swap_elems m i j).2 k = .ok v) ∧
    (∀ t, t ≠ i → t ≠ j → at_index (swap_elems m i j).2 t = at_index m t ∧
      index_to_key (swap_elems m i j).2 t = index_to_key m t) := by
  have hwf := h.wf hw
  have hlt := hwf.size_lt hw
  obtain ⟨ki, kj, m', hki, hkj, e, hs, hv, -⟩ := swap_elems_ok hwf hi hj
  obtain ⟨vi, hvi⟩ := value_isSome hi
  obtain ⟨vj, hvj⟩ := value_isSome hj
  have hz := hs.size_eq
  have hi' : i < size m' := by omega
  have hj' : j < size m' := by omega
  rw [e]
  dsimp only
  refine ⟨rfl, ?_, hz, hs.keys_eq, ?_, ?_, ?_⟩
  · unfold iter_swap
    rw [keys_and_values_begin_add (by omega), keys_and_values_begin_add (by omega), e]
  · refine ⟨vi, vj, ki, kj, at_index_of_get hvi, at_index_of_get hvj,
      index_to_key_of_ds hki hi, index_to_key_of_ds hkj hj, ?_, ?_, ?_, ?_⟩
    · apply at_index_of_get
      rw [hv]
      by_cases hij : i = j
      · rw [if_pos hij, hij]
        exact hvj
      · rw [if_neg hij, if_pos rfl, hvj]
    · apply at_index_of_get
      rw [hv, if_pos rfl, hvi]
    · apply index_to_key_of_ds _ hi'
      rw [hs.ds_eq]
      by_cases hij : i = j
      · rw [if_pos hij]
        rw [hij] at hki
        rw [hki] at hkj
        exact hkj
      · rw [if_neg hij, if_pos rfl]
    · apply index_to_key_of_ds _ hj'
      rw [hs.ds_eq, if_pos rfl]
  · intro k v hkv
    obtain ⟨t, hkt, hvt⟩ := (at_key_ok_iff m k v).1 hkv
    apply at_key_of_sd (hs.key_position hwf hki hkj hkt)
    rw [hv]
    by_cases h1 : t = j
    · rw [if_pos h1]
      by_cases hij : i = j
      · rw [if_pos hij, ← hvt, h1, hij]
      · rw [if_neg hij, if_pos rfl, ← hvt, h1]
    · rw [if_neg h1]
      by_cases h2 : t = i
      · rw [if_pos h2, if_pos rfl, ← hvt, h2]
      · rw [if_neg h2, if_neg h1, if_neg h2]
        exact hvt
  · intro t hti htj
    refine ⟨at_index_congr hz ?_, index_to_key_congr hz ?_⟩
    · rw [hv, if_neg htj, if_neg hti]
    · rw [hs.ds_eq, if_neg htj, if_neg hti]

/-- C21 at the map of `key_value_range_advanced_checks` (keys 0, 3, 1, 2 holding 10, 40, 21, 31):
swapping dense indices 0 and 2 exchanges 10 and 21 and their keys, and key 0 still holds 10. -/
theorem C21_swap_elems_exchanges_witness :
    (32 ≤ 64 ∧ Reachable 32 (MoveOps.trivial Nat) advanced4 ∧ 0 < size advanced4 ∧
      2 < size advanced4) ∧
    (swap_elems advanced4 0 2).1 = .ok () ∧
    (∃ vi vj ki kj, at_index advanced4 0 = .ok vi ∧ at_index advanced4 2 = .ok vj ∧
      index_to_key advanced4 0 = .ok ki ∧ index_to_key advanced4 2 = .ok kj ∧
      at_index (swap_elems advanced4 0 2).2 0 = .ok vj ∧
      at_index (swap_elems advanced4 0 2).2 2 = .ok vi ∧
      index_to_key (swap_elems advanced4 0 2).2 0 = .ok kj ∧
      index_to_key (swap_elems advanced4 0 2).2 2 = .ok ki) ∧
    at_key (swap_elems advanced4 0 2).2 0 = .ok 10 :=
  ⟨⟨by decide, advanced4_reachable, by decide, by decide⟩,
    (C21_swap_elems_exchanges (by decide) advanced4_reachable (i := 0) (j := 2) (by decide)
      (by decide)).1,
    (C21_swap_elems_exchanges (by decide) advanced4_reachable (i := 0) (j := 2) (by decide)
      (by decide)).2.2.2.2.1,
    (C21_swap_elems_exchanges (by decide) advanced4_reachable (i := 0) (j := 2) (by decide)
      (by decide)).2.2.2.2.2.1 0 10 rfl⟩

/-- C22: for valid dense indices `from != to`, `move_elem(from, to)` (which is what the assignment
`kv[to] = iter_move(kv.begin() + from)` calls) moves the element with its key: the key that was
at `from` is at `to` with the value that was at `from`, the key that was at `to` is at `from`
(with the moved-from value), and every other dense position keeps its key and value. -/
theorem C22_move_elem_moves_key [Inhabited π] {w : Nat} {ops : MoveOps α} (hw : w ≤ 64)
    {m : IndexMap α π} (h : Reachable w ops m) {from_i to_i : Nat} (hf : from_i < size m)
    (ht : to_i < size m) (hne : from_i ≠ to_i) :
    (move_elem ops m from_i to_i).1 = .ok () ∧
    KeyValueRef.assign ops m (keys_and_values_at to_i)
      (iter_move (keys_and_values_begin.add from_i)) = move_elem ops m from_i to_i ∧
    size (move_elem ops m from_i to_i).2 = size m ∧
    keys_size (move_elem ops m from_i to_i).2 = keys_size m ∧
    (∃ v kf kt, at_index m from_i = .ok v ∧ index_to_key m from_i = .ok kf ∧
      index_to_key m to_i = .ok kt ∧
      index_to_key (move_elem ops m from_i to_i).2 to_i = .ok kf ∧
      index_to_key (move_elem ops m from_i to_i).2 from_i = .ok kt ∧
      at_index (move_elem ops m from_i to_i).2 to_i = .ok v ∧
      at_key (move_elem ops m from_i to_i).2 kf = .ok v ∧
      at_index (move_elem ops m from_i to_i).2 from_i = .ok (ops.moved_from v)) ∧
    (∀ t, t ≠ from_i → t ≠ to_i →
      at_index (move_elem ops m from_i to_i).2 t = at_index m t ∧
      index_to_key (move_elem ops m from_i to_i).2 t = index_to_key m t) := by
  have hwf := h.wf hw
  have hlt := hwf.size_lt hw
  have hsrc := move_elem_src ops hwf hf ht hne
  obtain ⟨kf, kt, m', hkf, hkt, e, hs, hv, -⟩ := move_elem_ok ops hwf hf ht
  obtain ⟨v, hvf⟩ := value_isSome hf
  have hz := hs.size_eq
  have hf' : from_i < size m' := by omega
  have ht' : to_i < size m' := by omega
  rw [e] at hsrc ⊢
  dsimp only at hsrc ⊢
  have hvt : m'.value_storage[to_i]? = some v := by
    rw [hv to_i (Ne.symm hne), if_pos rfl, hvf]
  have hdt : ds m'.indices to_i = some kf := by
    rw [hs.ds_eq, if_pos rfl]
  have hskf : sd m'.indices kf = some to_i := by
    rw [hs.sd_eq]
    by_cases hc : kf = kt
    · exact absurd (ds_injective hwf.inv hkf (hc ▸ hkt)) hne
    · rw [if_neg hc, if_pos rfl]
  refine ⟨rfl, ?_, hz, hs.keys_eq, ?_, ?_⟩
  · unfold KeyValueRef.assign iter_move
    rw [keys_and_values_begin_add (by omega), keys_and_values_at_eq (by omega), e]
  · refine ⟨v, kf, kt, at_index_of_get hvf, index_to_key_of_ds hkf hf,
      index_to_key_of_ds hkt ht, index_to_key_of_ds hdt ht', ?_, at_index_of_get hvt,
      at_key_of_sd hskf hvt, ?_⟩
    · apply index_to_key_of_ds _ hf'
      rw [hs.ds_eq, if_neg hne, if_pos rfl]
    · apply at_index_of_get
      rw [hsrc, hvf]
      rfl
  · intro t htf htt
    refine ⟨at_index_congr hz ?_, index_to_key_congr hz ?_⟩
    · rw [hv t htf, if_neg htt]
    · rw [hs.ds_eq, if_neg htt, if_neg htf]

/-- C22 at the map of `key_value_range_advanced_checks` (keys 0, 3, 1, 2 holding 10, 40, 21, 31):
moving dense index 2 to dense index 0 puts key 1 with its value 21 at index 0. -/
theorem C22_move_elem_moves_key_witness :
    (32 ≤ 64 ∧ Reachable 32 (MoveOps.trivial Nat) advanced4 ∧ 2 < size advanced4 ∧
      0 < size advanced4 ∧ 2 ≠ 0) ∧
    (move_elem (MoveOps.trivial Nat) advanced4 2 0).1 = .ok () ∧
    (∃ v kf kt, at_index advanced4 2 = .ok v ∧ index_to_key advanced4 2 = .ok kf ∧
      index_to_key advanced4 0 = .ok kt ∧
      index_to_key (move_elem (MoveOps.trivial Nat) advanced4 2 0).2 0 = .ok kf ∧
      index_to_key (move_elem (MoveOps.trivial Nat) advanced4 2 0).2 2 = .ok kt ∧
      at_index (move_elem (MoveOps.trivial Nat) advanced4 2 0).2 0 = .ok v ∧
      at_key (move_elem (MoveOps.trivial Nat) advanced4 2 0).2 kf = .ok v) ∧
    at_index (move_elem (MoveOps.trivial Nat) advanced4 2 0).2 1 = at_index advanced4 1 :=
  ⟨⟨by decide, advanced4_reachable, by decide, by decide, by decide⟩,
    (C22_move_elem_moves_key (by decide) advanced4_reachable (by decide) (by decide)
      (by decide)).1,
    (C22_move_elem_moves_key (by decide) advanced4_reachable (by decide) (by decide)
      (by decide)).2.2.2.2.1.imp (fun _ hv => hv.imp (fun _ hf => hf.imp (fun _ ht =>
        ⟨ht.1, ht.2.1, ht.2.2.1, ht.2.2.2.1, ht.2.2.2.2.1, ht.2.2.2.2.2.1,
          ht.2.2.2.2.2.2.1⟩))),
    ((C22_move_elem_moves_key (by decide) advanced4_reachable (by decide) (by decide)
      (by decide)).2.2.2.2.2 1 (by decide) (by decide)).1⟩

/-- C23: on a reachable map `erase_if(m.values(), p)` returns, and returns the number of elements
that satisfied `p`; `size()` has dropped by that number, no remaining element satisfies `p`, every
key whose value did not satisfy `p` is still live with the same value, and every key whose value
satisfied `p` is dead.  `erase_if(m.keys_and_values(), ...)` with `p` applied to `.value()` is the
same call, and `erase(m.values(), x)` is the call with `p = (elem == x)`. -/
theorem C23_erase_if_removes_exactly [Inhabited π] [DecidableEq α] {w : Nat} {ops : MoveOps α}
    (hw : w ≤ 64) {m : IndexMap α π} (h : Reachable w ops m) (p : α → Bool) :
    (erase_if_values ops p m).1 = .ok (m.value_storage.countP p) ∧
    size (erase_if_values ops p m).2 + m.value_storage.countP p = size m ∧
    keys_size (erase_if_values ops p m).2 = keys_size m ∧
    (∀ i v, at_index (erase_if_values ops p m).2 i = .ok v → p v = false) ∧
    (∀ k v, at_key m k = .ok v → p v = false →
      contains (erase_if_values ops p m).2 k = true ∧
      at_key (erase_if_values ops p m).2 k = .ok v) ∧
    (∀ k v, at_key m k = .ok v → p v = true → contains (erase_if_values ops p m).2 k = false) ∧
    erase_if_keys_and_values ops (fun m r => (KeyValueRef.value m r).map p) m =
      erase_if_values ops p m ∧
    (∀ x, erase_values ops m x = erase_if_values ops (fun elem => decide (elem = x)) m) := by
  have hwf := h.wf hw
  obtain ⟨m', e, -, hsz, hks, hcl, hkeep, hgone, -, -⟩ :=
    erase_if_values_loop_spec ops p hw (size m) m 0 hwf (Nat.le_refl _) (by
      intro i v hi hv
      have := (List.getElem?_eq_some_iff.1 hv).1
      unfold size at hi
      omega)
  have htake : m.value_storage.take (size m) = m.value_storage := List.take_length _
  rw [htake, Nat.zero_add] at e
  rw [htake] at hsz
  have e' : erase_if_values ops p m = (.ok (m.value_storage.countP p), m') := e
  rw [e']
  dsimp only
  refine ⟨rfl, hsz, hks, ?_, ?_, hgone, ?_, fun x => rfl⟩
  · intro i v hv
    unfold at_index at hv
    by_cases hi : valid_index m' i = true
    · rw [if_pos hi] at hv
      cases hg : m'.value_storage[i]? with
      | none => simp [hg] at hv
      | some y =>
        simp [hg] at hv
        rw [← hv]
        exact hcl i y hg
    · rw [if_neg hi] at hv
      cases hv
  · intro k v hk hp
    have hk' := hkeep k v hk hp
    obtain ⟨i, hi, hvi⟩ := (at_key_ok_iff m' k v).1 hk'
    exact ⟨contains_of_sd hi (List.getElem?_eq_some_iff.1 hvi).1, hk'⟩
  · unfold erase_if_keys_and_values
    rw [erase_if_keys_and_values_loop_value ops p _ (fun _ _ => rfl) (size m) m 0
      (hwf.size_lt hw)]
    exact e'

/-- C23 at the map of `nonmember_erase_checks` (keys 0, 3, 1, 2 holding 10, 40, 21, 31) with the
predicate `x == 21`: one element is erased, and key 2 keeps its value 31. -/
theorem C23_erase_if_removes_exactly_witness :
    (32 ≤ 64 ∧ Reachable 32 (MoveOps.trivial Nat) advanced4) ∧
    (erase_if_values (MoveOps.trivial Nat) (fun x => decide (x = 21)) advanced4).1 =
      .ok (advanced4.value_storage.countP (fun x => decide (x = 21))) ∧
    advanced4.value_storage.countP (fun x => decide (x = 21)) = 1 ∧
    (contains (erase_if_values (MoveOps.trivial Nat) (fun x => decide (x = 21)) advanced4).2 2
        = true ∧
      at_key (erase_if_values (MoveOps.trivial Nat) (fun x => decide (x = 21)) advanced4).2 2
        = .ok 31) ∧
    contains (erase_if_values (MoveOps.trivial Nat) (fun x => decide (x = 21)) advanced4).2 1
      = false :=
  ⟨⟨by decide, advanced4_reachable⟩,
    (C23_erase_if_removes_exactly (by decide) advanced4_reachable
      (fun x => decide (x = 21))).1,
    by decide,
    (C23_erase_if_removes_exactly (by decide) advanced4_reachable
      (fun x => decide (x = 21))).2.2.2.2.1 2 31 rfl (by decide),
    (C23_erase_if_removes_exactly (by decide) advanced4_reachable
      (fun x => decide (x = 21))).2.2.2.2.2.1 1 21 rfl (by decide)⟩

/-- C24: on a reachable map `key_to_index(k)` throws exactly when `contains(k)` is false, then
`out_of_range("Invalid index map key.")`, and otherwise returns a dense index below `size()`;
`index_to_key(i)` throws exactly when `i >= size()`, then
`out_of_range("Invalid index map index.")`. -/
theorem C24_strict_lookup_validation [Inhabited π] {w : Nat} {ops : MoveOps α} (hw : w ≤ 64)
    {m : IndexMap α π} (h : Reachable w ops m) :
    (∀ k, ((∃ e, key_to_index m k = .error e) ↔ contains m k = false) ∧
      (contains m k = false → key_to_index m k = .error .invalid_key) ∧
      (contains m k = true → ∃ i, key_to_index m k = .ok i ∧ i < size m)) ∧
    (∀ i, ((∃ e, index_to_key m i = .error e) ↔ size m ≤ i) ∧
      (size m ≤ i → index_to_key m i = .error .invalid_index) ∧
      (i < size m → ∃ k, index_to_key m i = .ok k)) ∧
    Error.invalid_key.what = "Invalid index map key." ∧
    Error.invalid_index.what = "Invalid index map index." := by
  have hwf := h.wf hw
  refine ⟨?_, ?_, rfl, rfl⟩
  · intro k
    cases hc : contains m k
    · have e : key_to_index m k = .error .invalid_key := by
        unfold key_to_index
        rw [hc]
        rfl
      exact ⟨⟨fun _ => rfl, fun _ => ⟨_, e⟩⟩, fun _ => e, fun hf => Bool.noConfusion hf⟩
    · obtain ⟨i, hi, hlt⟩ := (contains_iff m k).1 hc
      have e := key_to_index_of_sd hi hlt
      refine ⟨⟨?_, fun hf => Bool.noConfusion hf⟩, fun hf => Bool.noConfusion hf,
        fun _ => ⟨i, e, hlt⟩⟩
      rintro ⟨e', he'⟩
      rw [e] at he'
      cases he'
  · intro i
    by_cases hi : i < size m
    · obtain ⟨k, hk⟩ := ds_isSome (Nat.lt_of_lt_of_le hi hwf.size_le)
      have e := index_to_key_of_ds hk hi
      refine ⟨⟨?_, fun hf => absurd hi (Nat.not_lt.2 hf)⟩,
        fun hf => absurd hi (Nat.not_lt.2 hf), fun _ => ⟨k, e⟩⟩
      rintro ⟨e', he'⟩
      rw [e] at he'
      cases he'
    · have e : index_to_key m i = .error .invalid_index := by
        unfold index_to_key valid_index
        simp [hi]
      exact ⟨⟨fun _ => Nat.le_of_not_lt hi, fun _ => ⟨_, e⟩⟩, fun _ => e,
        fun hf => absurd hf hi⟩

/-- C24 at the map of the exception checks of `test.cpp` after `erase(k1)`: key 1 is dead, key 3
is live, dense index 3 is out of range. -/
theorem C24_strict_lookup_validation_witness :
    (32 ≤ 64 ∧ Reachable 32 (MoveOps.trivial Nat) basic4_erased) ∧
    ((∃ e, key_to_index basic4_erased 1 = .error e) ↔ contains basic4_erased 1 = false) ∧
    key_to_index basic4_erased 1 = .error .invalid_key ∧
    (∃ i, key_to_index basic4_erased 3 = .ok i ∧ i < size basic4_erased) ∧
    index_to_key basic4_erased 3 = .error .invalid_index :=
  ⟨⟨by decide, basic4_erased_reachable⟩,
    ((C24_strict_lookup_validation (by decide) basic4_erased_reachable).1 1).1,
    ((C24_strict_lookup_validation (by decide) basic4_erased_reachable).1 1).2.1 (by decide),
    ((C24_strict_lookup_validation (by decide) basic4_erased_reachable).1 3).2.2 (by decide),
    ((C24_strict_lookup_validation (by decide) basic4_erased_reachable).2.1 3).2.1
      (by decide)⟩

/-- C25: on a reachable map `contains_relaxed(k)` holds exactly when `k < keys_size()`;
`key_to_index_relaxed(k)` throws exactly when `k >= keys_size()`, then
`out_of_range("Invalid index map key.")`, so it accepts dead keys; `index_to_key_relaxed(i)`
throws exactly when `i >= keys_size()`, then `out_of_range("Invalid index map index.")`; for a
live key and for a valid dense index the relaxed and the strict lookup return the same. -/
theorem C25_relaxed_lookup_validation [Inhabited π] {w : Nat} {ops : MoveOps α} (hw : w ≤ 64)
    {m : IndexMap α π} (h : Reachable w ops m) :
    (∀ k, (contains_relaxed m k = true ↔ k < keys_size m) ∧
      ((∃ e, key_to_index_relaxed m k = .error e) ↔ keys_size m ≤ k) ∧
      (keys_size m ≤ k → key_to_index_relaxed m k = .error .invalid_key) ∧
      (k < keys_size m → ∃ i, key_to_index_relaxed m k = .ok i) ∧
      (contains m k = true → key_to_index_relaxed m k = key_to_index m k)) ∧
    (∀ i, ((∃ e, index_to_key_relaxed m i = .error e) ↔ keys_size m ≤ i) ∧
      (keys_size m ≤ i → index_to_key_relaxed m i = .error .invalid_index) ∧
      (i < keys_size m → ∃ k, index_to_key_relaxed m i = .ok k) ∧
      (i < size m → index_to_key_relaxed m i = index_to_key m i)) ∧
    Error.invalid_key.what = "Invalid index map key." ∧
    Error.invalid_index.what = "Invalid index map index." := by
  have hwf := h.wf hw
  refine ⟨?_, ?_, rfl, rfl⟩
  · intro k
    by_cases hk : k < keys_size m
    · obtain ⟨i, hi⟩ := sd_isSome (show k < m.indices.length from hk)
      have e := key_to_index_relaxed_of_sd hi
      refine ⟨?_, ⟨?_, fun hf => absurd hk (Nat.not_lt.2 hf)⟩,
        fun hf => absurd hk (Nat.not_lt.2 hf), fun _ => ⟨i, e⟩, ?_⟩
      · unfold contains_relaxed keys_size
        simp
      · rintro ⟨e', he'⟩
        rw [e] at he'
        cases he'
      · intro hc
        obtain ⟨j, hj, hlt⟩ := (contains_iff m k).1 hc
        rw [key_to_index_relaxed_of_sd hj, key_to_index_of_sd hj hlt]
    · have hn : pd m.indices k = none ∧ sd m.indices k = none := by
        unfold pd sd
        rw [List.getElem?_eq_none (Nat.le_of_not_lt hk)]
        exact ⟨rfl, rfl⟩
      have e : key_to_index_relaxed m k = .error .invalid_key := by
        rw [key_to_index_relaxed_eq, hn.2]
      refine ⟨?_, ⟨fun _ => Nat.le_of_not_lt hk, fun _ => ⟨_, e⟩⟩, fun _ => e,
        fun hf => absurd hf hk, ?_⟩
      · unfold contains_relaxed keys_size
        simp
      · intro hc
        obtain ⟨j, hj, -⟩ := (contains_iff m k).1 hc
        exact absurd (sd_some_lt hj) hk
  · intro i
    by_cases hi : i < keys_size m
    · obtain ⟨k, hk⟩ := ds_isSome (show i < m.indices.length from hi)
      have e := index_to_key_relaxed_of_ds hk
      refine ⟨⟨?_, fun hf => absurd hi (Nat.not_lt.2 hf)⟩,
        fun hf => absurd hi (Nat.not_lt.2 hf), fun _ => ⟨k, e⟩, ?_⟩
      · rintro ⟨e', he'⟩
        rw [e] at he'
        cases he'
      · intro hlt
        rw [e, index_to_key_of_ds hk hlt]
    · have hn : ds m.indices i = none := by
        unfold ds
        rw [List.getElem?_eq_none (Nat.le_of_not_lt hi)]
        rfl
      have e : index_to_key_relaxed m i = .error .invalid_index := by
        rw [index_to_key_relaxed_eq, hn]
      refine ⟨⟨fun _ => Nat.le_of_not_lt hi, fun _ => ⟨_, e⟩⟩, fun _ => e,
        fun hf => absurd hf hi, ?_⟩
      intro hlt
      have := hwf.size_le
      omega

/-- C25 at the map of the exception checks of `test.cpp` after `erase(k1)`: the dead key 1 is
accepted by the relaxed lookup, key 4 and position 4 are rejected, and for the live key 3 both
lookups agree. -/
theorem C25_relaxed_lookup_validation_witness :
    (32 ≤ 64 ∧ Reachable 32 (MoveOps.trivial Nat) basic4_erased) ∧
    (contains_relaxed basic4_erased 1 = true ↔ 1 < keys_size basic4_erased) ∧
    (∃ i, key_to_index_relaxed basic4_erased 1 = .ok i) ∧
    key_to_index_relaxed basic4_erased 4 = .error .invalid_key ∧
    key_to_index_relaxed basic4_erased 3 = key_to_index basic4_erased 3 ∧
    index_to_key_relaxed basic4_erased 4 = .error .invalid_index :=
  ⟨⟨by decide, basic4_erased_reachable⟩,
    ((C25_relaxed_lookup_validation (by decide) basic4_erased_reachable).1 1).1,
    ((C25_relaxed_lookup_validation (by decide) basic4_erased_reachable).1 1).2.2.2.1
      (by decide),
    ((C25_relaxed_lookup_validation (by decide) basic4_erased_reachable).1 4).2.2.1
      (by decide),
    ((C25_relaxed_lookup_validation (by decide) basic4_erased_reachable).1 3).2.2.2.2
      (by decide),
    ((C25_relaxed_lookup_validation (by decide) basic4_erased_reachable).2.1 4).2.1
      (by decide)⟩

/-- C26: in every reachable state `contains(k)` holds if and only if some dense index
`i < size()` has `index_to_key(i) == k`, and the number of keys `k < keys_size()` with
`contains(k)` equals `size()`. -/
theorem C26_liveness_matches_dense_storage [Inhabited π] {w : Nat} {ops : MoveOps α}
    (hw : w ≤ 64) {m : IndexMap α π} (h : Reachable w ops m) :
    (∀ k, contains m k = true ↔ ∃ i, i < size m ∧ index_to_key m i = .ok k) ∧
    ((Finset.range (keys_size m)).filter (fun k => contains m k = true)).card = size m := by
  have hwf := h.wf hw
  refine ⟨?_, live_keys_card hwf⟩
  intro k
  constructor
  · intro hc
    obtain ⟨i, hi, hlt⟩ := (contains_iff m k).1 hc
    exact ⟨i, hlt, index_to_key_of_ds (hwf.inv.1 _ _ hi) hlt⟩
  · rintro ⟨i, hlt, hk⟩
    obtain ⟨k', hk'⟩ := ds_isSome (Nat.lt_of_lt_of_le hlt hwf.size_le)
    rw [index_to_key_of_ds hk' hlt] at hk
    have hkk : k' = k := Except.ok.inj hk
    rw [← hkk]
    exact (contains_iff m k').2 ⟨i, hwf.inv.2 _ _ hk', hlt⟩

/-- C26 at the map of the exception checks of `test.cpp` after `erase(k1)`: key 3 is live and
sits at dense index 1, and three of the four issued keys are live. -/
theorem C26_liveness_matches_dense_storage_witness :
    (32 ≤ 64 ∧ Reachable 32 (MoveOps.trivial Nat) basic4_erased) ∧
    (contains basic4_erased 3 = true ↔
      ∃ i, i < size basic4_erased ∧ index_to_key basic4_erased i = .ok 3) ∧
    ((Finset.range (keys_size basic4_erased)).filter
      (fun k => contains basic4_erased k = true)).card = size basic4_erased ∧
    size basic4_erased = 3 ∧ keys_size basic4_erased = 4 ∧
    index_to_key basic4_erased 1 = .ok 3 :=
  ⟨⟨by decide, basic4_erased_reachable⟩,
    (C26_liveness_matches_dense_storage (by decide) basic4_erased_reachable).1 3,
    (C26_liveness_matches_dense_storage (by decide) basic4_erased_reachable).2,
    by decide, by decide, rfl⟩

/-- C27: in every state reachable from the empty map by `emplace`/`insert`, `erase`,
`swap_elems`, `move_elem`, `prepare_keys_for_insertion`, `remove_unused_key`, `soft_clear` and
`clear`, failed calls included, `keys_size() >= size()`. -/
theorem C27_keys_size_ge_size [Inhabited π] {w : Nat} {ops : MoveOps α} (hw : w ≤ 64)
    {m : IndexMap α π} (h : Reachable w ops m) : size m ≤ keys_size m :=
  (h.wf hw).size_le

/-- C27 at the map of `test.cpp` after some deletions and insertions, and after one more
`erase`: four keys for four values, then four keys for three values. -/
theorem C27_keys_size_ge_size_witness :
    (32 ≤ 64 ∧ Reachable 32 (MoveOps.trivial Nat) advanced4) ∧
    size advanced4 ≤ keys_size advanced4 ∧
    size (erase (MoveOps.trivial Nat) advanced4 3).2 ≤
      keys_size (erase (MoveOps.trivial Nat) advanced4 3).2 ∧
    size (erase (MoveOps.trivial Nat) advanced4 3).2 = 3 ∧
    keys_size (erase (MoveOps.trivial Nat) advanced4 3).2 = 4 :=
  ⟨⟨by decide, advanced4_reachable⟩,
    C27_keys_size_ge_size (by decide) advanced4_reachable,
    C27_keys_size_ge_size (by decide) (.step_erase 3 advanced4_reachable),
    by decide, by decide⟩

/-- C28, as the spec states it, fails for `clear()`: the map with the four keys 0..3 is
reachable and has `keys_size() == 4`, and after `clear()` it has `keys_size() == 0`. -/
theorem C28_counterexample :
    Reachable 32 (MoveOps.trivial Nat) basic4 ∧ keys_size basic4 = 4 ∧
    keys_size (clear basic4) = 0 ∧ ¬ keys_size basic4 ≤ keys_size (clear basic4) :=
  ⟨basic4_reachable, by decide, by decide, by decide⟩

/-- C28, amended: `keys_size()` does not decrease in `emplace`/`insert`,
`insert_at`/`emplace_at`, `prepare_keys_for_insertion`, `erase` by key or by index,
`swap_elems`, `move_elem` and `soft_clear`, whether the call succeeds or throws; it stays the
same in all of them but `emplace`/`insert` and `prepare_keys_for_insertion`.  `clear()` is the
exception besides `remove_unused_key`: it sets `keys_size()` to 0. -/
theorem C28_keys_size_monotone [Inhabited π] (w : Nat) (ops : MoveOps α) (m : IndexMap α π) :
    (∀ v, keys_size m ≤ keys_size (emplace w m v).2) ∧
    (∀ k v, keys_size (insert_at m k v).2 = keys_size m) ∧
    (∀ n, keys_size m ≤ keys_size (prepare_keys_for_insertion w m n).2) ∧
    (∀ k, keys_size (erase ops m k).2 = keys_size m) ∧
    (∀ i, keys_size (erase_index ops m i).2 = keys_size m) ∧
    (∀ i j, keys_size (swap_elems m i j).2 = keys_size m) ∧
    (∀ i j, keys_size (move_elem ops m i j).2 = keys_size m) ∧
    keys_size (soft_clear m) = keys_size m ∧
    keys_size (clear m) = 0 :=
  ⟨emplace_keys_size w m, insert_at_keys_size m, prepare_keys_size w m, erase_keys_size ops m,
    erase_index_keys_size ops m, swap_elems_keys_size m, move_elem_keys_size ops m, rfl, rfl⟩

/-- C28 (amended) at the map of the exception checks of `test.cpp` after `erase(k1)`: an
insertion, an `insert_at` on the dead key, a reservation of six keys, an `erase`, a swap, a move
and `soft_clear()` do not shrink the key table of four keys. -/
theorem C28_keys_size_monotone_witness :
    keys_size basic4_erased ≤ keys_size (emplace 32 basic4_erased 50).2 ∧
    keys_size (insert_at basic4_erased 1 50).2 = keys_size basic4_erased ∧
    keys_size basic4_erased ≤ keys_size (prepare_keys_for_insertion 32 basic4_erased 6).2 ∧
    keys_size (erase (MoveOps.trivial Nat) basic4_erased 0).2 = keys_size basic4_erased ∧
    keys_size (swap_elems basic4_erased 0 2).2 = keys_size basic4_erased ∧
    keys_size (move_elem (MoveOps.trivial Nat) basic4_erased 0 2).2 = keys_size basic4_erased ∧
    keys_size (soft_clear basic4_erased) = keys_size basic4_erased ∧
    keys_size basic4_erased = 4 ∧
    keys_size (prepare_keys_for_insertion 32 basic4_erased 6).2 = 6 :=
  ⟨(C28_keys_size_monotone 32 (MoveOps.trivial Nat) basic4_erased).1 50,
    (C28_keys_size_monotone 32 (MoveOps.trivial Nat) basic4_erased).2.1 1 50,
    (C28_keys_size_monotone 32 (MoveOps.trivial Nat) basic4_erased).2.2.1 6,
    (C28_keys_size_monotone 32 (MoveOps.trivial Nat) basic4_erased).2.2.2.1 0,
    (C28_keys_size_monotone 32 (MoveOps.trivial Nat) basic4_erased).2.2.2.2.2.1 0 2,
    (C28_keys_size_monotone 32 (MoveOps.trivial Nat) basic4_erased).2.2.2.2.2.2.1 0 2,
    (C28_keys_size_monotone 32 (MoveOps.trivial Nat) basic4_erased).2.2.2.2.2.2.2.1,
    by decide, by decide⟩

/-- C29: after `clear()` the map has `size() == 0` and `keys_size() == 0`, no key passes
`contains_relaxed` or has persistent data, and the next `emplace` returns key 0 at dense index 0
and makes it live. -/
theorem C29_clear_resets_everything [Inhabited π] (w : Nat) (m : IndexMap α π) :
    size (clear m) = 0 ∧ keys_size (clear m) = 0 ∧
    (∀ k, contains_relaxed (clear m) k = false ∧ contains (clear m) k = false ∧
      get_persistent_data (clear m) k = .error .invalid_key) ∧
    (∀ v, (emplace w (clear m) v).1 = .ok ⟨0, 0, 0⟩ ∧
      contains (emplace w (clear m) v).2 0 = true ∧
      at_key (emplace w (clear m) v).2 0 = .ok v ∧
      size (emplace w (clear m) v).2 = 1 ∧ keys_size (emplace w (clear m) v).2 = 1) := by
  have hmax : ¬ max_size w ≤ 0 := by
    unfold max_size
    split
    · omega
    · have : 1 < 2 ^ w := Nat.one_lt_two_pow (by omega)
      omega
  have hemp : ∀ v : α, emplace w (clear m) v =
      (.ok ⟨0, 0, 0⟩, (⟨[⟨0, 0, default⟩], [v]⟩ : IndexMap α π)) := by
    intro v
    unfold emplace
    rw [if_neg (by simpa [size, clear] using hmax)]
    unfold add_key_for_inserted_value
    have h1 : size (emplace_back (clear m) v) = 1 := rfl
    have h2 : (emplace_back (clear m) v).indices = [] := rfl
    have h3 : size_pred 1 = 0 := size_pred_eq (by omega) (by norm_num)
    have h4 : to_key w 0 = 0 := Nat.zero_mod _
    rw [h1, h2, List.length_nil, if_neg (by omega)]
    dsimp only
    rw [h3, h4]
    rfl
  refine ⟨rfl, rfl, fun k => ⟨rfl, rfl, rfl⟩, fun v => ?_⟩
  rw [hemp v]
  exact ⟨rfl, rfl, rfl, rfl, rfl⟩

/-- C29 at the map with the four keys 0..3, as in `clear_checks` of `test.cpp`: after `clear()`
nothing is left, key 3 no longer passes `contains_relaxed`, and the next insertion gets key 0. -/
theorem C29_clear_resets_everything_witness :
    size (clear basic4) = 0 ∧ keys_size (clear basic4) = 0 ∧
    contains_relaxed basic4 3 = true ∧ contains_relaxed (clear basic4) 3 = false ∧
    (emplace 32 (clear basic4) 50).1 = .ok ⟨0, 0, 0⟩ ∧
    contains (emplace 32 (clear basic4) 50).2 0 = true :=
  ⟨(C29_clear_resets_everything 32 basic4).1, (C29_clear_resets_everything 32 basic4).2.1,
    by decide, ((C29_clear_resets_everything 32 basic4).2.2.1 3).1,
    ((C29_clear_resets_everything 32 basic4).2.2.2 50).1,
    ((C29_clear_resets_everything 32 basic4).2.2.2 50).2.1⟩

/-- C30: after `soft_clear()` the map has `size() == 0` and the same `keys_size()`; every key
`k < keys_size()` is dead and still passes `contains_relaxed(k)`; `key_to_index_relaxed`,
`index_to_key_relaxed` and `get_persistent_data` return what they returned before. -/
theorem C30_soft_clear_keeps_key_table (m : IndexMap α π) :
    size (soft_clear m) = 0 ∧ keys_size (soft_clear m) = keys_size m ∧
    (∀ k, k < keys_size m →
      contains (soft_clear m) k = false ∧ contains_relaxed (soft_clear m) k = true ∧
      key_to_index_relaxed (soft_clear m) k = key_to_index_relaxed m k ∧
      index_to_key_relaxed (soft_clear m) k = index_to_key_relaxed m k ∧
      get_persistent_data (soft_clear m) k = get_persistent_data m k) := by
  refine ⟨rfl, rfl, fun k hk => ⟨?_, ?_, rfl, rfl, rfl⟩⟩
  · cases hc : contains (soft_clear m) k
    · rfl
    · obtain ⟨i, -, hlt⟩ := (contains_iff _ k).1 hc
      exact absurd hlt (Nat.not_lt_zero i)
  · unfold contains_relaxed
    exact decide_eq_true hk

/-- C30 at the map of the persistent-data checks of `test.cpp` after deletions and an insertion:
key 1 is live before and dead after `soft_clear()`, and its relaxed lookups and persistent data
(200) are the same. -/
theorem C30_soft_clear_keeps_key_table_witness :
    1 < keys_size pdata4_churned ∧ contains pdata4_churned 1 = true ∧
    contains (soft_clear pdata4_churned) 1 = false ∧
    contains_relaxed (soft_clear pdata4_churned) 1 = true ∧
    key_to_index_relaxed (soft_clear pdata4_churned) 1 = key_to_index_relaxed pdata4_churned 1 ∧
    index_to_key_relaxed (soft_clear pdata4_churned) 1 = index_to_key_relaxed pdata4_churned 1 ∧
    get_persistent_data (soft_clear pdata4_churned) 1 = get_persistent_data pdata4_churned 1 ∧
    get_persistent_data pdata4_churned 1 = .ok 200 :=
  ⟨by decide, by decide,
    ((C30_soft_clear_keeps_key_table pdata4_churned).2.2 1 (by decide)).1,
    ((C30_soft_clear_keeps_key_table pdata4_churned).2.2 1 (by decide)).2.1,
    ((C30_soft_clear_keeps_key_table pdata4_churned).2.2 1 (by decide)).2.2.1,
    ((C30_soft_clear_keeps_key_table pdata4_churned).2.2 1 (by decide)).2.2.2.1,
    ((C30_soft_clear_keeps_key_table pdata4_churned).2.2 1 (by decide)).2.2.2.2, rfl⟩

/-! ## Claims C31 to C39 -/

/-- C31: the scenario of `basic_checks` in `test.cpp`.  Inserting 10, 20, 30, 40 into an empty map
returns the keys 0, 1, 2, 3 with `key_to_index(key j) == j`; `erase(key 1)` gives the dense
storage [10, 40, 30] with keys 0, 3, 2 at indices 0, 1, 2 and `key_to_index(key 1)` throwing;
inserting 200 returns key 1 and gives [10, 40, 30, 200]; `erase(key 2)` gives [10, 40, 200];
`erase(key 0)` gives [200, 40] with keys 1 and 3 at indices 0 and 1; `keys_size()` is 4 after
each step from the fourth insertion on. -/
theorem C31_concrete_scenario :
    ((emplace 32 (empty : IndexMap Nat Unit) 10).1 = .ok ⟨0, 0, 0⟩ ∧
      (emplace 32 (emplace 32 (empty : IndexMap Nat Unit) 10).2 20).1 = .ok ⟨1, 1, 1⟩ ∧
      (emplace 32 (emplace 32 (emplace 32 (empty : IndexMap Nat Unit) 10).2 20).2 30).1 =
        .ok ⟨2, 2, 2⟩ ∧
      (emplace 32 (emplace 32 (emplace 32 (emplace 32 (empty : IndexMap Nat Unit) 10).2 20).2
        30).2 40).1 = .ok ⟨3, 3, 3⟩) ∧
    (basic4.value_storage = [10, 20, 30, 40] ∧ keys_size basic4 = 4 ∧
      key_to_index basic4 0 = .ok 0 ∧ key_to_index basic4 1 = .ok 1 ∧
      key_to_index basic4 2 = .ok 2 ∧ key_to_index basic4 3 = .ok 3) ∧
    ((erase (MoveOps.trivial Nat) basic4 1).1 = .ok () ∧
      basic4_erased.value_storage = [10, 40, 30] ∧ keys_size basic4_erased = 4 ∧
      key_to_index basic4_erased 0 = .ok 0 ∧ key_to_index basic4_erased 3 = .ok 1 ∧
      key_to_index basic4_erased 2 = .ok 2 ∧
      key_to_index basic4_erased 1 = .error .invalid_key) ∧
    ((emplace 32 basic4_erased 200).1 = .ok ⟨1, 3, 3⟩ ∧
      basic4_reinserted.value_storage = [10, 40, 30, 200] ∧ keys_size basic4_reinserted = 4) ∧
    ((erase (MoveOps.trivial Nat) basic4_reinserted 2).1 = .ok () ∧
      basic4_desynced.value_storage = [10, 40, 200] ∧ keys_size basic4_desynced = 4) ∧
    ((erase (MoveOps.trivial Nat) basic4_desynced 0).1 = .ok () ∧
      basic4_two_left.value_storage = [200, 40] ∧ keys_size basic4_two_left = 4 ∧
      index_to_key basic4_two_left 0 = .ok 1 ∧ index_to_key basic4_two_left 1 = .ok 3) :=
  ⟨⟨rfl, rfl, rfl, rfl⟩, ⟨rfl, rfl, rfl, rfl, rfl, rfl⟩, ⟨rfl, rfl, rfl, rfl, rfl, rfl, rfl⟩,
    ⟨rfl, rfl, rfl⟩, ⟨rfl, rfl, rfl⟩, ⟨rfl, rfl, rfl, rfl, rfl⟩⟩

/-- C32: key reuse is last-erased-first.  On a reachable map with distinct live keys `a` and `b`,
`erase(a)` and then `erase(b)` succeed, the next `emplace`/`insert` returns `b` and the one after
it returns `a`, and `keys_size()` is the same after each of the four calls. -/
theorem C32_key_reuse_is_lifo [Inhabited π] {w : Nat} {ops : MoveOps α} (hw : w ≤ 64)
    {m : IndexMap α π} (h : Reachable w ops m) {a b : Nat} (hab : a ≠ b)
    (ha : contains m a = true) (hb : contains m b = true) (v1 v2 : α) :
    (erase ops m a).1 = .ok () ∧ (erase ops (erase ops m a).2 b).1 = .ok () ∧
    (∃ r1 r2, (emplace w (erase ops (erase ops m a).2 b).2 v1).1 = .ok r1 ∧ r1.key = b ∧
      (emplace w (emplace w (erase ops (erase ops m a).2 b).2 v1).2 v2).1 = .ok r2 ∧
      r2.key = a) ∧
    keys_size (erase ops m a).2 = keys_size m ∧
    keys_size (erase ops (erase ops m a).2 b).2 = keys_size m ∧
    keys_size (emplace w (erase ops (erase ops m a).2 b).2 v1).2 = keys_size m ∧
    keys_size (emplace w (emplace w (erase ops (erase ops m a).2 b).2 v1).2 v2).2 =
      keys_size m := by
  have hwf := h.wf hw
  obtain ⟨ia, hia, hialt⟩ := (contains_iff m a).1 ha
  obtain ⟨ib, hib, hiblt⟩ := (contains_iff m b).1 hb
  obtain ⟨kl, m1, hkl, e1, her1, hwf1⟩ := erase_ok ops hw hwf hia hialt
  obtain ⟨jb, hjb, hjblt, -, -⟩ := her1.other hwf hia hialt hkl (Ne.symm hab) hib hiblt
  obtain ⟨kl1, m2, hkl1, e2, her2, hwf2⟩ := erase_ok ops hw hwf1 hjb hjblt
  have hda := (her1.erased_key hwf hia hkl).2
  have hdb := (her2.erased_key hwf1 hjb hkl1).2
  have hs1 := her1.size_eq
  have hs2 := her2.size_eq
  have hk1 := her1.keys_eq
  have hk2 := her2.keys_eq
  have hle := hwf.size_le
  have hda2 : ds m2.indices (size m1) = some a := by
    rw [her2.ds_eq, if_neg (by omega), if_neg (by omega)]
    exact hda
  obtain ⟨k, hk, e3, hwf3⟩ := emplace_reuse hw hwf2 v1 (show size m2 < keys_size m2 by omega)
  have hkb : k = b := by
    rw [hdb] at hk
    exact (Option.some.inj hk).symm
  have hs3 : size (emplace_back m2 v1) = size m1 := by
    have : size (emplace_back m2 v1) = size m2 + 1 := by simp [emplace_back, size]
    omega
  have hk3 : keys_size (emplace_back m2 v1) = keys_size m2 := rfl
  obtain ⟨k', hk', e4, -⟩ := emplace_reuse hw hwf3 v2
    (show size (emplace_back m2 v1) < keys_size (emplace_back m2 v1) by omega)
  have hka : k' = a := by
    rw [hs3] at hk'
    have hd : ds (emplace_back m2 v1).indices (size m1) = some a := hda2
    rw [hd] at hk'
    exact (Option.some.inj hk').symm
  rw [e1]
  dsimp only
  rw [e2]
  dsimp only
  rw [e3]
  dsimp only
  rw [e4]
  dsimp only
  refine ⟨rfl, rfl, ⟨_, _, rfl, hkb, rfl, hka⟩, hk1, hk2.trans hk1, hk2.trans hk1, ?_⟩
  exact (show keys_size (emplace_back (emplace_back m2 v1) v2) = keys_size m2 from rfl).trans
    (hk2.trans hk1)

/-- C32 on the map of `basic_checks` with keys 0..3: after `erase(key 1)` and `erase(key 3)` the
next two insertions return key 3 and then key 1. -/
theorem C32_key_reuse_is_lifo_witness :
    (32 ≤ 64 ∧ Reachable 32 (MoveOps.trivial Nat) basic4 ∧ 1 ≠ 3 ∧
      contains basic4 1 = true ∧ contains basic4 3 = true) ∧
    (∃ r1 r2,
      (emplace 32 (erase (MoveOps.trivial Nat) (erase (MoveOps.trivial Nat) basic4 1).2 3).2
        50).1 = .ok r1 ∧ r1.key = 3 ∧
      (emplace 32 (emplace 32 (erase (MoveOps.trivial Nat)
        (erase (MoveOps.trivial Nat) basic4 1).2 3).2 50).2 60).1 = .ok r2 ∧ r2.key = 1) ∧
    keys_size (emplace 32 (emplace 32 (erase (MoveOps.trivial Nat)
      (erase (MoveOps.trivial Nat) basic4 1).2 3).2 50).2 60).2 = keys_size basic4 :=
  ⟨⟨by decide, basic4_reachable, by decide, by decide, by decide⟩,
    (C32_key_reuse_is_lifo (by decide) basic4_reachable (a := 1) (b := 3) (by decide)
      (by decide) (by decide) 50 60).2.2.1,
    (C32_key_reuse_is_lifo (by decide) basic4_reachable (a := 1) (b := 3) (by decide)
      (by decide) (by decide) 50 60).2.2.2.2.2.2⟩

/-- C33: on a reachable map and for an iterator at a valid dense index `n`, `m.values().erase(it)`
and `m.keys_and_values().erase(it)` leave the map that `m.erase(n)` leaves and return an iterator
at the same dense index `n`.  When `n` was the last index that iterator equals `end()`; otherwise
it refers to the value and the key that were last before the call. -/
theorem C33_erase_through_iterator [Inhabited π] {w : Nat} {ops : MoveOps α} (hw : w ≤ 64)
    {m : IndexMap α π} (h : Reachable w ops m) {n : Nat} (hn : n < size m) :
    (erase_index ops m n).1 = .ok () ∧
    values_erase ops m (values_begin + n) =
      (.ok (values_begin + n), (erase_index ops m n).2) ∧
    keys_and_values_erase ops m (keys_and_values_begin.add n) =
      (.ok (keys_and_values_begin.add n), (erase_index ops m n).2) ∧
    (keys_and_values_begin.add n).deref.index = n ∧
    (n = size m - 1 →
      values_begin + n = values_end (erase_index ops m n).2 ∧
      keys_and_values_begin.add n = keys_and_values_end (erase_index ops m n).2) ∧
    (n ≠ size m - 1 →
      n < size (erase_index ops m n).2 ∧
      ∃ v kl, at_index m (size m - 1) = .ok v ∧ index_to_key m (size m - 1) = .ok kl ∧
        at_index (erase_index ops m n).2 n = .ok v ∧
        index_to_key (erase_index ops m n).2 n = .ok kl ∧
        KeyValueRef.value (erase_index ops m n).2 (keys_and_values_begin.add n).deref = .ok v ∧
        KeyValueRef.key (erase_index ops m n).2 (keys_and_values_begin.add n).deref =
          .ok kl) := by
  have hwf := h.wf hw
  have hlt := hwf.size_lt hw
  have hn64 : n < 2 ^ 64 := by omega
  obtain ⟨k, kl, m', hk, hkl, e, her, hwf'⟩ := erase_index_ok ops hw hwf hn
  have hadd : keys_and_values_begin.add (n : Int) = ⟨⟨n⟩⟩ := keys_and_values_begin_add hn64
  have hsz := her.size_eq
  have hve := values_erase_eq ops m hn64
  rw [e] at hve
  have hke : keys_and_values_erase ops m (keys_and_values_begin.add n) =
      (.ok (keys_and_values_begin.add n), m') := by
    unfold keys_and_values_erase KeyValueIter.deref KeyValueRef.index
    rw [hadd]
    dsimp only
    rw [e]
  rw [e]
  dsimp only
  refine ⟨rfl, hve, hke, ?_, ?_, ?_⟩
  · rw [hadd]
    rfl
  · intro hlast
    constructor
    · unfold values_end values_begin
      have : m'.value_storage.length = size m' := rfl
      omega
    · rw [hadd]
      unfold keys_and_values_end keys_and_values_size
      have : size m' = n := by omega
      rw [this]
  · intro hne
    have hn' : n < size m' := by omega
    obtain ⟨v, hv⟩ := value_isSome (show size m - 1 < size m by omega)
    have hv' : m'.value_storage[n]? = some v := by
      rw [her.vals_eq, if_pos (by omega), if_pos rfl, hv]
    have hd' : ds m'.indices n = some kl := by
      rw [her.ds_eq, if_pos rfl]
    refine ⟨hn', v, kl, at_index_of_get hv, index_to_key_of_ds hkl (by omega),
      at_index_of_get hv', index_to_key_of_ds hd' hn', ?_, ?_⟩
    · rw [hadd]
      exact at_index_of_get hv'
    · rw [hadd]
      show index_to_key_unsafe m' n = .ok kl
      rw [index_to_key_unsafe_eq, hd']

/-- C33 on the map of `value_range_checks` in `test.cpp`, with values [10, 40, 21, 31]: erasing
through the iterator at index 1 returns the iterator at index 1, which then refers to 31, the
value that was last. -/
theorem C33_erase_through_iterator_witness :
    (32 ≤ 64 ∧ Reachable 32 (MoveOps.trivial Nat) advanced4 ∧ 1 < size advanced4) ∧
    values_erase (MoveOps.trivial Nat) advanced4 (values_begin + 1) =
      (.ok (values_begin + 1), (erase_index (MoveOps.trivial Nat) advanced4 1).2) ∧
    keys_and_values_erase (MoveOps.trivial Nat) advanced4 (keys_and_values_begin.add 1) =
      (.ok (keys_and_values_begin.add 1), (erase_index (MoveOps.trivial Nat) advanced4 1).2) ∧
    (1 < size (erase_index (MoveOps.trivial Nat) advanced4 1).2 ∧
      ∃ v kl, at_index advanced4 (size advanced4 - 1) = .ok v ∧
        index_to_key advanced4 (size advanced4 - 1) = .ok kl ∧
        at_index (erase_index (MoveOps.trivial Nat) advanced4 1).2 1 = .ok v ∧
        index_to_key (erase_index (MoveOps.trivial Nat) advanced4 1).2 1 = .ok kl ∧
        KeyValueRef.value (erase_index (MoveOps.trivial Nat) advanced4 1).2
          (keys_and_values_begin.add 1).deref = .ok v ∧
        KeyValueRef.key (erase_index (MoveOps.trivial Nat) advanced4 1).2
          (keys_and_values_begin.add 1).deref = .ok kl) ∧
    at_index (erase_index (MoveOps.trivial Nat) advanced4 1).2 1 = .ok 31 :=
  ⟨⟨by decide, advanced4_reachable, by decide⟩,
    (C33_erase_through_iterator (by decide) advanced4_reachable (n := 1) (by decide)).2.1,
    (C33_erase_through_iterator (by decide) advanced4_reachable (n := 1) (by decide)).2.2.1,
    (C33_erase_through_iterator (by decide) advanced4_reachable (n := 1)
      (by decide)).2.2.2.2.2 (by decide),
    rfl⟩

/-- C34: on a reachable map and for every dense index `i < size()`, the element
`keys_and_values()[i]`, which is also `*(begin() + i)`, reports `index() == i`,
`key() == index_to_key(i)`, `value() == m[i]` and
`persistent_data() == get_persistent_data(index_to_key(i))`, all of them without failing; the
view has the size of the map, and `begin()` and `end()` sit at the indices 0 and `size()`. -/
theorem C34_key_value_element_access [Inhabited π] {w : Nat} {ops : MoveOps α} (hw : w ≤ 64)
    {m : IndexMap α π} (h : Reachable w ops m) {i : Nat} (hi : i < size m) :
    (keys_and_values_begin.add i).deref = keys_and_values_at i ∧
    (keys_and_values_at i).index = i ∧
    (∃ k v d, index_to_key m i = .ok k ∧ at_index m i = .ok v ∧
      get_persistent_data m k = .ok d ∧
      KeyValueRef.key m (keys_and_values_at i) = .ok k ∧
      KeyValueRef.value m (keys_and_values_at i) = .ok v ∧
      KeyValueRef.persistent_data m (keys_and_values_at i) = .ok d) ∧
    keys_and_values_size m = size m ∧
    keys_and_values_begin.deref.index = 0 ∧
    (keys_and_values_end m).deref.index = size m := by
  have hwf := h.wf hw
  have hlt := hwf.size_lt hw
  have hi64 : i < 2 ^ 64 := by omega
  have hat : keys_and_values_at i = ⟨i⟩ := keys_and_values_at_eq hi64
  have hadd : keys_and_values_begin.add (i : Int) = ⟨⟨i⟩⟩ := keys_and_values_begin_add hi64
  obtain ⟨k, hk⟩ := ds_isSome (Nat.lt_of_lt_of_le hi hwf.size_le)
  obtain ⟨v, hv⟩ := value_isSome hi
  obtain ⟨d, hd⟩ := pd_isSome (sd_some_lt (hwf.inv.2 _ _ hk))
  have hik := index_to_key_of_ds hk hi
  have hpd : get_persistent_data m k = .ok d := by
    rw [get_persistent_data_eq, hd]
  refine ⟨?_, ?_, ⟨k, v, d, hik, at_index_of_get hv, hpd, ?_, ?_, ?_⟩, rfl, rfl, rfl⟩
  · rw [hadd, hat]
    rfl
  · rw [hat]
    rfl
  · rw [hat]
    show index_to_key_unsafe m i = .ok k
    rw [index_to_key_unsafe_eq, hk]
  · rw [hat]
    exact at_index_of_get hv
  · rw [hat]
    unfold KeyValueRef.persistent_data
    dsimp only
    rw [hik]
    exact hpd

/-- C34 on the map of `persistent_data_checks` in `test.cpp` with the values [10, 40, 21] and the
payloads 100..400 stored under the keys 0..3, which `key_value_range_basic_checks` builds too:
the element at index 1 has key 3, value 40 and persistent data 400. -/
theorem C34_key_value_element_access_witness :
    (32 ≤ 64 ∧ Reachable 32 (MoveOps.trivial Nat) pdata4_churned ∧
      1 < size pdata4_churned) ∧
    (keys_and_values_at 1).index = 1 ∧
    (∃ k v d, index_to_key pdata4_churned 1 = .ok k ∧ at_index pdata4_churned 1 = .ok v ∧
      get_persistent_data pdata4_churned k = .ok d ∧
      KeyValueRef.key pdata4_churned (keys_and_values_at 1) = .ok k ∧
      KeyValueRef.value pdata4_churned (keys_and_values_at 1) = .ok v ∧
      KeyValueRef.persistent_data pdata4_churned (keys_and_values_at 1) = .ok d) ∧
    index_to_key pdata4_churned 1 = .ok 3 ∧ at_index pdata4_churned 1 = .ok 40 ∧
    get_persistent_data pdata4_churned 3 = .ok 400 ∧
    (keys_and_values_end pdata4_churned).deref.index = size pdata4_churned :=
  ⟨⟨by decide, pdata4_churned_reachable, by decide⟩,
    (C34_key_value_element_access (by decide) pdata4_churned_reachable (i := 1)
      (by decide)).2.1,
    (C34_key_value_element_access (by decide) pdata4_churned_reachable (i := 1)
      (by decide)).2.2.1,
    rfl, rfl, rfl,
    (C34_key_value_element_access (by decide) pdata4_churned_reachable (i := 1)
      (by decide)).2.2.2.2.2⟩

/-- C35: the size-only map `IndexMap<void>` does the key bookkeeping of a valued map.  For every
sequence of `emplace`, `erase(key)`, `erase(index)` and `remove_unused_key` calls made on a
default-constructed `IndexMap<void>` and on a default-constructed `IndexMap<T>`, the two maps
return the same keys, booleans and exceptions call by call, and afterwards they agree on
`size()`, `keys_size()`, `contains`, `key_to_index_relaxed` and `index_to_key_relaxed`.  Every
prefix of a sequence is a sequence, so the maps agree after each call. -/
theorem C35_size_only_map_same_bookkeeping [Inhabited π] {w : Nat} (hw : w ≤ 64)
    (ops : MoveOps α) (calls : List (Call α)) :
    (run_calls_void w (IndexMapVoid.empty : IndexMapVoid π) calls).1 =
      (run_calls w ops (empty : IndexMap α π) calls).1 ∧
    IndexMapVoid.size (run_calls_void w (IndexMapVoid.empty : IndexMapVoid π) calls).2 =
      size (run_calls w ops (empty : IndexMap α π) calls).2 ∧
    IndexMapVoid.keys_size (run_calls_void w (IndexMapVoid.empty : IndexMapVoid π) calls).2 =
      keys_size (run_calls w ops (empty : IndexMap α π) calls).2 ∧
    (∀ k,
      IndexMapVoid.contains (run_calls_void w (IndexMapVoid.empty : IndexMapVoid π) calls).2 k =
        contains (run_calls w ops (empty : IndexMap α π) calls).2 k ∧
      IndexMapVoid.key_to_index_relaxed
          (run_calls_void w (IndexMapVoid.empty : IndexMapVoid π) calls).2 k =
        key_to_index_relaxed (run_calls w ops (empty : IndexMap α π) calls).2 k ∧
      IndexMapVoid.index_to_key_relaxed
          (run_calls_void w (IndexMapVoid.empty : IndexMapVoid π) calls).2 k =
        index_to_key_relaxed (run_calls w ops (empty : IndexMap α π) calls).2 k) := by
  have h := run_calls_forget hw ops calls (Reachable.init : Reachable w ops (empty : IndexMap α π))
  have he : forget (empty : IndexMap α π) = IndexMapVoid.empty := rfl
  rw [he] at h
  rw [h]
  dsimp only
  have ho := forget_observers (run_calls w ops (empty : IndexMap α π) calls).2
  exact ⟨rfl, ho.1, ho.2.1, fun k => ⟨ho.2.2.1 k, ho.2.2.2.1 k, ho.2.2.2.2 k⟩⟩

/-- C35 on the calls of `basic_checks` and `void_value_checks` of `test.cpp`: both maps return
the keys 0, 1, 2, 3, then reuse key 1, and the `erase` of the dead key 2 throws on both. -/
theorem C35_size_only_map_same_bookkeeping_witness :
    32 ≤ 64 ∧
    (run_calls_void 32 (IndexMapVoid.empty : IndexMapVoid Unit) scenario_calls).1 =
      (run_calls 32 (MoveOps.trivial Nat) (empty : IndexMap Nat Unit) scenario_calls).1 ∧
    IndexMapVoid.size (run_calls_void 32 (IndexMapVoid.empty : IndexMapVoid Unit)
        scenario_calls).2 =
      size (run_calls 32 (MoveOps.trivial Nat) (empty : IndexMap Nat Unit) scenario_calls).2 ∧
    (run_calls 32 (MoveOps.trivial Nat) (empty : IndexMap Nat Unit) scenario_calls).1 =
      [.ok (.inserted 0 0), .ok (.inserted 1 1), .ok (.inserted 2 2), .ok (.inserted 3 3),
        .ok .erased, .ok (.inserted 1 3), .ok .erased, .ok .erased, .ok (.reclaimed false),
        .error .invalid_key, .ok .erased, .ok (.reclaimed true)] ∧
    size (run_calls 32 (MoveOps.trivial Nat) (empty : IndexMap Nat Unit) scenario_calls).2 = 1 :=
  ⟨by decide,
    (C35_size_only_map_same_bookkeeping (by decide) (MoveOps.trivial Nat) scenario_calls).1,
    (C35_size_only_map_same_bookkeeping (by decide) (MoveOps.trivial Nat) scenario_calls).2.1,
    rfl, rfl⟩

/-- C36: in every reachable state the two index tables are mutually inverse permutations of
`[0, keys_size())`, dead keys included: every key `k < keys_size()` has a position
`key_to_index_relaxed(k) < keys_size()` whose `index_to_key_relaxed` is `k`, and every position
`i < keys_size()` has a key `index_to_key_relaxed(i) < keys_size()` whose `key_to_index_relaxed`
is `i`. -/
theorem C36_index_tables_inverse_permutations [Inhabited π] {w : Nat} {ops : MoveOps α}
    (hw : w ≤ 64) {m : IndexMap α π} (h : Reachable w ops m) :
    (∀ k, k < keys_size m →
      ∃ i, key_to_index_relaxed m k = .ok i ∧ i < keys_size m ∧
        index_to_key_relaxed m i = .ok k) ∧
    (∀ i, i < keys_size m →
      ∃ k, index_to_key_relaxed m i = .ok k ∧ k < keys_size m ∧
        key_to_index_relaxed m k = .ok i) := by
  have hwf := h.wf hw
  constructor
  · intro k hk
    obtain ⟨i, hi⟩ := sd_isSome (show k < m.indices.length from hk)
    have hd := hwf.inv.1 _ _ hi
    exact ⟨i, key_to_index_relaxed_of_sd hi, ds_some_lt hd, index_to_key_relaxed_of_ds hd⟩
  · intro i hi
    obtain ⟨k, hk⟩ := ds_isSome (show i < m.indices.length from hi)
    have hs := hwf.inv.2 _ _ hk
    exact ⟨k, index_to_key_relaxed_of_ds hk, sd_some_lt hs, key_to_index_relaxed_of_sd hs⟩

/-- C36 on the map of `basic_checks` after the three `erase` calls (test.cpp lines 210 to 217):
the dead key 2 sits at position 3, and position 2 holds the dead key 0. -/
theorem C36_index_tables_inverse_permutations_witness :
    (32 ≤ 64 ∧ Reachable 32 (MoveOps.trivial Nat) basic4_two_left ∧
      2 < keys_size basic4_two_left) ∧
    (∃ i, key_to_index_relaxed basic4_two_left 2 = .ok i ∧ i < keys_size basic4_two_left ∧
      index_to_key_relaxed basic4_two_left i = .ok 2) ∧
    (∃ k, index_to_key_relaxed basic4_two_left 2 = .ok k ∧ k < keys_size basic4_two_left ∧
      key_to_index_relaxed basic4_two_left k = .ok 2) ∧
    key_to_index_relaxed basic4_two_left 2 = .ok 3 ∧
    index_to_key_relaxed basic4_two_left 2 = .ok 0 :=
  ⟨⟨by decide, basic4_two_left_reachable, by decide⟩,
    (C36_index_tables_inverse_permutations (by decide) basic4_two_left_reachable).1 2
      (by decide),
    (C36_index_tables_inverse_permutations (by decide) basic4_two_left_reachable).2 2
      (by decide),
    rfl, rfl⟩

/-- C37: in every reachable state `keys_size() <= max_size()`, so every issued key ordinal and
every stored `sparse_to_dense` and `dense_to_sparse` value is at most
`numeric_limits<KeyType>::max()`, which is `2^w - 1`.  The cast `KeyType(indices.size())` of an
insertion that issues a new key, and the casts `KeyType(i)` of a
`prepare_keys_for_insertion(n)` that does not throw, return their argument unchanged. -/
theorem C37_key_casts_never_truncate [Inhabited π] {w : Nat} {ops : MoveOps α} (hw : w ≤ 64)
    {m : IndexMap α π} (h : Reachable w ops m) :
    keys_size m ≤ max_size w ∧ max_size w ≤ (2 ^ w - 1) + 1 ∧
    (∀ k, k < keys_size m → k ≤ 2 ^ w - 1) ∧
    (∀ (k : Nat) (e : IndexEntry π), m.indices[k]? = some e →
      e.sparse_to_dense ≤ 2 ^ w - 1 ∧ e.dense_to_sparse ≤ 2 ^ w - 1) ∧
    (size m < max_size w → size m = keys_size m →
      to_key w (keys_size m) = keys_size m ∧
      ∀ v, ∃ r, (emplace w m v).1 = .ok r ∧ r.key = keys_size m) ∧
    (∀ n, (prepare_keys_for_insertion w m n).1 = .ok () →
      ∀ i, keys_size m ≤ i → i < n → to_key w i = i) := by
  have hwf := h.wf hw
  have hle := hwf.keys_le
  have hpow := max_size_le_pow w
  have hpos : 0 < 2 ^ w := Nat.pow_pos (by decide)
  refine ⟨hle, by omega, fun k hk => by omega, ?_, ?_, ?_⟩
  · intro k e he
    have hs : sd m.indices k = some e.sparse_to_dense := by
      unfold sd
      rw [he]
      rfl
    have hd : ds m.indices k = some e.dense_to_sparse := by
      unfold ds
      rw [he]
      rfl
    have h1 := ds_some_lt (hwf.inv.1 _ _ hs)
    have h2 := sd_some_lt (hwf.inv.2 _ _ hd)
    unfold keys_size at hle
    constructor <;> omega
  · intro hlt heq
    refine ⟨to_key_eq (by omega), fun v => ?_⟩
    obtain ⟨r, m', e, -, -, -, -, -, -, -, hfresh⟩ := emplace_ok hw hwf v hlt
    rw [e]
    exact ⟨r, rfl, (hfresh heq).1⟩
  · intro n hok i hi hin
    by_cases hn : max_size w < n
    · rw [prepare_fail (by omega) hn] at hok
      cases hok
    · exact to_key_eq (by omega)

/-- C37 on the map of `basic_checks` with the keys 0..3 of a 32-bit key type: four keys are
issued, key 3 and the stored entries of key 3 fit the key type, and the next insertion issues
the key 4 uncut. -/
theorem C37_key_casts_never_truncate_witness :
    (32 ≤ 64 ∧ Reachable 32 (MoveOps.trivial Nat) basic4 ∧ size basic4 < max_size 32 ∧
      size basic4 = keys_size basic4) ∧
    keys_size basic4 ≤ max_size 32 ∧ keys_size basic4 = 4 ∧
    to_key 32 (keys_size basic4) = keys_size basic4 ∧
    (∃ r, (emplace 32 basic4 50).1 = .ok r ∧ r.key = keys_size basic4) :=
  ⟨⟨by decide, basic4_reachable, by decide, by decide⟩,
    (C37_key_casts_never_truncate (by decide) basic4_reachable).1, by decide,
    ((C37_key_casts_never_truncate (by decide) basic4_reachable).2.2.2.2.1 (by decide)
      (by decide)).1,
    ((C37_key_casts_never_truncate (by decide) basic4_reachable).2.2.2.2.1 (by decide)
      (by decide)).2 50⟩

/-- C38: on a reachable map the loop `while (remove_unused_key()) {}` ends, given fuel for more
than `keys_size() - size()` calls, in a map on which the call returns false.  In that map
`keys_size()` is 0 if no key was live and otherwise 1 + the largest live key; every live key is
still live with the same dense index and the same value, no dead key has become live, and
`size()` is unchanged. -/
theorem C38_exhaustive_reclamation [Inhabited π] {w : Nat} {ops : MoveOps α} (hw : w ≤ 64)
    {m : IndexMap α π} (h : Reachable w ops m) (fuel : Nat)
    (hfuel : keys_size m - size m < fuel) :
    ∃ c m', remove_unused_key_loop fuel m = some (c, m') ∧
      (remove_unused_key m').1 = .ok false ∧ size m' = size m ∧
      ((∀ k, contains m k = false) → keys_size m' = 0) ∧
      (∀ kmax, contains m kmax = true → (∀ k, contains m k = true → k ≤ kmax) →
        keys_size m' = 1 + kmax) ∧
      (∀ k, contains m' k = contains m k) ∧
      (∀ k, contains m k = true →
        contains m' k = true ∧ key_to_index m' k = key_to_index m k ∧
        at_key m' k = at_key m k) := by
  have hwf := h.wf hw
  obtain ⟨c, m', el, -, -, -, -, -⟩ :=
    remove_unused_key_loop_terminates hw (keys_size m - size m) m hwf (Nat.le_refl _) fuel hfuel
  obtain ⟨hwf', hfalse, hv, hc, hsd⟩ := remove_unused_key_loop_live hw fuel m c m' hwf el
  have hsz : size m' = size m := by
    unfold size
    rw [hv]
  have hlast : keys_size m' = 0 ∨ contains m' (keys_size m' - 1) = true := by
    rcases remove_unused_key_cases hw hwf' with ⟨-, hcase⟩ | ⟨i, kb, m1, -, -, -, -, -, e, -, -⟩
    · exact hcase
    · rw [e] at hfalse
      cases hfalse
  refine ⟨c, m', el, by rw [hfalse], hsz, ?_, ?_, hc, ?_⟩
  · intro hnone
    rcases hlast with h0 | hl
    · exact h0
    · rw [hc, hnone] at hl
      cases hl
  · intro kmax hlive hmax
    have h1 : contains m' kmax = true := by rw [hc, hlive]
    obtain ⟨i, hi, -⟩ := (contains_iff m' kmax).1 h1
    have h2 : kmax < keys_size m' := sd_some_lt hi
    rcases hlast with h0 | hl
    · omega
    · rw [hc] at hl
      have := hmax _ hl
      omega
  · intro k hk
    obtain ⟨j, hj, hlt⟩ := (contains_iff m k).1 hk
    obtain ⟨v, hvj⟩ := value_isSome hlt
    have hj' := hsd k j hj hlt
    have hvj' : m'.value_storage[j]? = some v := by rw [hv, hvj]
    refine ⟨by rw [hc, hk], ?_, ?_⟩
    · rw [key_to_index_of_sd hj' (by omega), key_to_index_of_sd hj hlt]
    · rw [at_key_of_sd hj' hvj', at_key_of_sd hj hvj]

/-- C38 on the map of `basic_checks` before its `remove_unused_key()` calls, where only key 1 is
live and the dead keys 3, 0, 2 follow: the loop stops with `keys_size() == 2`, one more than the
largest live key, keeping the dead key 0 below it; key 1 keeps its index and its value. -/
theorem C38_exhaustive_reclamation_witness :
    (32 ≤ 64 ∧ Reachable 32 (MoveOps.trivial Nat) basic4_one_left ∧
      keys_size basic4_one_left - size basic4_one_left < 4 ∧
      contains basic4_one_left 1 = true ∧ contains basic4_one_left 0 = false) ∧
    ∃ c m', remove_unused_key_loop 4 basic4_one_left = some (c, m') ∧
      (remove_unused_key m').1 = .ok false ∧ size m' = size basic4_one_left ∧
      keys_size m' = 1 + 1 ∧
      (contains m' 1 = true ∧ key_to_index m' 1 = key_to_index basic4_one_left 1 ∧
        at_key m' 1 = at_key basic4_one_left 1) :=
  ⟨⟨by decide, basic4_one_left_reachable, by decide, by decide, by decide⟩,
    (C38_exhaustive_reclamation (by decide) basic4_one_left_reachable 4 (by decide)).imp
      (fun _ hc => hc.imp (fun _ hm =>
        ⟨hm.1, hm.2.1, hm.2.2.1, hm.2.2.2.2.1 1 (by decide) basic4_one_left_live,
          hm.2.2.2.2.2.2 1 (by decide)⟩))⟩

/-- C39: erase by key and erase by index are the same operation.  On a reachable map, for every
live key `k` the calls `erase(k)` and `erase(key_to_index(k))` return normally and leave the same
map, and for every `i < size()` so do `erase(i)` and `erase(index_to_key(i))`; the same map means
the same values, `size()`, `keys_size()` and index table. -/
theorem C39_erase_by_key_is_erase_by_index [Inhabited π] {w : Nat} {ops : MoveOps α}
    (hw : w ≤ 64) {m : IndexMap α π} (h : Reachable w ops m) :
    (∀ k, contains m k = true →
      ∃ i, key_to_index m k = .ok i ∧ (erase ops m k).1 = .ok () ∧
        erase ops m k = erase_index ops m i) ∧
    (∀ i, i < size m →
      ∃ k, index_to_key m i = .ok k ∧ (erase_index ops m i).1 = .ok () ∧
        erase_index ops m i = erase ops m k) := by
  have hwf := h.wf hw
  constructor
  · intro k hk
    obtain ⟨i, hi, hlt⟩ := (contains_iff m k).1 hk
    obtain ⟨kl, m', -, e, -, -⟩ := erase_ok ops hw hwf hi hlt
    refine ⟨i, key_to_index_of_sd hi hlt, by rw [e], ?_⟩
    exact (erase_index_eq_erase ops hw hwf hi hlt).symm
  · intro i hi
    obtain ⟨k, hk⟩ := ds_isSome (Nat.lt_of_lt_of_le hi hwf.size_le)
    have hs := hwf.inv.2 _ _ hk
    obtain ⟨kl, m', -, e, -, -⟩ := erase_ok ops hw hwf hs hi
    have heq := erase_index_eq_erase ops hw hwf hs hi
    refine ⟨k, index_to_key_of_ds hk hi, ?_, heq⟩
    rw [heq, e]

/-- C39 on the map of `persistent_data_checks` in `test.cpp` where the keys 0, 3, 1 are live in
this dense order: `erase(key 3)` is `erase(1)`, and `erase(2)` is `erase(key 1)`. -/
theorem C39_erase_by_key_is_erase_by_index_witness :
    (32 ≤ 64 ∧ Reachable 32 (MoveOps.trivial Nat) pdata4_churned ∧
      contains pdata4_churned 3 = true ∧ 2 < size pdata4_churned) ∧
    (∃ i, key_to_index pdata4_churned 3 = .ok i ∧
      (erase (MoveOps.trivial Nat) pdata4_churned 3).1 = .ok () ∧
      erase (MoveOps.trivial Nat) pdata4_churned 3 =
        erase_index (MoveOps.trivial Nat) pdata4_churned i) ∧
    (∃ k, index_to_key pdata4_churned 2 = .ok k ∧
      (erase_index (MoveOps.trivial Nat) pdata4_churned 2).1 = .ok () ∧
      erase_index (MoveOps.trivial Nat) pdata4_churned 2 =
        erase (MoveOps.trivial Nat) pdata4_churned k) ∧
    key_to_index pdata4_churned 3 = .ok 1 ∧ index_to_key pdata4_churned 2 = .ok 1 :=
  ⟨⟨by decide, pdata4_churned_reachable, by decide, by decide⟩,
    (C39_erase_by_key_is_erase_by_index (by decide) pdata4_churned_reachable).1 3 (by decide),
    (C39_erase_by_key_is_erase_by_index (by decide) pdata4_churned_reachable).2 2 (by decide),
    rfl, rfl⟩

end em
